import Mathlib

set_option autoImplicit false

/-! Shallow embedding of the hopscotch hash map in `src/hash_map.hpp`.

Keys and values are `Nat`; the hash function is an arbitrary `Nat → Nat` stored
in the map (mirroring the `hasher_` member).  `std::list` iterators are modelled
as stable entry identifiers allocated from a counter (`next_id`); the fields
`object_it_` and `object_const_it_` of a bucket always designate the same entry
in the source, so they are modelled as the single field `object_it_`.  `size_t`
arithmetic that can wrap — the `+=`/`-=` updates of delta fields and the
`static_cast<SizeType>` of iterator differences — is modelled modulo `2 ^ 64`.
Allocation failure (`std::bad_alloc`, thrown by `std::vector::assign` when a
table of at least `2 ^ 64` buckets is requested, which can never be satisfied
on a 64-bit machine) aborts the operation; aborted operations are modelled by
`Option.none` results and do not produce reachable states. -/

namespace Hopscotch

def U64 : Nat := 2 ^ 64

/-- `std::numeric_limits<SizeType>::max()`, the sentinel for a missing delta. -/
def NULL_DELTA : Nat := U64 - 1

/-- `std::numeric_limits<SizeType>::max()`, the sentinel marking an empty bucket. -/
def EMPTY_BUCKET : Nat := U64 - 1

/-- `static_cast<SizeType>` of the pointer difference `a - b`. -/
def usub (a b : Nat) : Nat := (((a : Int) - (b : Int)) % (U64 : Int)).toNat

/-- `SizeType` addition (wraps modulo `2 ^ 64`). -/
def uadd (a b : Nat) : Nat := (a + b) % U64

/-- `size_modifier_ = 3`: multiplicative capacity-growth factor. -/
def size_modifier_ : Nat := 3

/-- `neighbourhood_modifier_ = 3`: multiplicative neighbourhood-growth factor. -/
def neighbourhood_modifier_ : Nat := 3

/-- `min_neighbourhood_size_ = 4`: initial neighbourhood size and initial capacity. -/
def min_neighbourhood_size_ : Nat := 4

/-- One record of the bucket table (`struct Bucket`). -/
structure Bucket where
  object_it_ : Nat := 0
  first_delta_ : Nat := NULL_DELTA
  next_delta_ : Nat := NULL_DELTA
  prev_delta_ : Nat := NULL_DELTA
  object_bucket_ : Nat := EMPTY_BUCKET
  deriving Repr, DecidableEq

instance : Inhabited Bucket := ⟨{}⟩

/-- One node of the `std::list<ObjectType>` entry store, tagged with its stable
iterator identity `id`. -/
structure Entry where
  id : Nat
  key : Nat
  val : Nat
  deriving Repr, DecidableEq

/-- The whole container (`class HashMap`). -/
structure HashMap where
  objects_ : List Entry
  next_id : Nat
  buckets_ : List Bucket
  neighbourhood_size_ : Nat
  hasher_ : Nat → Nat

/-- Read bucket `i` (`buckets_[i]`; out-of-range reads give the default record). -/
def bget (bs : List Bucket) (i : Nat) : Bucket := bs.getD i default

/-- Update bucket `i` in place (out-of-range writes are dropped). -/
def bmod (bs : List Bucket) (i : Nat) (f : Bucket → Bucket) : List Bucket :=
  bs.set i (f (bget bs i))

/-- Dereference an entry handle in the entry store. -/
def lookupEntry (os : List Entry) (id : Nat) : Option Entry :=
  os.find? (fun e => e.id == id)

def capacity (m : HashMap) : Nat := m.buckets_.length

/-- `HashMap::HashMap(hasher)`: `neighbourhood_size_` buckets, all empty. -/
def mkHashMap (hasher : Nat → Nat) : HashMap :=
  { objects_ := []
    next_id := 0
    buckets_ := List.replicate min_neighbourhood_size_ {}
    neighbourhood_size_ := min_neighbourhood_size_
    hasher_ := hasher }

/-- `HashMap::GetStartBucket`: home index `hasher_(key) % buckets_.size()`. -/
def GetStartBucket (m : HashMap) (key : Nat) : Nat :=
  m.hasher_ key % m.buckets_.length

/-- Step A of `InsertObject`: linear scan from `i` for the first bucket with
`object_bucket_ == EMPTY_BUCKET`; returns `bs.length` when the scan reaches
`buckets_.end()`. -/
def probeFreeAux (bs : List Bucket) : Nat → Nat → Nat
  | 0, i => i
  | fuel + 1, i =>
    if i < bs.length ∧ (bget bs i).object_bucket_ ≠ EMPTY_BUCKET then
      probeFreeAux bs fuel (i + 1)
    else i

/-- Step A of `InsertObject`, entry point: the structural fuel `bs.length - i`
is exactly the number of buckets left to scan, so the recursion mirrors the
`while` loop step for step. -/
def probeFree (bs : List Bucket) (i : Nat) : Nat :=
  probeFreeAux bs (bs.length - i) i

/-- The displacement-candidate scan of `InsertObject` (the inner `while` over
`fit_bucket`): starting from `fit = free`, step backward while the window bound
`neighbourhood_size_ > (free - fit) + 1` holds and the occupant just below
(`fit - 1`) cannot legally move to `free`; stop (`break`) as soon as it can.
Returns the final value of `fit_bucket`. -/
def fitScan (bs : List Bucket) (H free : Nat) : Nat → Nat
  | 0 => 0
  | fit + 1 =>
    if uadd (usub free (fit + 1)) 1 < H then
      if H > usub free (bget bs fit).object_bucket_ then fit + 1
      else fitScan bs H free fit
    else fit + 1

/-- One hop of Step B: move the occupant of bucket `c` (the chosen
`fit_bucket` after `--fit_bucket`) to the empty bucket `free`, repairing the
chain links exactly as the source does, statement by statement.  Pointer
differences assigned into `SizeType` fields go through `usub`/`uadd`; the
pointer moves `fit - prev_delta_` and `fit + next_delta_` are plain index
arithmetic (their operands are genuine in-range deltas in every run reaching
this code). -/
def hopPrevStage (bs : List Bucket) (c free : Nat) : List Bucket :=
  if (bget bs c).prev_delta_ ≠ NULL_DELTA then
    let bsa := bmod bs (c - (bget bs c).prev_delta_)
      (fun b => { b with next_delta_ := uadd b.next_delta_ (free - c) })
    let bsb := bmod bsa c
      (fun b => { b with prev_delta_ := uadd b.prev_delta_ (free - c) })
    let pc := (bget bsb c).prev_delta_
    let pf := (bget bsb free).prev_delta_
    bmod (bmod bsb c (fun b => { b with prev_delta_ := pf })) free
      (fun b => { b with prev_delta_ := pc })
  else bs

def hopNextStage (bs1 : List Bucket) (c free : Nat) : List Bucket :=
  if (bget bs1 c).next_delta_ ≠ NULL_DELTA then
    let bsa := bmod bs1 (c + (bget bs1 c).next_delta_)
      (fun b => { b with prev_delta_ := usub b.prev_delta_ (free - c) })
    let bsb := bmod bsa c
      (fun b => { b with next_delta_ := usub b.next_delta_ (free - c) })
    let nc := (bget bsb c).next_delta_
    let nf := (bget bsb free).next_delta_
    bmod (bmod bsb c (fun b => { b with next_delta_ := nf })) free
      (fun b => { b with next_delta_ := nc })
  else bs1

def hopHeadStage (bs2 : List Bucket) (c free : Nat) : List Bucket :=
  let ob := (bget bs2 c).object_bucket_
  if c = ob + (bget bs2 ob).first_delta_ then
    bmod bs2 ob (fun b => { b with first_delta_ := usub free ob })
  else bs2

def hopSwapStage (bs3 : List Bucket) (c free : Nat) : List Bucket :=
  let oc := (bget bs3 c).object_it_
  let of_ := (bget bs3 free).object_it_
  let bc := (bget bs3 c).object_bucket_
  let bf := (bget bs3 free).object_bucket_
  bmod (bmod (bmod (bmod bs3 c (fun b => { b with object_it_ := of_ })) free
      (fun b => { b with object_it_ := oc })) c
      (fun b => { b with object_bucket_ := bf })) free
    (fun b => { b with object_bucket_ := bc })

def hopStep (bs : List Bucket) (c free : Nat) : List Bucket :=
  hopSwapStage (hopHeadStage (hopNextStage (hopPrevStage bs c free) c free)
    c free) c free

/-- `fitScan` never increases `fit`. -/
theorem fitScan_le (bs : List Bucket) (H free : Nat) :
    ∀ fit, fitScan bs H free fit ≤ fit := by
  intro fit
  induction fit with
  | zero => simp [fitScan]
  | succ fit ih =>
    rw [fitScan]
    split
    · split
      · exact le_refl _
      · exact le_trans ih (Nat.le_succ _)
    · exact le_refl _

/-- Step B of `InsertObject`: the outer `while` that hops the free slot
backward until `free - start < neighbourhood_size_`.  Returns the bucket list
as mutated so far together with the final free index, or `none` in the failure
case (`return buckets_.end()` inside the loop).  `free` strictly decreases
across iterations, so the structural fuel `free + 1` supplied at the entry
point never runs out; the fuel-exhausted branch is unreachable. -/
def hopLoop (H start : Nat) : Nat → List Bucket → Nat → List Bucket × Option Nat
  | 0, bs, _ => (bs, none)
  | fuel + 1, bs, free =>
    if H ≤ usub free start then
      let fit := fitScan bs H free free
      if fit = 0 ∨ H ≤ uadd (usub free fit) 1 then (bs, none)
      else hopLoop H start fuel (hopStep bs (fit - 1) free) (fit - 1)
    else (bs, some free)

/-- The backward walk of Step C locating the chain predecessor: from
`previous = free`, step down while `previous != start` and the bucket below
does not belong to home `h`.  (The recursion is structural on `p`; the
`p = 0` base case is reachable only when `start > free`, which never happens
in real runs, where `start ≤ p` throughout.) -/
def prevWalk (bs : List Bucket) (start h : Nat) : Nat → Nat
  | 0 => 0
  | p + 1 =>
    if p + 1 ≠ start ∧ (bget bs p).object_bucket_ ≠ h then prevWalk bs start h p
    else p + 1

/-- Step C of `InsertObject`: record the entry in the free bucket, walk back
to the chain predecessor, and splice the bucket into its home's chain, branch
for branch as in the source. -/
def installSplice (bs : List Bucket) (start free oid : Nat) : List Bucket :=
  let bs1 := bmod bs free
    (fun b => { b with object_it_ := oid, object_bucket_ := start })
  let p0 := prevWalk bs1 start start free
  if p0 ≠ start then
    let p := p0 - 1
    let bs2 :=
      if (bget bs1 p).next_delta_ ≠ NULL_DELTA then
        let q := p + (bget bs1 p).next_delta_
        bmod (bmod bs1 q (fun b => { b with prev_delta_ := usub q free }))
          free (fun b => { b with next_delta_ := usub q free })
      else bs1
    bmod (bmod bs2 p (fun b => { b with next_delta_ := usub free p }))
      free (fun b => { b with prev_delta_ := usub free p })
  else
    let bs2 :=
      if (bget bs1 start).first_delta_ ≠ NULL_DELTA then
        let q := start + (bget bs1 start).first_delta_
        bmod (bmod bs1 q (fun b => { b with prev_delta_ := usub q free }))
          free (fun b => { b with next_delta_ := usub q free })
      else bs1
    bmod bs2 start (fun b => { b with first_delta_ := usub free start })

/-- `HashMap::InsertObject`: place the already-stored entry `oid` into the
bucket table.  Returns the possibly mutated map and the index of the bucket
that received the entry, or `none` for `return buckets_.end()`. -/
def InsertObject (m : HashMap) (oid : Nat) : HashMap × Option Nat :=
  match lookupEntry m.objects_ oid with
  | none => (m, none)
  | some e =>
    let start := GetStartBucket m e.key
    let free0 := probeFree m.buckets_ start
    if free0 = m.buckets_.length then (m, none)
    else
      match hopLoop m.neighbourhood_size_ start (free0 + 1) m.buckets_ free0 with
      | (bs, none) => ({ m with buckets_ := bs }, none)
      | (bs, some free) =>
        if free < start then ({ m with buckets_ := bs }, none)
        else ({ m with buckets_ := installSplice bs start free oid }, some free)

/-- The chain walk of `HashMap::FindObject`, with enough fuel to traverse any
chain of a well-formed table (chains visit strictly increasing indices). -/
def findLoop (m : HashMap) (key : Nat) : Nat → Nat → Option Nat
  | 0, _ => none
  | fuel + 1, i =>
    let b := bget m.buckets_ i
    let isMatch :=
      match lookupEntry m.objects_ b.object_it_ with
      | some e => e.key == key
      | none => false
    if isMatch then some i
    else if b.next_delta_ ≠ NULL_DELTA then findLoop m key fuel (i + b.next_delta_)
    else none

/-- `HashMap::FindObject`: locate the bucket holding `key`, or `none` for
`buckets_.end()`. -/
def FindObject (m : HashMap) (key : Nat) : Option Nat :=
  let start := GetStartBucket m key
  if (bget m.buckets_ start).first_delta_ = NULL_DELTA then none
  else findLoop m key (m.buckets_.length + 1) (start + (bget m.buckets_ start).first_delta_)

/-- `HashMap::EraseObject`: splice bucket `i` out of its chain and mark it
empty. -/
def EraseObject (bs : List Bucket) (i : Nat) : List Bucket :=
  let b := bget bs i
  let bs1 :=
    if b.prev_delta_ ≠ NULL_DELTA then
      let p := i - b.prev_delta_
      if b.next_delta_ ≠ NULL_DELTA then
        let q := i + b.next_delta_
        bmod (bmod bs p (fun x => { x with next_delta_ := usub q p })) q
          (fun x => { x with prev_delta_ := usub q p })
      else
        bmod bs p (fun x => { x with next_delta_ := NULL_DELTA })
    else
      let s := b.object_bucket_
      if b.next_delta_ ≠ NULL_DELTA then
        let q := i + b.next_delta_
        bmod (bmod bs s (fun x => { x with first_delta_ := usub q s })) q
          (fun x => { x with prev_delta_ := NULL_DELTA })
      else
        bmod bs s (fun x => { x with first_delta_ := NULL_DELTA })
  bmod bs1 i (fun x =>
    { x with next_delta_ := NULL_DELTA, prev_delta_ := NULL_DELTA,
             object_bucket_ := EMPTY_BUCKET })

/-- The reinstall loop of `HashMap::Reallocate`: re-place every entry, stopping
with `false` at the first placement failure. -/
def reinsertLoop (m : HashMap) : List Entry → HashMap × Bool
  | [] => (m, true)
  | e :: rest =>
    match InsertObject m e.id with
    | (m', some _) => reinsertLoop m' rest
    | (m', none) => (m', false)

/-- `HashMap::Reallocate`: replace the table and re-place every entry.
`none` models `std::bad_alloc` from `buckets_.assign` (a request of `2 ^ 64`
or more buckets can never be satisfied). -/
def Reallocate (m : HashMap) (new_capacity new_neighbourhood_size : Nat) :
    Option (HashMap × Bool) :=
  if new_capacity ≤ m.buckets_.length ∧
      new_neighbourhood_size ≤ m.neighbourhood_size_ then
    some (m, false)
  else if U64 ≤ new_capacity then none
  else
    let m1 := { m with buckets_ := List.replicate new_capacity {},
                       neighbourhood_size_ := new_neighbourhood_size }
    some (reinsertLoop m1 m1.objects_)

/-- The retry loop of `HashMap::HandleCollision` (`while (!handle) ...`),
fuelled: `none` means the operation did not return (allocation failure, or
fuel exhausted before a reallocation succeeded). -/
def hcLoop : Nat → HashMap → Option HashMap
  | 0, _ => none
  | fuel + 1, m =>
    match Reallocate m
        (if m.neighbourhood_size_ * neighbourhood_modifier_ ≥ m.buckets_.length ∨
            m.objects_.length ≥ m.buckets_.length
         then m.buckets_.length * size_modifier_ else m.buckets_.length)
        (m.neighbourhood_size_ * neighbourhood_modifier_) with
    | none => none
    | some (m', true) => some m'
    | some (m', false) => hcLoop fuel m'

/-- `HashMap::HandleCollision`. -/
def HandleCollision (fuel : Nat) (m : HashMap) : Option HashMap :=
  if m.objects_.length ≥ m.buckets_.length then
    match Reallocate m (m.buckets_.length * size_modifier_) m.neighbourhood_size_ with
    | none => none
    | some (m', true) => some m'
    | some (m', false) => hcLoop fuel m'
  else hcLoop fuel m

/-- `HashMap::insert`: returns the updated map and the handle (entry id) of the
entry for `key`; `none` when the operation does not return normally. -/
def insert (m : HashMap) (key val fuel : Nat) : Option (HashMap × Nat) :=
  match FindObject m key with
  | some b => some (m, (bget m.buckets_ b).object_it_)
  | none =>
    let oid := m.next_id
    let m1 := { m with objects_ := ⟨oid, key, val⟩ :: m.objects_,
                       next_id := oid + 1 }
    match InsertObject m1 oid with
    | (m2, some b) => some (m2, (bget m2.buckets_ b).object_it_)
    | (m2, none) =>
      match HandleCollision fuel m2 with
      | none => none
      | some m3 =>
        match FindObject m3 key with
        | some b => some (m3, (bget m3.buckets_ b).object_it_)
        | none => none

/-- `HashMap::erase`. -/
def erase (m : HashMap) (key : Nat) : HashMap :=
  match FindObject m key with
  | none => m
  | some b =>
    let oid := (bget m.buckets_ b).object_it_
    { m with objects_ := m.objects_.eraseP (fun e => e.id == oid),
             buckets_ := EraseObject m.buckets_ b }

/-- `HashMap::find` (handle version): the entry id for `key`, or `none`. -/
def find (m : HashMap) (key : Nat) : Option Nat :=
  (FindObject m key).map (fun b => (bget m.buckets_ b).object_it_)

/-- The value observable through `find(key)->second`. -/
def findVal (m : HashMap) (key : Nat) : Option Nat :=
  match FindObject m key with
  | none => none
  | some b => (lookupEntry m.objects_ (bget m.buckets_ b).object_it_).map Entry.val

/-- The error vocabulary of the public surface. -/
inductive HMError where
  | notFound
  deriving Repr, DecidableEq

/-- `HashMap::at`: `throw std::out_of_range("404 Not found")` when the key is
absent, otherwise the stored value.  (`find`, `erase` and `insert` have no
error channel: the source contains no other `throw` besides the re-thrown
`std::bad_alloc` of the allocation path.) -/
def atVal (m : HashMap) (key : Nat) : Except HMError Nat :=
  match FindObject m key with
  | none => Except.error HMError.notFound
  | some b =>
    match lookupEntry m.objects_ (bget m.buckets_ b).object_it_ with
    | some e => Except.ok e.val
    | none => Except.ok 0

/-- `HashMap::clear`. -/
def clear (m : HashMap) : HashMap :=
  { m with neighbourhood_size_ := min_neighbourhood_size_,
           objects_ := [],
           buckets_ := List.replicate min_neighbourhood_size_ {} }

/-- `HashMap::size`. -/
def size (m : HashMap) : Nat := m.objects_.length

/-- `HashMap::operator[]`: `insert({key, ValueType{}})` and expose the entry. -/
def getOrDefault (m : HashMap) (key fuel : Nat) : Option (HashMap × Nat) :=
  insert m key 0 fuel

/-- The states produced by the public mutating surface, starting from a freshly
constructed map.  Operations that do not return normally produce no state. -/
inductive Reachable : HashMap → Prop where
  | init (hasher : Nat → Nat) : Reachable (mkHashMap hasher)
  | insert {m m' : HashMap} {key val fuel hnd : Nat} :
      Reachable m → Hopscotch.insert m key val fuel = some (m', hnd) → Reachable m'
  | erase {m : HashMap} (key : Nat) :
      Reachable m → Reachable (Hopscotch.erase m key)
  | clear {m : HashMap} :
      Reachable m → Reachable (Hopscotch.clear m)

/-! ### Basic facts about the bucket-table primitives -/

theorem bget_default (bs : List Bucket) (i : Nat) (h : bs.length ≤ i) :
    bget bs i = default := by
  simp [bget, List.getD_eq_getElem?_getD, List.getElem?_eq_none_iff.mpr h]

theorem length_bmod (bs : List Bucket) (i : Nat) (f : Bucket → Bucket) :
    (bmod bs i f).length = bs.length := List.length_set bs i _

theorem bget_bmod_self (bs : List Bucket) (i : Nat) (f : Bucket → Bucket)
    (h : i < bs.length) : bget (bmod bs i f) i = f (bget bs i) := by
  simp [bget, bmod, List.getD_eq_getElem?_getD, List.getElem?_set_self h]

theorem bget_bmod_ne (bs : List Bucket) (i j : Nat) (f : Bucket → Bucket)
    (h : i ≠ j) : bget (bmod bs i f) j = bget bs j := by
  simp [bget, bmod, List.getD_eq_getElem?_getD, List.getElem?_set_ne h]

theorem bget_replicate (n i : Nat) :
    bget (List.replicate n ({} : Bucket)) i = {} := by
  rcases lt_or_le i n with h | h
  · simp [bget, List.getD_eq_getElem?_getD, List.getElem?_replicate_of_lt h]
  · exact bget_default _ _ (by simpa using h)

theorem default_bucket_empty : (default : Bucket).object_bucket_ = EMPTY_BUCKET := rfl

theorem usub_of_le {a b : Nat} (hba : b ≤ a) (ha : a - b < U64) :
    usub a b = a - b := by
  have h1 : ((a : Int) - b) = ((a - b : Nat) : Int) := by
    omega
  rw [usub, h1, Int.emod_eq_of_lt (by positivity) (by exact_mod_cast ha)]
  simp

theorem usub_self (a : Nat) : usub a a = 0 := by simp [usub]

/-! ### C8: `clear` resets to the initial configuration -/

/-- C8.  `clear` resets the container to its initial configuration: afterwards
the size is `0`, `find` returns `none` for every key, the neighbourhood size is
the initial `4`, and the capacity is the initial `4`. -/
theorem clear_resets (m : HashMap) (k : Nat) :
    size (clear m) = 0 ∧ find (clear m) k = none ∧
      (clear m).neighbourhood_size_ = 4 ∧ capacity (clear m) = 4 := by
  refine ⟨rfl, ?_, rfl, by simp [capacity, clear, min_neighbourhood_size_]⟩
  simp [find, FindObject, clear, GetStartBucket, bget_replicate]

/-! ### C3: which occupant the Step-B scan displaces -/

/-- The candidate test of the Step-B scan: the occupant of bucket `s` can be
moved forward to `free` without leaving its neighbourhood
(`neighbourhood_size_ > free_bucket - (buckets_.begin() + s->object_bucket_)`). -/
def qualifies (bs : List Bucket) (H free s : Nat) : Prop :=
  usub free (bget bs s).object_bucket_ < H

instance (bs : List Bucket) (H free s : Nat) : Decidable (qualifies bs H free s) :=
  Nat.decLt _ _

/-- Run one `insert(k, k)` and keep the resulting map. -/
def insStep (m : HashMap) (k : Nat) : HashMap :=
  match insert m k k 9 with
  | some (m', _) => m'
  | none => m

/-- A concrete reachable state (identity hasher; insert keys `0..4`, then erase
`4`): capacity `12`, `H = 4`, buckets `0..3` occupied by the entries of keys
`0..3` at their home indices, bucket `4` empty.  Inserting key `24`
(home `0`) then probes to the free bucket `4` and runs the hop loop with
`free = 4`, `start = 0`, where all three window occupants `1`, `2`, `3`
qualify for displacement. -/
def cexMap : HashMap :=
  erase (insStep (insStep (insStep (insStep (insStep
    (mkHashMap (fun k => k)) 0) 1) 2) 3) 4) 4

/-- C3 counterexample.  In the hop triggered by inserting key `24` into
`cexMap`, the occupants at buckets `1` and `3` both qualify to move to the
free bucket `4`, yet the scan stops at `fit_bucket = 4`, choosing the
occupant at bucket `3` — the latest qualifying occupant, not the earliest.
Concretely, after the insert the entry of key `3` (handle `3`) has been
displaced to bucket `4`, while bucket `1` still holds the entry of key `1`. -/
theorem hop_choice_not_earliest :
    qualifies cexMap.buckets_ 4 4 1 ∧ qualifies cexMap.buckets_ 4 4 3 ∧
      fitScan cexMap.buckets_ 4 4 4 - 1 = 3 ∧ (1 : Nat) < 3 ∧
      (bget (insStep cexMap 24).buckets_ 4).object_it_ = 3 ∧
      (bget (insStep cexMap 24).buckets_ 4).object_bucket_ = 3 ∧
      (bget (insStep cexMap 24).buckets_ 1).object_it_ = 1 := by
  decide

/-- If no bucket in `[fit, free)` qualifies, the scan either ends in the
failure configuration or stops by the `break`, in which case the bucket just
below the final `fit_bucket` qualifies and nothing above it does. -/
theorem fitScan_cases (bs : List Bucket) (H free : Nat) :
    ∀ fit, (∀ s, fit ≤ s → s < free → ¬ qualifies bs H free s) →
      (fitScan bs H free fit = 0 ∨ H ≤ uadd (usub free (fitScan bs H free fit)) 1) ∨
        (qualifies bs H free (fitScan bs H free fit - 1) ∧
          ∀ s, fitScan bs H free fit ≤ s → s < free → ¬ qualifies bs H free s) := by
  intro fit
  induction fit with
  | zero => intro _; exact Or.inl (Or.inl rfl)
  | succ fit ih =>
    intro hnone
    rw [fitScan]
    by_cases hw : uadd (usub free (fit + 1)) 1 < H
    · by_cases hb : H > usub free (bget bs fit).object_bucket_
      · simp only [if_pos hw, if_pos hb]
        exact Or.inr ⟨hb, fun s hs hs' => hnone s hs hs'⟩
      · simp only [if_pos hw, if_neg hb]
        refine ih (fun s hs hs' => ?_)
        rcases Nat.eq_or_lt_of_le hs with h | h
        · exact fun hq => hb (h ▸ hq)
        · exact hnone s h hs'
    · simp only [if_neg hw]
      exact Or.inl (Or.inr (le_of_not_lt hw))

/-- C3 amended.  When the hop loop's failure check passes, the occupant chosen
for displacement (`fit_bucket - 1` for the final scan value) is the *latest*
qualifying occupant in the window: it qualifies, and no bucket strictly
between it and `free` does.  (The scan walks backward from `free - 1` and
stops at the first qualifying occupant, i.e. the one with the largest index.) -/
theorem hop_choice_latest (bs : List Bucket) (H free : Nat)
    (hsucc : ¬(fitScan bs H free free = 0 ∨
      H ≤ uadd (usub free (fitScan bs H free free)) 1)) :
    qualifies bs H free (fitScan bs H free free - 1) ∧
      ∀ s, fitScan bs H free free - 1 < s → s < free → ¬ qualifies bs H free s := by
  have h := fitScan_cases bs H free free
    (fun s hs hs' => absurd (lt_of_le_of_lt hs hs') (lt_irrefl _))
  rcases h with h | h
  · exact absurd h hsucc
  · refine ⟨h.1, fun s hs hs' => h.2 s ?_ hs'⟩
    have hr0 : fitScan bs H free free ≠ 0 := fun h0 => hsucc (Or.inl h0)
    omega

/-- Witness for `hop_choice_latest` at the concrete configuration of
`hop_choice_not_earliest`: the chosen occupant is bucket `3`, and nothing in
`(3, 4)` (an empty range) qualifies. -/
theorem hop_choice_latest_witness :
    qualifies cexMap.buckets_ 4 4 (fitScan cexMap.buckets_ 4 4 4 - 1) ∧
      ∀ s, fitScan cexMap.buckets_ 4 4 4 - 1 < s → s < 4 →
        ¬ qualifies cexMap.buckets_ 4 4 s :=
  hop_choice_latest cexMap.buckets_ 4 4 (by decide)

/-! ### C10: low-edge safety of the Step-B scan -/

/-- `static_cast<SizeType>` of a signed value. -/
def zcast (x : Int) : Nat := (x % (U64 : Int)).toNat

/-- The Step-B scan with the bucket index kept as a *signed* quantity, together
with the trace of all bucket indices the scan dereferences.  This mirrors the
pointer arithmetic of the source loop directly: the guard `fit ≠ 0` is
`fit_bucket != buckets_.begin()`, and each iteration reads bucket `fit - 1`.
(The `0 ≤ fit` conjunct makes the recursion well-founded; it never fires on a
run started from a nonnegative `fit`, which decreases in steps of one and is
stopped by the `fit ≠ 0` guard.) -/
def fitScanZ (bs : List Bucket) (H : Nat) (free : Int) (fit : Int) :
    Int × List Int :=
  if h : fit ≠ 0 ∧ 0 ≤ fit ∧ uadd (zcast (free - fit)) 1 < H then
    if H > zcast (free - ((bget bs (fit - 1).toNat).object_bucket_ : Int)) then
      (fit, [fit - 1])
    else
      let t := fitScanZ bs H free (fit - 1)
      (t.1, (fit - 1) :: t.2)
  else (fit, [])
termination_by fit.toNat
decreasing_by omega

/-- Every bucket index the signed scan dereferences is nonnegative and below
the starting point. -/
theorem fitScanZ_reads (bs : List Bucket) (H : Nat) (free : Int) :
    ∀ (n : Nat) (fit : Int), fit.toNat ≤ n →
      ∀ r ∈ (fitScanZ bs H free fit).2, 0 ≤ r ∧ r < fit := by
  intro n
  induction n with
  | zero =>
    intro fit hfit r hr
    rw [fitScanZ] at hr
    split at hr
    · next h => omega
    · simp at hr
  | succ n ih =>
    intro fit hfit r hr
    rw [fitScanZ] at hr
    split at hr
    · next h =>
      split at hr
      · simp at hr
        omega
      · simp only [List.mem_cons] at hr
        rcases hr with hr | hr
        · omega
        · have := ih (fit - 1) (by omega) r hr
          omega
    · simp at hr

/-- The signed scan computes the same final `fit_bucket` as the scan of
`InsertObject` whenever it starts from natural-number positions. -/
theorem fitScanZ_eq_fitScan (bs : List Bucket) (H free : Nat) :
    ∀ fit : Nat, (fitScanZ bs H free fit).1 = (fitScan bs H free fit : Int) := by
  intro fit
  induction fit with
  | zero => rw [fitScanZ]; simp [fitScan]
  | succ fit ih =>
    rw [fitScanZ]
    by_cases hw : uadd (usub free (fit + 1)) 1 < H
    · rw [dif_pos ⟨Nat.cast_ne_zero.mpr (Nat.succ_ne_zero fit),
        Int.natCast_nonneg _, hw⟩]
      rw [show (((fit + 1 : Nat) : Int) - 1) = ((fit : Nat) : Int) from by
        push_cast; ring]
      rw [Int.toNat_natCast]
      rw [show zcast ((free : Int) - ((bget bs fit).object_bucket_ : Int)) =
        usub free (bget bs fit).object_bucket_ from rfl]
      by_cases hb : H > usub free (bget bs fit).object_bucket_
      · rw [if_pos hb, fitScan, if_pos hw, if_pos hb]
      · rw [if_neg hb]
        show (fitScanZ bs H (free : Int) (fit : Int)).1 =
          ((fitScan bs H free (fit + 1) : Nat) : Int)
        rw [ih, fitScan, if_pos hw, if_neg hb]
    · rw [dif_neg (fun hc => hw hc.2.2), fitScan, if_neg hw]

theorem uadd_of_lt {a b : Nat} (h : a + b < U64) : uadd a b = a + b :=
  Nat.mod_eq_of_lt h

/-- Under the low-edge hypothesis, the scan reaches bucket `0` exactly when no
bucket below `free` qualifies. -/
theorem fitScan_zero_of_none (bs : List Bucket) (H free : Nat)
    (hU : free < U64) (hlow : free + 1 < H)
    (hnone : ∀ s, s < free → ¬ qualifies bs H free s) :
    ∀ fit, fit ≤ free → fitScan bs H free fit = 0 := by
  intro fit
  induction fit with
  | zero => intro _; rfl
  | succ fit ih =>
    intro hle
    rw [fitScan]
    have hu : usub free (fit + 1) = free - (fit + 1) :=
      usub_of_le hle (lt_of_le_of_lt (Nat.sub_le _ _) hU)
    have hw : uadd (usub free (fit + 1)) 1 < H := by
      rw [hu, uadd_of_lt (by omega)]
      omega
    have hb : ¬ H > usub free (bget bs fit).object_bucket_ := hnone fit (by omega)
    rw [if_pos hw, if_neg hb, ih (by omega)]

/-- C10.  Low-edge safety of the displacement-candidate search: when the free
slot lies within the first `H - 1` buckets (so the window `f - (H - 1)` would
fall below index `0`) and no bucket below `free` passes the candidate test,
the signed mirror of the scan dereferences only indices in `[0, free)` — never
below `0` — the scan of `InsertObject` runs down to bucket `0` exactly, and
the hop loop reports placement failure (`return buckets_.end()`). -/
theorem low_edge_safety (bs : List Bucket) (H free : Nat)
    (hU : free < U64) (hlow : free + 1 < H)
    (hnone : ∀ s, s < free → ¬ qualifies bs H free s) :
    (∀ r ∈ (fitScanZ bs H free free).2, 0 ≤ r ∧ r < (free : Int)) ∧
      fitScan bs H free free = 0 ∧
      (∀ start, H ≤ usub free start →
        hopLoop H start (free + 1) bs free = (bs, none)) := by
  refine ⟨fun r hr => fitScanZ_reads bs H (free : Int) free (free : Int)
      (by omega) r hr,
    fitScan_zero_of_none bs H free hU hlow hnone free (le_refl _), ?_⟩
  intro start hstart
  rw [hopLoop]
  rw [if_pos hstart]
  simp [fitScan_zero_of_none bs H free hU hlow hnone free (le_refl _)]

/-- Witness for `low_edge_safety`: six buckets whose stored home `6` lies
above `free = 5`, so the wrapped difference is huge and no bucket qualifies
for `H = 8`. -/
theorem low_edge_safety_witness :
    (∀ r ∈ (fitScanZ (List.replicate 6 { object_bucket_ := 6 }) 8 5 5).2,
        0 ≤ r ∧ r < (5 : Int)) ∧
      fitScan (List.replicate 6 { object_bucket_ := 6 }) 8 5 5 = 0 ∧
      (∀ start, 8 ≤ usub 5 start →
        hopLoop 8 start 6 (List.replicate 6 { object_bucket_ := 6 }) 5 =
          (List.replicate 6 { object_bucket_ := 6 }, none)) :=
  low_edge_safety _ 8 5 (by decide) (by decide) (by decide)

/-! ### Dimension bookkeeping: capacity and neighbourhood size across the
operations -/

theorem length_hopPrevStage (bs : List Bucket) (c free : Nat) :
    (hopPrevStage bs c free).length = bs.length := by
  simp only [hopPrevStage, length_bmod]
  split <;> simp [length_bmod]

theorem length_hopNextStage (bs : List Bucket) (c free : Nat) :
    (hopNextStage bs c free).length = bs.length := by
  simp only [hopNextStage, length_bmod]
  split <;> simp [length_bmod]

theorem length_hopHeadStage (bs : List Bucket) (c free : Nat) :
    (hopHeadStage bs c free).length = bs.length := by
  simp only [hopHeadStage, length_bmod]
  split <;> simp [length_bmod]

theorem length_hopSwapStage (bs : List Bucket) (c free : Nat) :
    (hopSwapStage bs c free).length = bs.length := by
  simp only [hopSwapStage, length_bmod]

theorem hopStep_length (bs : List Bucket) (c free : Nat) :
    (hopStep bs c free).length = bs.length := by
  simp only [hopStep, length_hopSwapStage, length_hopHeadStage,
    length_hopNextStage, length_hopPrevStage]

theorem hopLoop_length (H start : Nat) :
    ∀ (fuel : Nat) (bs : List Bucket) (free : Nat),
      (hopLoop H start fuel bs free).1.length = bs.length := by
  intro fuel
  induction fuel with
  | zero => intro bs free; rfl
  | succ fuel ih =>
    intro bs free
    rw [hopLoop]
    split
    · dsimp only
      split
      · rfl
      · rw [ih, hopStep_length]
    · rfl

theorem installSplice_length (bs : List Bucket) (start free oid : Nat) :
    (installSplice bs start free oid).length = bs.length := by
  unfold installSplice
  dsimp only
  split
  · split <;> simp [length_bmod]
  · split <;> simp [length_bmod]

/-- `InsertObject` only rewrites buckets: every other component of the map and
the table length are unchanged. -/
theorem InsertObject_frame (m : HashMap) (oid : Nat) :
    (InsertObject m oid).1.objects_ = m.objects_ ∧
      (InsertObject m oid).1.next_id = m.next_id ∧
      (InsertObject m oid).1.hasher_ = m.hasher_ ∧
      (InsertObject m oid).1.neighbourhood_size_ = m.neighbourhood_size_ ∧
      (InsertObject m oid).1.buckets_.length = m.buckets_.length := by
  unfold InsertObject
  split
  · exact ⟨rfl, rfl, rfl, rfl, rfl⟩
  · simp only
    split
    · exact ⟨rfl, rfl, rfl, rfl, rfl⟩
    · split
      · next bs heq =>
        refine ⟨rfl, rfl, rfl, rfl, ?_⟩
        have h := congrArg (fun p => (p.1.length : Nat)) heq
        simp only at h
        rw [hopLoop_length] at h
        exact h.symm
      · next bs free heq =>
        have h := congrArg (fun p => (p.1.length : Nat)) heq
        simp only at h
        rw [hopLoop_length] at h
        replace h : bs.length = m.buckets_.length := h.symm
        split
        · exact ⟨rfl, rfl, rfl, rfl, h⟩
        · refine ⟨rfl, rfl, rfl, rfl, ?_⟩
          simp only
          rw [installSplice_length]
          exact h

theorem reinsertLoop_frame :
    ∀ (os : List Entry) (m : HashMap),
      (reinsertLoop m os).1.objects_ = m.objects_ ∧
        (reinsertLoop m os).1.next_id = m.next_id ∧
        (reinsertLoop m os).1.hasher_ = m.hasher_ ∧
        (reinsertLoop m os).1.neighbourhood_size_ = m.neighbourhood_size_ ∧
        (reinsertLoop m os).1.buckets_.length = m.buckets_.length := by
  intro os
  induction os with
  | nil => intro m; exact ⟨rfl, rfl, rfl, rfl, rfl⟩
  | cons e rest ih =>
    intro m
    rw [reinsertLoop]
    split
    · next m' r heq =>
      have h1 := InsertObject_frame m e.id
      rw [heq] at h1
      obtain ⟨a1, a2, a3, a4, a5⟩ := ih m'
      exact ⟨a1.trans h1.1, a2.trans h1.2.1, a3.trans h1.2.2.1,
        a4.trans h1.2.2.2.1, a5.trans h1.2.2.2.2⟩
    · next m' heq =>
      have h1 := InsertObject_frame m e.id
      rw [heq] at h1
      exact h1

/-- A reallocation that returns at all leaves the entry store, the id counter
and the hasher unchanged, and either did nothing (`false` with the old
dimensions possible) or installed exactly the requested dimensions. -/
theorem Reallocate_spec (m : HashMap) (c h : Nat) (m' : HashMap) (b : Bool) :
    Reallocate m c h = some (m', b) →
      m'.objects_ = m.objects_ ∧ m'.next_id = m.next_id ∧
        m'.hasher_ = m.hasher_ ∧
        ((m'.buckets_.length = m.buckets_.length ∧
            m'.neighbourhood_size_ = m.neighbourhood_size_) ∨
          (m'.buckets_.length = c ∧ m'.neighbourhood_size_ = h)) := by
  unfold Reallocate
  split
  · intro heq
    injection heq with heq
    injection heq with h1 h2
    subst h1
    exact ⟨rfl, rfl, rfl, Or.inl ⟨rfl, rfl⟩⟩
  · split
    · intro heq; cases heq
    · intro heq
      injection heq with heq
      have h1 : m' = (reinsertLoop
          { m with buckets_ := List.replicate c {}, neighbourhood_size_ := h }
          m.objects_).1 := by
        rw [show (reinsertLoop
            { m with buckets_ := List.replicate c {}, neighbourhood_size_ := h }
            m.objects_) = (m', b) from heq]
      obtain ⟨a1, a2, a3, a4, a5⟩ := reinsertLoop_frame m.objects_
        { m with buckets_ := List.replicate c {}, neighbourhood_size_ := h }
      rw [← h1] at a1 a2 a3 a4 a5
      refine ⟨a1, a2, a3, Or.inr ⟨?_, a4⟩⟩
      rw [a5]
      exact List.length_replicate c _

/-- A reallocation that returns `true` installed exactly the requested
dimensions. -/
theorem Reallocate_true_dims (m : HashMap) (c h : Nat) (m' : HashMap) :
    Reallocate m c h = some (m', true) →
      m'.buckets_.length = c ∧ m'.neighbourhood_size_ = h := by
  unfold Reallocate
  split
  · intro heq
    injection heq with heq
    injection heq with _ h2
    cases h2
  · split
    · intro heq; cases heq
    · intro heq
      injection heq with heq
      have h1 : m' = (reinsertLoop
          { m with buckets_ := List.replicate c {}, neighbourhood_size_ := h }
          m.objects_).1 := by
        rw [show (reinsertLoop
            { m with buckets_ := List.replicate c {}, neighbourhood_size_ := h }
            m.objects_) = (m', true) from heq]
      obtain ⟨_, _, _, a4, a5⟩ := reinsertLoop_frame m.objects_
        { m with buckets_ := List.replicate c {}, neighbourhood_size_ := h }
      rw [← h1] at a4 a5
      rw [a5, a4]
      exact ⟨List.length_replicate c _, rfl⟩

/-- Dimensions are good when the neighbourhood is at least the initial `4` and
fits inside the table. -/
def GoodDims (m : HashMap) : Prop :=
  4 ≤ m.neighbourhood_size_ ∧ m.neighbourhood_size_ ≤ m.buckets_.length

theorem hcLoop_goodDims :
    ∀ (fuel : Nat) (m m' : HashMap), GoodDims m → hcLoop fuel m = some m' →
      GoodDims m' := by
  intro fuel
  induction fuel with
  | zero => intro m m' _ h; cases h
  | succ fuel ih =>
    intro m m' hg h
    rw [hcLoop] at h
    split at h
    · cases h
    · next m'' heq =>
      injection h with h
      subst h
      rcases (Reallocate_spec _ _ _ _ _ heq).2.2.2 with ⟨h1, h2⟩ | ⟨h1, h2⟩
      · exact ⟨h2 ▸ hg.1, by rw [h1, h2]; exact hg.2⟩
      · constructor
        · rw [h2]; simp only [neighbourhood_modifier_]; have := hg.1; omega
        · rw [h1, h2]
          split
          · have := hg.2
            simp only [size_modifier_, neighbourhood_modifier_]
            omega
          · next hcond =>
            simp only [neighbourhood_modifier_]
            have : ¬ m.neighbourhood_size_ * 3 ≥ m.buckets_.length := by
              intro hc
              exact hcond (Or.inl (by simpa [neighbourhood_modifier_] using hc))
            omega
    · next m'' heq =>
      rcases (Reallocate_spec _ _ _ _ _ heq).2.2.2 with ⟨h1, h2⟩ | ⟨h1, h2⟩
      · exact ih _ _ ⟨h2 ▸ hg.1, by rw [h1, h2]; exact hg.2⟩ h
      · refine ih _ _ ⟨?_, ?_⟩ h
        · rw [h2]; simp only [neighbourhood_modifier_]; have := hg.1; omega
        · rw [h1, h2]
          split
          · have := hg.2
            simp only [size_modifier_, neighbourhood_modifier_]
            omega
          · next hcond =>
            simp only [neighbourhood_modifier_]
            have : ¬ m.neighbourhood_size_ * 3 ≥ m.buckets_.length := by
              intro hc
              exact hcond (Or.inl (by simpa [neighbourhood_modifier_] using hc))
            omega

theorem HandleCollision_goodDims (fuel : Nat) (m m' : HashMap)
    (hg : GoodDims m) (h : HandleCollision fuel m = some m') : GoodDims m' := by
  rw [HandleCollision] at h
  split at h
  · split at h
    · cases h
    · next m'' heq =>
      injection h with h
      subst h
      rcases (Reallocate_spec _ _ _ _ _ heq).2.2.2 with ⟨h1, h2⟩ | ⟨h1, h2⟩
      · exact ⟨h2 ▸ hg.1, by rw [h1, h2]; exact hg.2⟩
      · refine ⟨h2 ▸ hg.1, ?_⟩
        rw [h1, h2]
        simp only [size_modifier_]
        have := hg.2
        omega
    · next m'' heq =>
      rcases (Reallocate_spec _ _ _ _ _ heq).2.2.2 with ⟨h1, h2⟩ | ⟨h1, h2⟩
      · exact hcLoop_goodDims _ _ _ ⟨h2 ▸ hg.1, by rw [h1, h2]; exact hg.2⟩ h
      · refine hcLoop_goodDims _ _ _ ⟨h2 ▸ hg.1, ?_⟩ h
        rw [h1, h2]
        simp only [size_modifier_]
        have := hg.2
        omega
  · exact hcLoop_goodDims _ _ _ hg h

theorem insert_goodDims (m m' : HashMap) (key val fuel hnd : Nat)
    (hg : GoodDims m) (h : insert m key val fuel = some (m', hnd)) :
    GoodDims m' := by
  rw [insert] at h
  dsimp only at h
  split at h
  · injection h with h
    injection h with h1 h2
    exact h1 ▸ hg
  · split at h
    · next m2 b heq =>
      injection h with h
      injection h with h1 h2
      subst h1
      obtain ⟨_, _, _, h4, h5⟩ := InsertObject_frame
        { m with objects_ := ⟨m.next_id, key, val⟩ :: m.objects_,
                 next_id := m.next_id + 1 } m.next_id
      rw [heq] at h4 h5
      exact ⟨h4 ▸ hg.1, by rw [h5, h4]; exact hg.2⟩
    · next m2 heq =>
      obtain ⟨_, _, _, h4, h5⟩ := InsertObject_frame
        { m with objects_ := ⟨m.next_id, key, val⟩ :: m.objects_,
                 next_id := m.next_id + 1 } m.next_id
      rw [heq] at h4 h5
      split at h
      · cases h
      · next m3 heq3 =>
        have hg3 : GoodDims m3 := HandleCollision_goodDims _ _ _
          ⟨h4 ▸ hg.1, by rw [h5, h4]; exact hg.2⟩ heq3
        split at h
        · injection h with h
          injection h with h1 h2
          exact h1 ▸ hg3
        · cases h

theorem length_EraseObject (bs : List Bucket) (i : Nat) :
    (EraseObject bs i).length = bs.length := by
  simp only [EraseObject, length_bmod]
  repeat' split
  all_goals simp [length_bmod]

theorem reachable_goodDims (m : HashMap) (h : Reachable m) : GoodDims m := by
  induction h with
  | init hasher =>
    exact ⟨le_refl _, by simp [mkHashMap, min_neighbourhood_size_]⟩
  | insert hr heq ih => exact insert_goodDims _ _ _ _ _ _ ih heq
  | erase key hr ih =>
    unfold erase
    split
    · exact ih
    · exact ⟨ih.1, by rw [length_EraseObject]; exact ih.2⟩
  | clear hr ih =>
    exact ⟨le_refl _, by simp [clear, min_neighbourhood_size_]⟩

/-- C9.  After construction and after every public operation returns, the
bucket-table capacity is strictly positive and at least the current
neighbourhood size. -/
theorem capacity_invariant (m : HashMap) (h : Reachable m) :
    0 < capacity m ∧ m.neighbourhood_size_ ≤ capacity m := by
  have hg := reachable_goodDims m h
  exact ⟨lt_of_lt_of_le (lt_of_lt_of_le (by norm_num) hg.1) hg.2, hg.2⟩

/-- Witness for `capacity_invariant` at a freshly constructed map. -/
theorem capacity_invariant_witness :
    0 < capacity (mkHashMap (fun k => k)) ∧
      (mkHashMap (fun k => k)).neighbourhood_size_ ≤
        capacity (mkHashMap (fun k => k)) :=
  capacity_invariant _ (Reachable.init _)

/-! ### C4: the rehash growth policy -/

/-- C4.  The growth policy of `HandleCollision`, branch by branch (each branch
conditional on its reallocation attempt succeeding; if a re-placement inside
the attempt fails, the source reapplies the policy to the grown table).  If
the entry count has reached the capacity, the invocation reallocates to
`capacity × 3` with `H` unchanged.  Otherwise, if `H × 3` has reached the
capacity the invocation reallocates to `capacity × 3` with `H × 3`; and if
not, the capacity stays and only `H` grows to `H × 3`. -/
theorem rehash_growth_policy (fuel : Nat) (m m' : HashMap) :
    (capacity m ≤ size m →
      Reallocate m (capacity m * size_modifier_) m.neighbourhood_size_ =
        some (m', true) →
      HandleCollision fuel m = some m' ∧
        capacity m' = capacity m * size_modifier_ ∧
        m'.neighbourhood_size_ = m.neighbourhood_size_) ∧
    (size m < capacity m →
      capacity m ≤ m.neighbourhood_size_ * neighbourhood_modifier_ →
      Reallocate m (capacity m * size_modifier_)
          (m.neighbourhood_size_ * neighbourhood_modifier_) = some (m', true) →
      HandleCollision (fuel + 1) m = some m' ∧
        capacity m' = capacity m * size_modifier_ ∧
        m'.neighbourhood_size_ = m.neighbourhood_size_ * neighbourhood_modifier_) ∧
    (size m < capacity m →
      m.neighbourhood_size_ * neighbourhood_modifier_ < capacity m →
      Reallocate m (capacity m)
          (m.neighbourhood_size_ * neighbourhood_modifier_) = some (m', true) →
      HandleCollision (fuel + 1) m = some m' ∧
        capacity m' = capacity m ∧
        m'.neighbourhood_size_ = m.neighbourhood_size_ * neighbourhood_modifier_) := by
  refine ⟨fun hn hre => ?_, fun hn hc hre => ?_, fun hn hc hre => ?_⟩
  · simp only [capacity, size] at hn hre
    have hd := Reallocate_true_dims _ _ _ _ hre
    rw [HandleCollision, if_pos hn, hre]
    exact ⟨rfl, hd.1, hd.2⟩
  · simp only [capacity, size] at hn hc hre
    have hd := Reallocate_true_dims _ _ _ _ hre
    have hn' : ¬ m.objects_.length ≥ m.buckets_.length := not_le.mpr hn
    rw [HandleCollision, if_neg hn', hcLoop,
      if_pos (Or.inl (hc : m.neighbourhood_size_ * neighbourhood_modifier_ ≥
        m.buckets_.length)), hre]
    exact ⟨rfl, hd.1, hd.2⟩
  · simp only [capacity, size] at hn hc hre
    have hd := Reallocate_true_dims _ _ _ _ hre
    have hn' : ¬ m.objects_.length ≥ m.buckets_.length := not_le.mpr hn
    have hc' : ¬ (m.neighbourhood_size_ * neighbourhood_modifier_ ≥
        m.buckets_.length ∨ m.objects_.length ≥ m.buckets_.length) :=
      not_or.mpr ⟨not_le.mpr hc, hn'⟩
    rw [HandleCollision, if_neg hn', hcLoop, if_neg hc', hre]
    exact ⟨rfl, hd.1, hd.2⟩

/-- A map with entry count `4` equal to its capacity `4` (identity hasher,
keys `0..3`). -/
def c4a : HashMap := (List.range 4).foldl insStep (mkHashMap (fun k => k))

/-- A map with one entry, capacity `4`, `H = 4` (so `H × 3 ≥ capacity`). -/
def c4b : HashMap := insStep (mkHashMap (fun k => k)) 0

/-- A map with `13` entries, capacity `36`, `H = 4` (so `H × 3 < capacity`). -/
def c4c : HashMap := (List.range 13).foldl insStep (mkHashMap (fun k => k))

/-- The map produced by a reallocation request (used to name witnesses). -/
def reallocResult (m : HashMap) (c h : Nat) : HashMap :=
  match Reallocate m c h with
  | some (m', _) => m'
  | none => m

/-- A successful reallocation is the pair of its result map and `true`; this
lets a concrete instance be checked by deciding only the boolean component. -/
theorem Reallocate_eq_reallocResult (m : HashMap) (c h : Nat)
    (hb : (Reallocate m c h).map Prod.snd = some true) :
    Reallocate m c h = some (reallocResult m c h, true) := by
  unfold reallocResult
  cases he : Reallocate m c h with
  | none => rw [he] at hb; cases hb
  | some p =>
    rw [he] at hb
    cases p with
    | mk m1 b =>
      have hbt : b = true := by simpa using hb
      rw [hbt]

/-- Witness for `rehash_growth_policy`: all three branches exercised on
concrete reachable maps. -/
theorem rehash_growth_policy_witness :
    (HandleCollision 0 c4a = some (reallocResult c4a 12 4) ∧
      capacity (reallocResult c4a 12 4) = 12 ∧
      (reallocResult c4a 12 4).neighbourhood_size_ = 4) ∧
    (HandleCollision 1 c4b = some (reallocResult c4b 12 12) ∧
      capacity (reallocResult c4b 12 12) = 12 ∧
      (reallocResult c4b 12 12).neighbourhood_size_ = 12) ∧
    (HandleCollision 1 c4c = some (reallocResult c4c 36 12) ∧
      capacity (reallocResult c4c 36 12) = 36 ∧
      (reallocResult c4c 36 12).neighbourhood_size_ = 12) :=
  ⟨(rehash_growth_policy 0 c4a (reallocResult c4a 12 4)).1
      (by decide) (Reallocate_eq_reallocResult _ _ _ (by decide)),
    (rehash_growth_policy 0 c4b (reallocResult c4b 12 12)).2.1
      (by decide) (by decide) (Reallocate_eq_reallocResult _ _ _ (by decide)),
    (rehash_growth_policy 0 c4c (reallocResult c4c 36 12)).2.2
      (by decide) (by decide) (Reallocate_eq_reallocResult _ _ _ (by decide))⟩

/-! ### The well-formedness invariant of the bucket table -/

/-- Bucket `i` is occupied. -/
def occAt (bs : List Bucket) (i : Nat) : Prop :=
  (bget bs i).object_bucket_ ≠ EMPTY_BUCKET

instance (bs : List Bucket) (i : Nat) : Decidable (occAt bs i) :=
  instDecidableNot

/-- The occupied buckets whose stored home is `h`, in increasing order. -/
def chainIndices (bs : List Bucket) (h : Nat) : List Nat :=
  (List.range bs.length).filter (fun i => (bget bs i).object_bucket_ == h)

/-- The nodes `l` follow node `a` in a chain: each consecutive pair is doubly
linked with the correct deltas, and the last node ends the chain. -/
def LinkedFrom (bs : List Bucket) : Nat → List Nat → Prop
  | a, [] => (bget bs a).next_delta_ = NULL_DELTA
  | a, b :: l => a < b ∧ (bget bs a).next_delta_ = b - a ∧
      (bget bs b).prev_delta_ = b - a ∧ LinkedFrom bs b l

/-- The chain of home `h` consists exactly of the nodes `l`: `first_delta_`
points at the head (or is the sentinel for an empty chain), the head has no
predecessor, and the nodes thread through `next_delta_`/`prev_delta_`. -/
def Linked (bs : List Bucket) (h : Nat) : List Nat → Prop
  | [] => (bget bs h).first_delta_ = NULL_DELTA
  | a :: l => h ≤ a ∧ (bget bs h).first_delta_ = a - h ∧
      (bget bs a).prev_delta_ = NULL_DELTA ∧ LinkedFrom bs a l

/-- Entry id `id` is stored in some occupied bucket of `bs`. -/
def storedId (bs : List Bucket) (id : Nat) : Prop :=
  ∃ i, i < bs.length ∧ occAt bs i ∧ (bget bs i).object_it_ = id

/-- The bucket-table part of the well-formedness invariant, relative to the
entry store `os`, the hasher and the neighbourhood size. -/
structure BInv (os : List Entry) (hasher : Nat → Nat) (H : Nat)
    (bs : List Bucket) : Prop where
  capU : bs.length < U64
  occ : ∀ i, i < bs.length → occAt bs i →
    ∃ e ∈ os, (bget bs i).object_it_ = e.id ∧
      hasher e.key % bs.length = (bget bs i).object_bucket_ ∧
      (bget bs i).object_bucket_ ≤ i ∧
      i - (bget bs i).object_bucket_ < H
  inj : ∀ i j, i < bs.length → j < bs.length → occAt bs i → occAt bs j →
    (bget bs i).object_it_ = (bget bs j).object_it_ → i = j
  emptyClean : ∀ i, ¬ occAt bs i →
    (bget bs i).next_delta_ = NULL_DELTA ∧ (bget bs i).prev_delta_ = NULL_DELTA
  chains : ∀ h, h < bs.length → Linked bs h (chainIndices bs h)

theorem mem_chainIndices (bs : List Bucket) (h i : Nat) :
    i ∈ chainIndices bs h ↔ i < bs.length ∧ (bget bs i).object_bucket_ = h := by
  simp [chainIndices, List.mem_filter, List.mem_range]

theorem chainIndices_sorted (bs : List Bucket) (h : Nat) :
    (chainIndices bs h).Sorted (· < ·) :=
  (List.pairwise_lt_range _).sublist (List.filter_sublist _)

theorem chainIndices_nodup (bs : List Bucket) (h : Nat) :
    (chainIndices bs h).Nodup :=
  (chainIndices_sorted bs h).imp Nat.ne_of_lt

/-- Two sorted lists of naturals with the same members are equal. -/
theorem sorted_eq_of_mem_iff {l₁ l₂ : List Nat} (h₁ : l₁.Sorted (· < ·))
    (h₂ : l₂.Sorted (· < ·)) (hm : ∀ x, x ∈ l₁ ↔ x ∈ l₂) : l₁ = l₂ :=
  List.eq_of_perm_of_sorted
    ((List.perm_ext_iff_of_nodup (h₁.imp Nat.ne_of_lt) (h₂.imp Nat.ne_of_lt)).mpr hm)
    h₁ h₂

/-- Pointwise-equal stored homes give the same chain index lists. -/
theorem chainIndices_congr {bs bs' : List Bucket} (h : Nat)
    (hlen : bs'.length = bs.length)
    (hob : ∀ i, i < bs.length →
      (bget bs' i).object_bucket_ = (bget bs i).object_bucket_) :
    chainIndices bs' h = chainIndices bs h := by
  unfold chainIndices
  rw [hlen]
  apply List.filter_congr
  intro i hi
  rw [hob i (List.mem_range.mp hi)]

theorem LinkedFrom_congr {bs bs' : List Bucket} :
    ∀ (a : Nat) (l : List Nat),
      (∀ x, x ∈ a :: l → bget bs' x = bget bs x) →
      LinkedFrom bs a l → LinkedFrom bs' a l := by
  intro a l
  induction l generalizing a with
  | nil =>
    intro hx hl
    unfold LinkedFrom at *
    rw [hx a (by simp)]
    exact hl
  | cons b l ih =>
    intro hx hl
    obtain ⟨h1, h2, h3, h4⟩ := hl
    refine ⟨h1, ?_, ?_, ih b (fun x hxm =>
      hx x (List.mem_cons.mpr (Or.inr hxm))) h4⟩
    · rw [hx a (by simp)]; exact h2
    · rw [hx b (by simp)]; exact h3

theorem Linked_congr {bs bs' : List Bucket} (h : Nat) (l : List Nat)
    (hx : ∀ x, x ∈ h :: l → bget bs' x = bget bs x)
    (hl : Linked bs h l) : Linked bs' h l := by
  cases l with
  | nil =>
    unfold Linked at *
    rw [hx h (by simp)]
    exact hl
  | cons a l =>
    obtain ⟨h1, h2, h3, h4⟩ := hl
    refine ⟨h1, ?_, ?_, LinkedFrom_congr a l (fun x hxm =>
      hx x (List.mem_cons.mpr (Or.inr hxm))) h4⟩
    · rw [hx h (by simp)]; exact h2
    · rw [hx a (by simp)]; exact h3

theorem LinkedFrom_mem_gt {bs : List Bucket} :
    ∀ {a : Nat} {l : List Nat}, LinkedFrom bs a l → ∀ x ∈ l, a < x := by
  intro a l
  induction l generalizing a with
  | nil => intro _ x hx; cases hx
  | cons b l ih =>
    intro hl x hx
    rcases List.mem_cons.mp hx with hx | hx
    · exact hx ▸ hl.1
    · exact lt_trans hl.1 (ih hl.2.2.2 x hx)

/-! ### Field-wise effect of one hop -/

theorem bget_bmod_pres {α : Type} (bs : List Bucket) (i : Nat)
    (g : Bucket → Bucket) (F : Bucket → α) (hpres : ∀ b, F (g b) = F b) :
    ∀ x, F (bget (bmod bs i g) x) = F (bget bs x) := by
  intro x
  by_cases hx : x = i
  · subst hx
    by_cases hlt : x < bs.length
    · rw [bget_bmod_self bs x g hlt, hpres]
    · unfold bmod
      rw [List.set_eq_of_length_le (by omega)]
  · rw [bget_bmod_ne bs i x g (fun h => hx h.symm)]

theorem hopPrevStage_pres {α : Type} (bs : List Bucket) (c f : Nat)
    (F : Bucket → α)
    (h1 : ∀ b v, F { b with next_delta_ := v } = F b)
    (h2 : ∀ b v, F { b with prev_delta_ := v } = F b) :
    ∀ x, F (bget (hopPrevStage bs c f) x) = F (bget bs x) := by
  intro x
  unfold hopPrevStage
  split
  · exact (bget_bmod_pres _ _ _ F (fun b => h2 _ _) x).trans
      ((bget_bmod_pres _ _ _ F (fun b => h2 _ _) x).trans
        ((bget_bmod_pres _ _ _ F (fun b => h2 _ _) x).trans
          (bget_bmod_pres _ _ _ F (fun b => h1 _ _) x)))
  · rfl

theorem hopNextStage_pres {α : Type} (bs : List Bucket) (c f : Nat)
    (F : Bucket → α)
    (h1 : ∀ b v, F { b with next_delta_ := v } = F b)
    (h2 : ∀ b v, F { b with prev_delta_ := v } = F b) :
    ∀ x, F (bget (hopNextStage bs c f) x) = F (bget bs x) := by
  intro x
  unfold hopNextStage
  split
  · exact (bget_bmod_pres _ _ _ F (fun b => h1 _ _) x).trans
      ((bget_bmod_pres _ _ _ F (fun b => h1 _ _) x).trans
        ((bget_bmod_pres _ _ _ F (fun b => h1 _ _) x).trans
          (bget_bmod_pres _ _ _ F (fun b => h2 _ _) x)))
  · rfl

theorem hopHeadStage_pres {α : Type} (bs : List Bucket) (c f : Nat)
    (F : Bucket → α)
    (h3 : ∀ b v, F { b with first_delta_ := v } = F b) :
    ∀ x, F (bget (hopHeadStage bs c f) x) = F (bget bs x) := by
  intro x
  unfold hopHeadStage
  dsimp only
  split
  · exact bget_bmod_pres _ _ _ F (fun b => h3 _ _) x
  · rfl

theorem hopSwapStage_pres {α : Type} (bs : List Bucket) (c f : Nat)
    (F : Bucket → α)
    (h4 : ∀ b v, F { b with object_it_ := v } = F b)
    (h5 : ∀ b v, F { b with object_bucket_ := v } = F b) :
    ∀ x, F (bget (hopSwapStage bs c f) x) = F (bget bs x) := by
  intro x
  unfold hopSwapStage
  exact (bget_bmod_pres _ _ _ F (fun b => h5 _ _) x).trans
    ((bget_bmod_pres _ _ _ F (fun b => h5 _ _) x).trans
      ((bget_bmod_pres _ _ _ F (fun b => h4 _ _) x).trans
        (bget_bmod_pres _ _ _ F (fun b => h4 _ _) x)))

/-- The object-field swap of the final stage, in full. -/
theorem hopSwapStage_spec (bs3 : List Bucket) (c f : Nat)
    (hc : c < bs3.length) (hf : f < bs3.length) (hcf : c ≠ f) :
    (bget (hopSwapStage bs3 c f) c).object_it_ = (bget bs3 f).object_it_ ∧
      (bget (hopSwapStage bs3 c f) f).object_it_ = (bget bs3 c).object_it_ ∧
      (bget (hopSwapStage bs3 c f) c).object_bucket_ =
        (bget bs3 f).object_bucket_ ∧
      (bget (hopSwapStage bs3 c f) f).object_bucket_ =
        (bget bs3 c).object_bucket_ ∧
      (∀ x, x ≠ c → x ≠ f → bget (hopSwapStage bs3 c f) x = bget bs3 x) := by
  unfold hopSwapStage
  dsimp only
  have l1 : (bmod bs3 c fun b =>
      { b with object_it_ := (bget bs3 f).object_it_ }).length = bs3.length :=
    length_bmod _ _ _
  have l2 : (bmod (bmod bs3 c fun b =>
      { b with object_it_ := (bget bs3 f).object_it_ }) f fun b =>
      { b with object_it_ := (bget bs3 c).object_it_ }).length = bs3.length := by
    rw [length_bmod, l1]
  have l3 : (bmod (bmod (bmod bs3 c fun b =>
      { b with object_it_ := (bget bs3 f).object_it_ }) f fun b =>
      { b with object_it_ := (bget bs3 c).object_it_ }) c fun b =>
      { b with object_bucket_ := (bget bs3 f).object_bucket_ }).length =
      bs3.length := by
    rw [length_bmod, l2]
  refine ⟨?_, ?_, ?_, ?_, ?_⟩
  · rw [bget_bmod_ne _ f c _ (Ne.symm hcf),
      bget_bmod_self _ c _ (by rw [l2]; exact hc),
      bget_bmod_ne _ f c _ (Ne.symm hcf),
      bget_bmod_self _ c _ hc]
  · rw [bget_bmod_self _ f _ (by rw [l3]; exact hf),
      bget_bmod_ne _ c f _ hcf,
      bget_bmod_self _ f _ (by rw [l1]; exact hf),
      bget_bmod_ne _ c f _ hcf]
  · rw [bget_bmod_ne _ f c _ (Ne.symm hcf),
      bget_bmod_self _ c _ (by rw [l2]; exact hc)]
  · rw [bget_bmod_self _ f _ (by rw [l3]; exact hf),
      bget_bmod_ne _ c f _ hcf,
      bget_bmod_self _ f _ (by rw [l1]; exact hf),
      bget_bmod_ne _ c f _ hcf]
  · intro x hxc hxf
    rw [bget_bmod_ne _ f x _ (fun h => hxf h.symm),
      bget_bmod_ne _ c x _ (fun h => hxc h.symm),
      bget_bmod_ne _ f x _ (fun h => hxf h.symm),
      bget_bmod_ne _ c x _ (fun h => hxc h.symm)]

/-- The head-fix stage rewrites `first_delta_` of the moved occupant's home
when that occupant was the chain head, and nothing else. -/
theorem hopHeadStage_first (bs2 : List Bucket) (c f : Nat)
    (hblt : (bget bs2 c).object_bucket_ < bs2.length) :
    ∀ x, (bget (hopHeadStage bs2 c f) x).first_delta_ =
      if c = (bget bs2 c).object_bucket_ +
            (bget bs2 (bget bs2 c).object_bucket_).first_delta_ ∧
          x = (bget bs2 c).object_bucket_
      then usub f (bget bs2 c).object_bucket_
      else (bget bs2 x).first_delta_ := by
  intro x
  unfold hopHeadStage
  dsimp only
  by_cases hcond : c = (bget bs2 c).object_bucket_ +
      (bget bs2 (bget bs2 c).object_bucket_).first_delta_
  · rw [if_pos hcond]
    by_cases hx : x = (bget bs2 c).object_bucket_
    · rw [if_pos ⟨hcond, hx⟩, hx, bget_bmod_self _ _ _ hblt]
    · rw [if_neg (fun hand => hx hand.2),
        bget_bmod_ne _ _ x _ (fun h => hx h.symm)]
  · rw [if_neg hcond, if_neg (fun hand => hcond hand.1)]

theorem hopPrevStage_eq_of_null (bs : List Bucket) (c f : Nat)
    (h : (bget bs c).prev_delta_ = NULL_DELTA) :
    hopPrevStage bs c f = bs := by
  unfold hopPrevStage
  rw [if_neg (by simpa using h)]

theorem hopNextStage_eq_of_null (bs : List Bucket) (c f : Nat)
    (h : (bget bs c).next_delta_ = NULL_DELTA) :
    hopNextStage bs c f = bs := by
  unfold hopNextStage
  rw [if_neg (by simpa using h)]

/-- The prev-link stage when the moved occupant has a predecessor `p`. -/
theorem hopPrevStage_spec (bs : List Bucket) (c f p : Nat)
    (hpd : (bget bs c).prev_delta_ ≠ NULL_DELTA)
    (hp : c - (bget bs c).prev_delta_ = p)
    (hplen : p < bs.length) (hpc : p < c) (hclen : c < bs.length)
    (hflen : f < bs.length) (hcf : c < f) :
    bget (hopPrevStage bs c f) p =
        { bget bs p with next_delta_ := uadd (bget bs p).next_delta_ (f - c) } ∧
      bget (hopPrevStage bs c f) c =
        { bget bs c with prev_delta_ := (bget bs f).prev_delta_ } ∧
      bget (hopPrevStage bs c f) f =
        { bget bs f with prev_delta_ := uadd (bget bs c).prev_delta_ (f - c) } ∧
      (∀ x, x ≠ p → x ≠ c → x ≠ f → bget (hopPrevStage bs c f) x = bget bs x) := by
  have hpc' : p ≠ c := Nat.ne_of_lt hpc
  have hpf : p ≠ f := Nat.ne_of_lt (lt_trans hpc hcf)
  have hcf' : c ≠ f := Nat.ne_of_lt hcf
  subst hp
  unfold hopPrevStage
  rw [if_pos (by simpa using hpd)]
  dsimp only
  set bsa := bmod bs (c - (bget bs c).prev_delta_)
    (fun b => { b with next_delta_ := uadd b.next_delta_ (f - c) }) with hbsa
  set bsb := bmod bsa c
    (fun b => { b with prev_delta_ := uadd b.prev_delta_ (f - c) }) with hbsb
  have la : bsa.length = bs.length := length_bmod _ _ _
  have lb : bsb.length = bs.length := by rw [hbsb, length_bmod, la]
  have hbsbc : bget bsb c =
      { bget bs c with prev_delta_ := uadd (bget bs c).prev_delta_ (f - c) } := by
    rw [hbsb, bget_bmod_self _ _ _ (by rw [la]; exact hclen),
      hbsa, bget_bmod_ne _ _ _ _ hpc']
  have hbsbf : bget bsb f = bget bs f := by
    rw [hbsb, bget_bmod_ne _ _ _ _ hcf', hbsa, bget_bmod_ne _ _ _ _ hpf]
  have lbc : (bmod bsb c fun b =>
      { b with prev_delta_ := (bget bsb f).prev_delta_ }).length = bs.length := by
    rw [length_bmod, lb]
  refine ⟨?_, ?_, ?_, ?_⟩
  · rw [bget_bmod_ne _ f _ _ (Ne.symm hpf), bget_bmod_ne _ c _ _ (Ne.symm hpc'),
      hbsb, bget_bmod_ne _ c _ _ (Ne.symm hpc'), hbsa,
      bget_bmod_self _ _ _ hplen]
  · rw [bget_bmod_ne _ f c _ (Ne.symm hcf'),
      bget_bmod_self _ c _ (by rw [lb]; exact hclen), hbsbf, hbsbc]
  · rw [bget_bmod_self _ f _ (by rw [lbc]; exact hflen),
      bget_bmod_ne _ c f _ hcf', hbsbf, hbsbc]
  · intro x hxp hxc hxf
    rw [bget_bmod_ne _ f x _ (fun h => hxf h.symm),
      bget_bmod_ne _ c x _ (fun h => hxc h.symm),
      hbsb, bget_bmod_ne _ c x _ (fun h => hxc h.symm),
      hbsa, bget_bmod_ne _ _ x _ (fun h => hxp h.symm)]

/-- The next-link stage when the moved occupant has a successor `q`. -/
theorem hopNextStage_spec (bs : List Bucket) (c f q : Nat)
    (hqd : (bget bs c).next_delta_ ≠ NULL_DELTA)
    (hq : c + (bget bs c).next_delta_ = q)
    (hqlen : q < bs.length) (hfq : f < q) (hclen : c < bs.length)
    (hflen : f < bs.length) (hcf : c < f) :
    bget (hopNextStage bs c f) q =
        { bget bs q with prev_delta_ := usub (bget bs q).prev_delta_ (f - c) } ∧
      bget (hopNextStage bs c f) c =
        { bget bs c with next_delta_ := (bget bs f).next_delta_ } ∧
      bget (hopNextStage bs c f) f =
        { bget bs f with next_delta_ := usub (bget bs c).next_delta_ (f - c) } ∧
      (∀ x, x ≠ q → x ≠ c → x ≠ f → bget (hopNextStage bs c f) x = bget bs x) := by
  have hcq : c ≠ q := Nat.ne_of_lt (lt_trans hcf hfq)
  have hfq' : f ≠ q := Nat.ne_of_lt hfq
  have hcf' : c ≠ f := Nat.ne_of_lt hcf
  subst hq
  unfold hopNextStage
  rw [if_pos (by simpa using hqd)]
  dsimp only
  set bsa := bmod bs (c + (bget bs c).next_delta_)
    (fun b => { b with prev_delta_ := usub b.prev_delta_ (f - c) }) with hbsa
  set bsb := bmod bsa c
    (fun b => { b with next_delta_ := usub b.next_delta_ (f - c) }) with hbsb
  have la : bsa.length = bs.length := length_bmod _ _ _
  have lb : bsb.length = bs.length := by rw [hbsb, length_bmod, la]
  have hbsbc : bget bsb c =
      { bget bs c with next_delta_ := usub (bget bs c).next_delta_ (f - c) } := by
    rw [hbsb, bget_bmod_self _ _ _ (by rw [la]; exact hclen),
      hbsa, bget_bmod_ne _ _ _ _ (Ne.symm hcq)]
  have hbsbf : bget bsb f = bget bs f := by
    rw [hbsb, bget_bmod_ne _ _ _ _ hcf', hbsa,
      bget_bmod_ne _ _ _ _ (Ne.symm hfq')]
  have lbc : (bmod bsb c fun b =>
      { b with next_delta_ := (bget bsb f).next_delta_ }).length = bs.length := by
    rw [length_bmod, lb]
  refine ⟨?_, ?_, ?_, ?_⟩
  · rw [bget_bmod_ne _ f _ _ hfq', bget_bmod_ne _ c _ _ hcq,
      hbsb, bget_bmod_ne _ c _ _ hcq, hbsa, bget_bmod_self _ _ _ hqlen]
  · rw [bget_bmod_ne _ f c _ (Ne.symm hcf'),
      bget_bmod_self _ c _ (by rw [lb]; exact hclen), hbsbf, hbsbc]
  · rw [bget_bmod_self _ f _ (by rw [lbc]; exact hflen),
      bget_bmod_ne _ c f _ hcf', hbsbf, hbsbc]
  · intro x hxq hxc hxf
    rw [bget_bmod_ne _ f x _ (fun h => hxf h.symm),
      bget_bmod_ne _ c x _ (fun h => hxc h.symm),
      hbsb, bget_bmod_ne _ c x _ (fun h => hxc h.symm),
      hbsa, bget_bmod_ne _ _ x _ (fun h => hxq h.symm)]

theorem prev_absorb (b : Bucket) (v : Nat) (h : b.prev_delta_ = v) :
    { b with prev_delta_ := v } = b := by
  cases b; subst h; rfl

theorem next_absorb (b : Bucket) (v : Nat) (h : b.next_delta_ = v) :
    { b with next_delta_ := v } = b := by
  cases b; subst h; rfl

theorem bucket_ext (a b : Bucket) (h1 : a.object_it_ = b.object_it_)
    (h2 : a.first_delta_ = b.first_delta_) (h3 : a.next_delta_ = b.next_delta_)
    (h4 : a.prev_delta_ = b.prev_delta_)
    (h5 : a.object_bucket_ = b.object_bucket_) : a = b := by
  cases a; cases b
  simp only at h1 h2 h3 h4 h5
  rw [h1, h2, h3, h4, h5]

/-- The `prev_delta_` the hopped-to bucket receives, by predecessor case. -/
def optPrev (popt : Option Nat) (c f : Nat) : Nat :=
  match popt with
  | some p => uadd (c - p) (f - c)
  | none => NULL_DELTA

/-- The `next_delta_` the hopped-to bucket receives, by successor case. -/
def optNext (qopt : Option Nat) (c f : Nat) : Nat :=
  match qopt with
  | some q => usub (q - c) (f - c)
  | none => NULL_DELTA

/-- The complete effect of one hop on every bucket, from the values before the
hop.  `p?`/`q?` describe whether the moved occupant `c` has a chain
predecessor/successor and at which index; `headC` below is the source's test
for `c` being the head of its home's chain. -/
theorem hopStep_spec (bs : List Bucket) (c f : Nat) (popt qopt : Option Nat)
    (hclen : c < bs.length) (hflen : f < bs.length) (hcf : c < f)
    (hlenU : bs.length < U64)
    (hhb : (bget bs c).object_bucket_ ≤ c)
    (hfemp : (bget bs f).object_bucket_ = EMPTY_BUCKET)
    (hfnext : (bget bs f).next_delta_ = NULL_DELTA)
    (hfprev : (bget bs f).prev_delta_ = NULL_DELTA)
    (hp : match popt with
      | none => (bget bs c).prev_delta_ = NULL_DELTA
      | some p => (bget bs c).prev_delta_ = c - p ∧ p < c)
    (hq : match qopt with
      | none => (bget bs c).next_delta_ = NULL_DELTA
      | some q => (bget bs c).next_delta_ = q - c ∧ f < q ∧ q < bs.length)
    (hHeadP : ∀ p, popt = some p →
      ¬(c = (bget bs c).object_bucket_ +
        (bget bs (bget bs c).object_bucket_).first_delta_)) :
    bget (hopStep bs c f) c =
        { object_it_ := (bget bs f).object_it_,
          first_delta_ :=
            if c = (bget bs c).object_bucket_ +
                  (bget bs (bget bs c).object_bucket_).first_delta_ ∧
                (bget bs c).object_bucket_ = c
            then usub f (bget bs c).object_bucket_
            else (bget bs c).first_delta_,
          next_delta_ := NULL_DELTA, prev_delta_ := NULL_DELTA,
          object_bucket_ := EMPTY_BUCKET } ∧
      bget (hopStep bs c f) f =
        { object_it_ := (bget bs c).object_it_,
          first_delta_ := (bget bs f).first_delta_,
          next_delta_ := optNext qopt c f,
          prev_delta_ := optPrev popt c f,
          object_bucket_ := (bget bs c).object_bucket_ } ∧
      (∀ p, popt = some p → bget (hopStep bs c f) p =
        { bget bs p with
          next_delta_ := uadd ((bget bs p).next_delta_) (f - c) }) ∧
      (∀ q, qopt = some q → bget (hopStep bs c f) q =
        { bget bs q with
          prev_delta_ := usub ((bget bs q).prev_delta_) (f - c) }) ∧
      ((c = (bget bs c).object_bucket_ +
          (bget bs (bget bs c).object_bucket_).first_delta_) →
        (bget bs c).object_bucket_ ≠ c →
        bget (hopStep bs c f) (bget bs c).object_bucket_ =
          { bget bs (bget bs c).object_bucket_ with
            first_delta_ := usub f (bget bs c).object_bucket_ }) ∧
      (∀ x, x ≠ c → x ≠ f → popt ≠ some x → qopt ≠ some x →
        ¬((c = (bget bs c).object_bucket_ +
            (bget bs (bget bs c).object_bucket_).first_delta_) ∧
          x = (bget bs c).object_bucket_) →
        bget (hopStep bs c f) x = bget bs x) := by
  have hcfne : c ≠ f := Nat.ne_of_lt hcf
  set bs1 := hopPrevStage bs c f with hbs1
  set bs2 := hopNextStage bs1 c f with hbs2
  set bs3 := hopHeadStage bs2 c f with hbs3
  have hres : hopStep bs c f = hopSwapStage bs3 c f := rfl
  have l1 : bs1.length = bs.length := length_hopPrevStage bs c f
  have l2 : bs2.length = bs.length := by
    rw [hbs2, length_hopNextStage, l1]
  have l3 : bs3.length = bs.length := by
    rw [hbs3, length_hopHeadStage, l2]
  -- stage 1 facts
  have h1c : bget bs1 c = { bget bs c with prev_delta_ := NULL_DELTA } := by
    cases hpo : popt with
    | none =>
      rw [hbs1, hopPrevStage_eq_of_null bs c f (by rw [hpo] at hp; exact hp)]
      rw [hpo] at hp
      exact (prev_absorb _ _ hp).symm
    | some p =>
      rw [hpo] at hp
      have hpd : (bget bs c).prev_delta_ ≠ NULL_DELTA := by
        rw [hp.1]
        have : c - p < bs.length := by omega
        simp only [NULL_DELTA]
        omega
      have hpp : c - (bget bs c).prev_delta_ = p := by rw [hp.1]; omega
      have := (hopPrevStage_spec bs c f p hpd hpp (by omega) hp.2 hclen hflen
        hcf).2.1
      rw [hbs1, this, hfprev]
  have h1f : bget bs1 f =
      { bget bs f with prev_delta_ := optPrev popt c f } := by
    cases hpo : popt with
    | none =>
      rw [hpo] at hp
      rw [hbs1, hopPrevStage_eq_of_null bs c f hp]
      simp only [optPrev]
      exact (prev_absorb _ _ hfprev).symm
    | some p =>
      rw [hpo] at hp
      simp only [optPrev]
      have hpd : (bget bs c).prev_delta_ ≠ NULL_DELTA := by
        rw [hp.1]
        have : c - p < bs.length := by omega
        simp only [NULL_DELTA]
        omega
      have hpp : c - (bget bs c).prev_delta_ = p := by rw [hp.1]; omega
      have := (hopPrevStage_spec bs c f p hpd hpp (by omega) hp.2 hclen hflen
        hcf).2.2.1
      rw [hbs1, this, hp.1]
  have h1p : ∀ p, popt = some p → bget bs1 p =
      { bget bs p with next_delta_ := uadd ((bget bs p).next_delta_) (f - c) } := by
    intro p hpo
    rw [hpo] at hp
    have hpd : (bget bs c).prev_delta_ ≠ NULL_DELTA := by
      rw [hp.1]
      have : c - p < bs.length := by omega
      simp only [NULL_DELTA]
      omega
    have hpp : c - (bget bs c).prev_delta_ = p := by rw [hp.1]; omega
    have := (hopPrevStage_spec bs c f p hpd hpp (by omega) hp.2 hclen hflen
      hcf).1
    rw [hbs1, this]
  have h1other : ∀ x, x ≠ c → x ≠ f → popt ≠ some x → bget bs1 x = bget bs x := by
    intro x hxc hxf hxp
    cases hpo : popt with
    | none =>
      rw [hbs1, hopPrevStage_eq_of_null bs c f (by rw [hpo] at hp; exact hp)]
    | some p =>
      rw [hpo] at hp
      have hpd : (bget bs c).prev_delta_ ≠ NULL_DELTA := by
        rw [hp.1]
        have : c - p < bs.length := by omega
        simp only [NULL_DELTA]
        omega
      have hpp : c - (bget bs c).prev_delta_ = p := by rw [hp.1]; omega
      have := (hopPrevStage_spec bs c f p hpd hpp (by omega) hp.2 hclen hflen
        hcf).2.2.2
      rw [hbs1, this x (by rw [hpo] at hxp; exact fun h => hxp (h ▸ rfl)) hxc hxf]
  -- stage 2 facts
  have h1cnext : (bget bs1 c).next_delta_ = (bget bs c).next_delta_ := by
    rw [h1c]
  have hqne : ∀ x, x ≤ f → qopt ≠ some x := by
    intro x hx
    cases hqo : qopt with
    | none => exact fun h => Option.noConfusion h
    | some q =>
      rw [hqo] at hq
      intro hxq
      have := Option.some.inj hxq
      omega
  have hpqne : ∀ p q, popt = some p → qopt = some q → p ≠ q := by
    intro p q hpo hqo
    rw [hpo] at hp
    rw [hqo] at hq
    omega
  have h2c : bget bs2 c =
      { bget bs c with next_delta_ := NULL_DELTA, prev_delta_ := NULL_DELTA } := by
    cases hqo : qopt with
    | none =>
      rw [hqo] at hq
      rw [hbs2, hopNextStage_eq_of_null bs1 c f (h1cnext.trans hq), h1c]
      exact bucket_ext _ _ rfl rfl hq rfl rfl
    | some q =>
      rw [hqo] at hq
      have hqd : (bget bs1 c).next_delta_ ≠ NULL_DELTA := by
        rw [h1cnext, hq.1]
        have : q - c < bs.length := by omega
        simp only [NULL_DELTA]
        omega
      have hqq : c + (bget bs1 c).next_delta_ = q := by
        rw [h1cnext, hq.1]; omega
      have hsp := (hopNextStage_spec bs1 c f q hqd hqq (by rw [l1]; exact hq.2.2)
        hq.2.1 (by rw [l1]; exact hclen) (by rw [l1]; exact hflen) hcf).2.1
      rw [hbs2, hsp, h1c, h1f]
      exact bucket_ext _ _ rfl rfl hfnext rfl rfl
  have h2f : bget bs2 f =
      { bget bs f with next_delta_ := optNext qopt c f,
                       prev_delta_ := optPrev popt c f } := by
    cases hqo : qopt with
    | none =>
      rw [hqo] at hq
      rw [hbs2, hopNextStage_eq_of_null bs1 c f (h1cnext.trans hq), h1f]
      exact bucket_ext _ _ rfl rfl hfnext rfl rfl
    | some q =>
      rw [hqo] at hq
      have hqd : (bget bs1 c).next_delta_ ≠ NULL_DELTA := by
        rw [h1cnext, hq.1]
        have : q - c < bs.length := by omega
        simp only [NULL_DELTA]
        omega
      have hqq : c + (bget bs1 c).next_delta_ = q := by
        rw [h1cnext, hq.1]; omega
      have hsp := (hopNextStage_spec bs1 c f q hqd hqq (by rw [l1]; exact hq.2.2)
        hq.2.1 (by rw [l1]; exact hclen) (by rw [l1]; exact hflen) hcf).2.2.1
      rw [hbs2, hsp, h1c, h1f]
      exact bucket_ext _ _ rfl rfl (by simp [optNext, hq.1]) rfl rfl
  have h2p : ∀ p, popt = some p → bget bs2 p =
      { bget bs p with next_delta_ := uadd ((bget bs p).next_delta_) (f - c) } := by
    intro p hpo
    have hplt : p < c := by rw [hpo] at hp; exact hp.2
    cases hqo : qopt with
    | none =>
      rw [hqo] at hq
      rw [hbs2, hopNextStage_eq_of_null bs1 c f (h1cnext.trans hq), h1p p hpo]
    | some q =>
      rw [hqo] at hq
      have hqd : (bget bs1 c).next_delta_ ≠ NULL_DELTA := by
        rw [h1cnext, hq.1]
        have : q - c < bs.length := by omega
        simp only [NULL_DELTA]
        omega
      have hqq : c + (bget bs1 c).next_delta_ = q := by
        rw [h1cnext, hq.1]; omega
      have hsp := (hopNextStage_spec bs1 c f q hqd hqq (by rw [l1]; exact hq.2.2)
        hq.2.1 (by rw [l1]; exact hclen) (by rw [l1]; exact hflen) hcf).2.2.2
      rw [hbs2, hsp p (by omega) (by omega) (by omega), h1p p hpo]
  have h2q : ∀ q, qopt = some q → bget bs2 q =
      { bget bs q with prev_delta_ := usub ((bget bs q).prev_delta_) (f - c) } := by
    intro q hqo
    rw [hqo] at hq
    have hqd : (bget bs1 c).next_delta_ ≠ NULL_DELTA := by
      rw [h1cnext, hq.1]
      have : q - c < bs.length := by omega
      simp only [NULL_DELTA]
      omega
    have hqq : c + (bget bs1 c).next_delta_ = q := by
      rw [h1cnext, hq.1]; omega
    have hsp := (hopNextStage_spec bs1 c f q hqd hqq (by rw [l1]; exact hq.2.2)
      hq.2.1 (by rw [l1]; exact hclen) (by rw [l1]; exact hflen) hcf).1
    have hbs1q : bget bs1 q = bget bs q := by
      refine h1other q (by omega) (by omega) ?_
      cases hpo : popt with
      | none => exact fun h => Option.noConfusion h
      | some p =>
        intro hpq
        exact absurd (Option.some.inj hpq) (hpqne p q hpo hqo)
    rw [hbs2, hsp, hbs1q]
  have h2other : ∀ x, x ≠ c → x ≠ f → popt ≠ some x → qopt ≠ some x →
      bget bs2 x = bget bs x := by
    intro x hxc hxf hxp hxq
    cases hqo : qopt with
    | none =>
      rw [hqo] at hq
      rw [hbs2, hopNextStage_eq_of_null bs1 c f (h1cnext.trans hq),
        h1other x hxc hxf hxp]
    | some q =>
      rw [hqo] at hq
      have hqd : (bget bs1 c).next_delta_ ≠ NULL_DELTA := by
        rw [h1cnext, hq.1]
        have : q - c < bs.length := by omega
        simp only [NULL_DELTA]
        omega
      have hqq : c + (bget bs1 c).next_delta_ = q := by
        rw [h1cnext, hq.1]; omega
      have hsp := (hopNextStage_spec bs1 c f q hqd hqq (by rw [l1]; exact hq.2.2)
        hq.2.1 (by rw [l1]; exact hclen) (by rw [l1]; exact hflen) hcf).2.2.2
      have hxq' : x ≠ q := by
        rw [hqo] at hxq
        exact fun h => hxq (h ▸ rfl)
      rw [hbs2, hsp x hxq' hxc hxf, h1other x hxc hxf hxp]
  -- stage 3 facts
  have h2cob : (bget bs2 c).object_bucket_ = (bget bs c).object_bucket_ := by
    rw [h2c]
  have hbvf : (bget bs c).object_bucket_ ≠ f := by omega
  have h2hbfirst : (bget bs2 (bget bs c).object_bucket_).first_delta_ =
      (bget bs (bget bs c).object_bucket_).first_delta_ := by
    by_cases hbc : (bget bs c).object_bucket_ = c
    · rw [hbc, h2c]
    · cases hpo : popt with
      | none =>
        rw [h2other _ hbc hbvf (by simp [hpo]) (hqne _ (by omega))]
      | some p =>
        by_cases hbp : (bget bs c).object_bucket_ = p
        · rw [hbp, h2p p hpo]
        · refine congrArg Bucket.first_delta_
            (h2other _ hbc hbvf ?_ (hqne _ (by omega)))
          rw [hpo]
          exact fun h => hbp (Option.some.inj h).symm
  have h3first : ∀ x, (bget bs3 x).first_delta_ =
      if (c = (bget bs c).object_bucket_ +
            (bget bs (bget bs c).object_bucket_).first_delta_) ∧
          x = (bget bs c).object_bucket_
      then usub f (bget bs c).object_bucket_
      else (bget bs2 x).first_delta_ := by
    intro x
    have := hopHeadStage_first bs2 c f
      (by rw [h2cob, l2]; exact lt_of_le_of_lt hhb hclen) x
    rw [hbs3, this, h2cob, h2hbfirst]
  have h3it : ∀ x, (bget bs3 x).object_it_ = (bget bs2 x).object_it_ :=
    fun x => hbs3 ▸ hopHeadStage_pres bs2 c f Bucket.object_it_ (fun _ _ => rfl) x
  have h3ob : ∀ x, (bget bs3 x).object_bucket_ = (bget bs2 x).object_bucket_ :=
    fun x => hbs3 ▸ hopHeadStage_pres bs2 c f Bucket.object_bucket_
      (fun _ _ => rfl) x
  have h3nd : ∀ x, (bget bs3 x).next_delta_ = (bget bs2 x).next_delta_ :=
    fun x => hbs3 ▸ hopHeadStage_pres bs2 c f Bucket.next_delta_ (fun _ _ => rfl) x
  have h3pd : ∀ x, (bget bs3 x).prev_delta_ = (bget bs2 x).prev_delta_ :=
    fun x => hbs3 ▸ hopHeadStage_pres bs2 c f Bucket.prev_delta_ (fun _ _ => rfl) x
  -- stage 4
  have hsw := hopSwapStage_spec bs3 c f (by rw [l3]; exact hclen)
    (by rw [l3]; exact hflen) hcfne
  have h4fd : ∀ x, (bget (hopSwapStage bs3 c f) x).first_delta_ =
      (bget bs3 x).first_delta_ :=
    hopSwapStage_pres bs3 c f Bucket.first_delta_ (fun _ _ => rfl) (fun _ _ => rfl)
  have h4nd : ∀ x, (bget (hopSwapStage bs3 c f) x).next_delta_ =
      (bget bs3 x).next_delta_ :=
    hopSwapStage_pres bs3 c f Bucket.next_delta_ (fun _ _ => rfl) (fun _ _ => rfl)
  have h4pd : ∀ x, (bget (hopSwapStage bs3 c f) x).prev_delta_ =
      (bget bs3 x).prev_delta_ :=
    hopSwapStage_pres bs3 c f Bucket.prev_delta_ (fun _ _ => rfl) (fun _ _ => rfl)
  rw [hres]
  refine ⟨?_, ?_, ?_, ?_, ?_, ?_⟩
  · refine bucket_ext _ _ ?_ ?_ ?_ ?_ ?_
    · rw [hsw.1, h3it f, h2f]
    · rw [h4fd c, h3first c]
      by_cases hcond : (c = (bget bs c).object_bucket_ +
          (bget bs (bget bs c).object_bucket_).first_delta_) ∧
          (bget bs c).object_bucket_ = c
      · rw [if_pos ⟨hcond.1, hcond.2.symm⟩, if_pos hcond]
      · rw [if_neg (fun hand => hcond ⟨hand.1, hand.2.symm⟩), if_neg hcond,
          h2c]
    · rw [h4nd c, h3nd c, h2c]
    · rw [h4pd c, h3pd c, h2c]
    · rw [hsw.2.2.1, h3ob f, h2f, hfemp]
  · refine bucket_ext _ _ ?_ ?_ ?_ ?_ ?_
    · rw [hsw.2.1, h3it c, h2c]
    · rw [h4fd f, h3first f, if_neg (fun hand => hbvf hand.2.symm), h2f]
    · rw [h4nd f, h3nd f, h2f]
    · rw [h4pd f, h3pd f, h2f]
    · rw [hsw.2.2.2.1, h3ob c, h2c]
  · intro p hpo
    have hplt : p < c := by rw [hpo] at hp; exact hp.2
    have hheadF := hHeadP p hpo
    rw [hsw.2.2.2.2 p (by omega) (by omega)]
    refine bucket_ext _ _ ?_ ?_ ?_ ?_ ?_
    · rw [h3it p, h2p p hpo]
    · rw [h3first p, if_neg (fun hand => hheadF hand.1), h2p p hpo]
    · rw [h3nd p, h2p p hpo]
    · rw [h3pd p, h2p p hpo]
    · rw [h3ob p, h2p p hpo]
  · intro q hqo
    have hqgt : f < q := by rw [hqo] at hq; exact hq.2.1
    rw [hsw.2.2.2.2 q (by omega) (by omega)]
    refine bucket_ext _ _ ?_ ?_ ?_ ?_ ?_
    · rw [h3it q, h2q q hqo]
    · rw [h3first q, if_neg (fun hand => by omega), h2q q hqo]
    · rw [h3nd q, h2q q hqo]
    · rw [h3pd q, h2q q hqo]
    · rw [h3ob q, h2q q hqo]
  · intro hcond hbc
    have hpnone : popt = none := by
      cases hpo : popt with
      | none => rfl
      | some p => exact absurd hcond (hHeadP p hpo)
    have h2hb : bget bs2 (bget bs c).object_bucket_ =
        bget bs (bget bs c).object_bucket_ :=
      h2other _ hbc hbvf (by simp [hpnone]) (hqne _ (by omega))
    rw [hsw.2.2.2.2 _ hbc hbvf]
    refine bucket_ext _ _ ?_ ?_ ?_ ?_ ?_
    · rw [h3it _, h2hb]
    · rw [h3first _, if_pos ⟨hcond, rfl⟩]
    · rw [h3nd _, h2hb]
    · rw [h3pd _, h2hb]
    · rw [h3ob _, h2hb]
  · intro x hxc hxf hxp hxq hxhb
    have h2x : bget bs2 x = bget bs x := h2other x hxc hxf hxp hxq
    rw [hsw.2.2.2.2 x hxc hxf]
    refine bucket_ext _ _ ?_ ?_ ?_ ?_ ?_
    · rw [h3it x, h2x]
    · rw [h3first x, if_neg hxhb, h2x]
    · rw [h3nd x, h2x]
    · rw [h3pd x, h2x]
    · rw [h3ob x, h2x]

/-! ### Chain decomposition and rebuilding -/

/-- The nodes `l` form a linked segment from node `a` (exclusive) to node `c`:
each consecutive pair is doubly linked, ending with a link into `c`. -/
def LinkedFromSeg (bs : List Bucket) : Nat → List Nat → Nat → Prop
  | a, [], c => a < c ∧ (bget bs a).next_delta_ = c - a ∧
      (bget bs c).prev_delta_ = c - a
  | a, b :: l, c => a < b ∧ (bget bs a).next_delta_ = b - a ∧
      (bget bs b).prev_delta_ = b - a ∧ LinkedFromSeg bs b l c

theorem LinkedFrom_append_iff (bs : List Bucket) :
    ∀ (A : List Nat) (a c : Nat) (B : List Nat),
      LinkedFrom bs a (A ++ c :: B) ↔
        (LinkedFromSeg bs a A c ∧ LinkedFrom bs c B) := by
  intro A
  induction A with
  | nil =>
    intro a c B
    constructor
    · intro h
      exact ⟨⟨h.1, h.2.1, h.2.2.1⟩, h.2.2.2⟩
    · intro ⟨hs, hf⟩
      exact ⟨hs.1, hs.2.1, hs.2.2, hf⟩
  | cons b A ih =>
    intro a c B
    constructor
    · intro h
      obtain ⟨h1, h2, h3, h4⟩ := h
      obtain ⟨hs, hf⟩ := (ih b c B).mp h4
      exact ⟨⟨h1, h2, h3, hs⟩, hf⟩
    · intro ⟨hs, hf⟩
      exact ⟨hs.1, hs.2.1, hs.2.2.1, (ih b c B).mpr ⟨hs.2.2.2, hf⟩⟩

theorem LinkedFromSeg_mem_gt (bs : List Bucket) :
    ∀ (A : List Nat) (a c : Nat), LinkedFromSeg bs a A c →
      (∀ x ∈ A, a < x) ∧ a < c := by
  intro A
  induction A with
  | nil => intro a c h; exact ⟨fun x hx => absurd hx (List.not_mem_nil x), h.1⟩
  | cons b A ih =>
    intro a c h
    obtain ⟨hrec, hac⟩ := ih b c h.2.2.2
    refine ⟨fun x hx => ?_, lt_trans h.1 hac⟩
    rcases List.mem_cons.mp hx with hx | hx
    · exact hx ▸ h.1
    · exact lt_trans h.1 (hrec x hx)

theorem LinkedFrom_congr_fields (bs bs' : List Bucket) :
    ∀ (a : Nat) (l : List Nat),
      (∀ x ∈ a :: l, (bget bs' x).next_delta_ = (bget bs x).next_delta_) →
      (∀ x ∈ l, (bget bs' x).prev_delta_ = (bget bs x).prev_delta_) →
      LinkedFrom bs a l → LinkedFrom bs' a l := by
  intro a l
  induction l generalizing a with
  | nil =>
    intro hn _ h
    unfold LinkedFrom at *
    rw [hn a (by simp)]
    exact h
  | cons b l ih =>
    intro hn hp h
    refine ⟨h.1, ?_, ?_, ih b
      (fun x hx => hn x (List.mem_cons.mpr (Or.inr hx)))
      (fun x hx => hp x (List.mem_cons.mpr (Or.inr hx))) h.2.2.2⟩
    · rw [hn a (by simp)]; exact h.2.1
    · rw [hp b (by simp)]; exact h.2.2.1

/-- Rebuild a segment after its target `c` moved forward to `f`: interior
links are untouched, the last node of the segment now links to `f`. -/
theorem LinkedFromSeg_retarget (bs bs' : List Bucket) (c f : Nat) :
    ∀ (A : List Nat) (a : Nat),
      LinkedFromSeg bs a A c →
      (∀ x ∈ a :: A, (bget bs' x).prev_delta_ = (bget bs x).prev_delta_) →
      (∀ x ∈ a :: A, x ≠ (A.getLast?.getD a) →
        (bget bs' x).next_delta_ = (bget bs x).next_delta_) →
      (bget bs' (A.getLast?.getD a)).next_delta_ = f - (A.getLast?.getD a) →
      (bget bs' f).prev_delta_ = f - (A.getLast?.getD a) →
      c < f →
      LinkedFromSeg bs' a A f := by
  intro A
  induction A with
  | nil =>
    intro a h _ _ hln hfp hcf
    simp only [List.getLast?, Option.getD] at hln hfp
    exact ⟨lt_trans h.1 hcf, hln, hfp⟩
  | cons b A ih =>
    intro a h hprev hnext hln hfp hcf
    have hgl : ((b :: A).getLast?.getD a) = (A.getLast?.getD b) := by
      cases A with
      | nil => rfl
      | cons x xs =>
        rw [List.getLast?_cons_cons]
        cases hxx : (x :: xs).getLast? with
        | none => exact absurd (List.getLast?_eq_none_iff.mp hxx) (by simp)
        | some z => rfl
    have hab : a ≠ (b :: A).getLast?.getD a := by
      rw [hgl]
      obtain ⟨hmem, _⟩ := LinkedFromSeg_mem_gt bs (b :: A) a c h
      have : a < A.getLast?.getD b := by
        cases hA : A.getLast? with
        | none =>
          simp only [hA, Option.getD]
          exact h.1
        | some z =>
          simp only [hA, Option.getD]
          exact hmem z (List.mem_cons.mpr (Or.inr (List.mem_of_mem_getLast? hA)))
      omega
    refine ⟨h.1, ?_, ?_, ih b h.2.2.2
      (fun x hx => hprev x (List.mem_cons.mpr (Or.inr hx)))
      (fun x hx hxl => hnext x (List.mem_cons.mpr (Or.inr hx)) (by
        rw [hgl]; exact hxl))
      (by rw [← hgl]; exact hln) (by rw [← hgl]; exact hfp) hcf⟩
    · rw [hnext a (by simp) hab]
      exact h.2.1
    · rw [hprev b (by simp)]
      exact h.2.2.1

theorem getLastD_cons_eq (a b : Nat) (A : List Nat) :
    ((b :: A).getLast?.getD a) = (A.getLast?.getD b) := by
  cases A with
  | nil => rfl
  | cons x xs =>
    rw [List.getLast?_cons_cons]
    cases hxx : (x :: xs).getLast? with
    | none => exact absurd (List.getLast?_eq_none_iff.mp hxx) (by simp)
    | some z => rfl

theorem getLastD_mem (a : Nat) (A : List Nat) : (A.getLast?.getD a) ∈ a :: A := by
  cases hA : A.getLast? with
  | none => simp
  | some z =>
    simp only [Option.getD]
    exact List.mem_cons.mpr (Or.inr (List.mem_of_mem_getLast? hA))

/-- The last node of a segment, its link into the target, and the target's
back link. -/
theorem LinkedFromSeg_last (bs : List Bucket) :
    ∀ (A : List Nat) (a c : Nat), LinkedFromSeg bs a A c →
      (A.getLast?.getD a) < c ∧
        (bget bs (A.getLast?.getD a)).next_delta_ = c - (A.getLast?.getD a) ∧
        (bget bs c).prev_delta_ = c - (A.getLast?.getD a) := by
  intro A
  induction A with
  | nil => intro a c h; exact ⟨h.1, h.2.1, h.2.2⟩
  | cons b A ih =>
    intro a c h
    rw [getLastD_cons_eq]
    exact ih b c h.2.2.2

theorem uadd_sub_assemble {p c f : Nat} (hpc : p < c) (hcf : c < f)
    (hfU : f < U64) : uadd (c - p) (f - c) = f - p := by
  rw [uadd_of_lt (by omega)]
  omega

theorem usub_sub_assemble {c f q : Nat} (hcf : c < f) (hfq : f < q)
    (hqU : q < U64) : usub (q - c) (f - c) = q - f := by
  rw [usub_of_le (by omega) (by omega)]
  omega

/-- Sortedness of the post-hop chain list. -/
theorem sorted_hop (A B : List Nat) (c f : Nat)
    (hs : (A ++ c :: B).Sorted (· < ·)) (hcf : c < f) (hBf : ∀ b ∈ B, f < b) :
    (A ++ f :: B).Sorted (· < ·) := by
  rw [List.Sorted, List.pairwise_append] at hs ⊢
  refine ⟨hs.1, ?_, ?_⟩
  · rw [List.pairwise_cons]
    exact ⟨hBf, (List.pairwise_cons.mp hs.2.1).2⟩
  · intro a ha b hb
    rcases List.mem_cons.mp hb with hb | hb
    · exact hb ▸ lt_trans (hs.2.2 a ha c (by simp)) hcf
    · exact hs.2.2 a ha b (List.mem_cons.mpr (Or.inr hb))

theorem Linked_congr_fields (bs bs' : List Bucket) (h : Nat) (l : List Nat)
    (hfirst : (bget bs' h).first_delta_ = (bget bs h).first_delta_)
    (hflds : ∀ x ∈ l, (bget bs' x).next_delta_ = (bget bs x).next_delta_ ∧
      (bget bs' x).prev_delta_ = (bget bs x).prev_delta_) :
    Linked bs h l → Linked bs' h l := by
  cases l with
  | nil => intro hl; unfold Linked at *; rw [hfirst]; exact hl
  | cons a l =>
    intro hl
    refine ⟨hl.1, by rw [hfirst]; exact hl.2.1,
      by rw [(hflds a (by simp)).2]; exact hl.2.2.1,
      LinkedFrom_congr_fields bs bs' a l
        (fun x hx => (hflds x hx).1)
        (fun x hx => (hflds x (List.mem_cons.mpr (Or.inr hx))).2)
        hl.2.2.2⟩

/-- Rebuilding the tail of the moved chain after the hop: the nodes after the
moved occupant follow the new location `f` exactly as they followed `c`. -/
theorem tail_rebuild (bs bs' : List Bucket) (c f : Nat) (qopt : Option Nat)
    (B : List Nat) (hcf : c < f)
    (hqB : (B = [] ∧ qopt = none) ∨
      (∃ q B', B = q :: B' ∧ qopt = some q ∧
        (bget bs q).prev_delta_ = q - c ∧ f < q ∧ q < U64 ∧ q ∉ B' ∧
        LinkedFrom bs q B'))
    (hnextf : (bget bs' f).next_delta_ = optNext qopt c f)
    (hC4 : ∀ q, qopt = some q →
      (bget bs' q).prev_delta_ = usub ((bget bs q).prev_delta_) (f - c) ∧
      (bget bs' q).next_delta_ = (bget bs q).next_delta_)
    (hpresB : ∀ x ∈ B, qopt ≠ some x →
      (bget bs' x).next_delta_ = (bget bs x).next_delta_ ∧
      (bget bs' x).prev_delta_ = (bget bs x).prev_delta_) :
    LinkedFrom bs' f B := by
  rcases hqB with ⟨hB0, hq0⟩ | ⟨q, B', hBeq, hqeq, hqprev, hfq, hqU, hqnB, hLF⟩
  · rw [hB0]
    show (bget bs' f).next_delta_ = NULL_DELTA
    rw [hnextf, hq0]
    rfl
  · rw [hBeq]
    refine ⟨hfq, ?_, ?_, ?_⟩
    · rw [hnextf, hqeq]
      show usub (q - c) (f - c) = q - f
      exact usub_sub_assemble hcf hfq hqU
    · rw [(hC4 q hqeq).1, hqprev]
      exact usub_sub_assemble hcf hfq hqU
    · refine LinkedFrom_congr_fields bs bs' q B' ?_ ?_ hLF
      · intro x hx
        rcases List.mem_cons.mp hx with hx | hx
        · rw [hx]
          exact (hC4 q hqeq).2
        · have hxq : qopt ≠ some x := by
            intro h
            have hqx : q = x := Option.some.inj (hqeq.symm.trans h)
            exact hqnB (by rw [hqx]; exact hx)
          exact (hpresB x (by rw [hBeq]; exact List.mem_cons.mpr (Or.inr hx))
            hxq).1
      · intro x hx
        have hxq : qopt ≠ some x := by
          intro h
          have hqx : q = x := Option.some.inj (hqeq.symm.trans h)
          exact hqnB (by rw [hqx]; exact hx)
        exact (hpresB x (by rw [hBeq]; exact List.mem_cons.mpr (Or.inr hx))
          hxq).2

/-- Everything one hop preserves apart from the moved chain itself: occupancy
moves from `c` to `f`, the stored handle set, the per-bucket facts, handle
injectivity, cleanness of empty buckets, and every other home's chain. -/
theorem hop_master_core (os : List Entry) (hasher : Nat → Nat) (H : Nat)
    (bs bs' : List Bucket) (c f : Nat)
    (hB : BInv os hasher H bs)
    (hcf : c < f) (hflen : f < bs.length)
    (hocc : occAt bs c) (hemp : ¬ occAt bs f)
    (hdispf : f - (bget bs c).object_bucket_ < H)
    (hlen' : bs'.length = bs.length)
    (u1 : (bget bs' c).object_bucket_ = EMPTY_BUCKET)
    (u1n : (bget bs' c).next_delta_ = NULL_DELTA)
    (u1p : (bget bs' c).prev_delta_ = NULL_DELTA)
    (u2 : (bget bs' f).object_bucket_ = (bget bs c).object_bucket_)
    (u2i : (bget bs' f).object_it_ = (bget bs c).object_it_)
    (u3 : ∀ x, x ≠ c → x ≠ f →
      (bget bs' x).object_bucket_ = (bget bs x).object_bucket_ ∧
      (bget bs' x).object_it_ = (bget bs x).object_it_)
    (u4 : ∀ x, ¬ occAt bs x → x ≠ c → x ≠ f →
      (bget bs' x).next_delta_ = (bget bs x).next_delta_ ∧
      (bget bs' x).prev_delta_ = (bget bs x).prev_delta_)
    (u5 : ∀ x, x ≠ c → x ≠ f →
      (bget bs x).object_bucket_ ≠ (bget bs c).object_bucket_ →
      (bget bs' x).next_delta_ = (bget bs x).next_delta_ ∧
      (bget bs' x).prev_delta_ = (bget bs x).prev_delta_)
    (u6 : ∀ g, g ≠ (bget bs c).object_bucket_ →
      (bget bs' g).first_delta_ = (bget bs g).first_delta_) :
    (∀ i, occAt bs' i ↔ ((occAt bs i ∧ i ≠ c) ∨ i = f)) ∧
      (∀ id, storedId bs' id ↔ storedId bs id) ∧
      (∀ i, i < bs'.length → occAt bs' i →
        ∃ e ∈ os, (bget bs' i).object_it_ = e.id ∧
          hasher e.key % bs'.length = (bget bs' i).object_bucket_ ∧
          (bget bs' i).object_bucket_ ≤ i ∧
          i - (bget bs' i).object_bucket_ < H) ∧
      (∀ i j, i < bs'.length → j < bs'.length → occAt bs' i → occAt bs' j →
        (bget bs' i).object_it_ = (bget bs' j).object_it_ → i = j) ∧
      (∀ i, ¬ occAt bs' i →
        (bget bs' i).next_delta_ = NULL_DELTA ∧
        (bget bs' i).prev_delta_ = NULL_DELTA) ∧
      (∀ g, g < bs.length → g ≠ (bget bs c).object_bucket_ →
        Linked bs' g (chainIndices bs' g)) := by
  have hclen : c < bs.length := lt_trans hcf hflen
  have hcfne : c ≠ f := Nat.ne_of_lt hcf
  have hoccIff : ∀ i, occAt bs' i ↔ ((occAt bs i ∧ i ≠ c) ∨ i = f) := by
    intro i
    by_cases hic : i = c
    · constructor
      · intro h
        rw [hic] at h
        simp only [occAt, u1] at h
        exact absurd rfl h
      · rintro (⟨_, hne⟩ | h)
        · exact absurd hic hne
        · exact absurd (hic ▸ h) hcfne
    · by_cases hif : i = f
      · constructor
        · intro _
          exact Or.inr hif
        · intro _
          rw [hif]
          simp only [occAt, u2]
          exact hocc
      · simp only [occAt, (u3 i hic hif).1]
        constructor
        · intro h; exact Or.inl ⟨h, hic⟩
        · rintro (⟨h, _⟩ | h)
          · exact h
          · exact absurd h hif
  have hstored : ∀ id, storedId bs' id ↔ storedId bs id := by
    intro id
    constructor
    · rintro ⟨i, hilen, hiocc, hiid⟩
      rw [hlen'] at hilen
      by_cases hic : i = c
      · exfalso
        rw [hic] at hiocc
        simp only [occAt, u1] at hiocc
        exact hiocc rfl
      · by_cases hif : i = f
        · subst hif
          exact ⟨c, hclen, hocc, by rw [← u2i]; exact hiid⟩
        · exact ⟨i, hilen, ((hoccIff i).mp hiocc).elim (fun h => h.1)
            (fun h => absurd h hif), by rw [← (u3 i hic hif).2]; exact hiid⟩
    · rintro ⟨i, hilen, hiocc, hiid⟩
      by_cases hic : i = c
      · subst hic
        exact ⟨f, by rw [hlen']; exact hflen, (hoccIff f).mpr (Or.inr rfl),
          by rw [u2i]; exact hiid⟩
      · by_cases hif : i = f
        · exact absurd (hif ▸ hiocc) hemp
        · exact ⟨i, by rw [hlen']; exact hilen,
            (hoccIff i).mpr (Or.inl ⟨hiocc, hic⟩),
            by rw [(u3 i hic hif).2]; exact hiid⟩
  refine ⟨hoccIff, hstored, ?_, ?_, ?_, ?_⟩
  · intro i hilen hiocc
    rw [hlen'] at hilen ⊢
    by_cases hic : i = c
    · exfalso
      rw [hic] at hiocc
      simp only [occAt, u1] at hiocc
      exact hiocc rfl
    · by_cases hif : i = f
      · obtain ⟨e, he, heid, hhash, hble, _⟩ := hB.occ c hclen hocc
        rw [hif]
        exact ⟨e, he, by rw [u2i]; exact heid, by rw [u2]; exact hhash,
          by rw [u2]; omega, by rw [u2]; omega⟩
      · have hiocc' : occAt bs i := ((hoccIff i).mp hiocc).elim (fun h => h.1)
          (fun h => absurd h hif)
        obtain ⟨e, he, heid, hhash, hble, hd⟩ := hB.occ i hilen hiocc'
        exact ⟨e, he, by rw [(u3 i hic hif).2]; exact heid,
          by rw [(u3 i hic hif).1]; exact hhash,
          by rw [(u3 i hic hif).1]; exact hble,
          by rw [(u3 i hic hif).1]; exact hd⟩
  · intro i j hilen hjlen hiocc hjocc hij
    rw [hlen'] at hilen hjlen
    have hic : i ≠ c := by
      intro h
      rw [h] at hiocc
      simp only [occAt, u1] at hiocc
      exact hiocc rfl
    have hjc : j ≠ c := by
      intro h
      rw [h] at hjocc
      simp only [occAt, u1] at hjocc
      exact hjocc rfl
    by_cases hif : i = f
    · by_cases hjf : j = f
      · rw [hif, hjf]
      · have hjocc' : occAt bs j := ((hoccIff j).mp hjocc).elim (fun h => h.1)
          (fun h => absurd h hjf)
        have : c = j := hB.inj c j hclen hjlen hocc hjocc' (by
          rw [← u2i, ← hif, hij, (u3 j hjc hjf).2])
        exact absurd this.symm hjc
    · by_cases hjf : j = f
      · have hiocc' : occAt bs i := ((hoccIff i).mp hiocc).elim (fun h => h.1)
          (fun h => absurd h hif)
        have : i = c := hB.inj i c hilen hclen hiocc' hocc (by
          rw [← (u3 i hic hif).2, hij, hjf, u2i])
        exact absurd this hic
      · have hiocc' : occAt bs i := ((hoccIff i).mp hiocc).elim (fun h => h.1)
          (fun h => absurd h hif)
        have hjocc' : occAt bs j := ((hoccIff j).mp hjocc).elim (fun h => h.1)
          (fun h => absurd h hjf)
        exact hB.inj i j hilen hjlen hiocc' hjocc' (by
          rw [← (u3 i hic hif).2, hij, (u3 j hjc hjf).2])
  · intro i hni
    by_cases hic : i = c
    · rw [hic]
      exact ⟨u1n, u1p⟩
    · by_cases hif : i = f
      · exact absurd ((hoccIff i).mpr (Or.inr hif)) hni
      · have hni' : ¬ occAt bs i := fun h =>
          hni ((hoccIff i).mpr (Or.inl ⟨h, hic⟩))
        obtain ⟨h1, h2⟩ := u4 i hni' hic hif
        obtain ⟨h3, h4⟩ := hB.emptyClean i hni'
        exact ⟨h1.trans h3, h2.trans h4⟩
  · intro g hglen hghb
    have hgE : g ≠ EMPTY_BUCKET := by
      have := hB.capU
      simp only [EMPTY_BUCKET]
      omega
    have hchEq : chainIndices bs' g = chainIndices bs g := by
      refine sorted_eq_of_mem_iff (chainIndices_sorted _ _)
        (chainIndices_sorted _ _) (fun x => ?_)
      rw [mem_chainIndices, mem_chainIndices, hlen']
      by_cases hxc : x = c
      · constructor
        · rintro ⟨_, hobx⟩
          rw [hxc, u1] at hobx
          exact absurd hobx.symm hgE
        · rintro ⟨_, hobx⟩
          rw [hxc] at hobx
          exact absurd hobx.symm hghb
      · by_cases hxf : x = f
        · constructor
          · rintro ⟨_, hobx⟩
            rw [hxf, u2] at hobx
            exact absurd hobx.symm hghb
          · rintro ⟨_, hobx⟩
            rw [hxf] at hobx
            have hfocc : occAt bs f := by
              simp only [occAt, hobx]
              exact hgE
            exact absurd hfocc hemp
        · rw [(u3 x hxc hxf).1]
    rw [hchEq]
    refine Linked_congr_fields bs bs' g (chainIndices bs g) (u6 g hghb)
      (fun x hx => ?_) (hB.chains g hglen)
    obtain ⟨hxlen, hxob⟩ := (mem_chainIndices bs g x).mp hx
    have hxocc : occAt bs x := by
      simp only [occAt, hxob]
      exact hgE
    have hxc : x ≠ c := by
      intro h
      rw [h] at hxob
      exact hghb hxob.symm
    have hxf : x ≠ f := by
      intro h
      rw [h] at hxocc
      exact hemp hxocc
    exact u5 x hxc hxf (by rw [hxob]; exact hghb)

/-- Master lemma for one hop of the displacement loop: under the bucket
invariant, moving the occupant of `c` to the free bucket `f` (the source's
swap plus link surgery) preserves the invariant, moves occupancy from `c`
to `f`, and keeps the stored handle set unchanged.  The side conditions are
exactly what the candidate scan guarantees: `c` still fits `f` within the
neighbourhood, and no occupant strictly between them does. -/
theorem hopStep_master (os : List Entry) (hasher : Nat → Nat) (H : Nat)
    (bs : List Bucket) (c f : Nat)
    (hB : BInv os hasher H bs)
    (hcf : c < f) (hflen : f < bs.length)
    (hocc : occAt bs c) (hemp : ¬ occAt bs f)
    (hqual : f - (bget bs c).object_bucket_ < H)
    (hnomid : ∀ s, c < s → s < f → occAt bs s →
      ¬ (f - (bget bs s).object_bucket_ < H)) :
    BInv os hasher H (hopStep bs c f) ∧
      (∀ i, occAt (hopStep bs c f) i ↔ ((occAt bs i ∧ i ≠ c) ∨ i = f)) ∧
      (∀ id, storedId (hopStep bs c f) id ↔ storedId bs id) := by
  have hclen : c < bs.length := lt_trans hcf hflen
  have hlenU := hB.capU
  have hfU : f < U64 := lt_trans hflen hlenU
  have hcnotf : c ≠ f := Nat.ne_of_lt hcf
  obtain ⟨e0, he0, heid0, hhash0, hble, hdisp⟩ := hB.occ c hclen hocc
  have hbne : (bget bs c).object_bucket_ ≠ EMPTY_BUCKET := hocc
  have hfEM : (bget bs f).object_bucket_ = EMPTY_BUCKET := not_not.mp hemp
  obtain ⟨hfnext, hfprev⟩ := hB.emptyClean f hemp
  have hbLt : (bget bs c).object_bucket_ < bs.length := lt_of_le_of_lt hble hclen
  have hcmem : c ∈ chainIndices bs (bget bs c).object_bucket_ :=
    (mem_chainIndices bs _ c).mpr ⟨hclen, rfl⟩
  obtain ⟨A, B, hLde⟩ := List.append_of_mem hcmem
  have hLinked : Linked bs (bget bs c).object_bucket_ (A ++ c :: B) :=
    hLde ▸ hB.chains _ hbLt
  have hsorted : (A ++ c :: B).Sorted (· < ·) := hLde ▸ chainIndices_sorted bs _
  have hnodup : (A ++ c :: B).Nodup := hLde ▸ chainIndices_nodup bs _
  have hmemL : ∀ x, (x ∈ A ++ c :: B) ↔
      (x < bs.length ∧
        (bget bs x).object_bucket_ = (bget bs c).object_bucket_) := by
    intro x
    rw [← hLde]
    exact mem_chainIndices bs _ x
  have hpw := List.pairwise_append.mp hsorted
  have hA_lt : ∀ x ∈ A, x < c := fun x hx => hpw.2.2 x hx c (List.mem_cons_self c B)
  have hB_gt : ∀ x ∈ B, c < x := (List.pairwise_cons.mp hpw.2.1).1
  have hB_f : ∀ x ∈ B, f < x := by
    intro x hx
    have hxc := hB_gt x hx
    have hxmem := (hmemL x).mp
      (List.mem_append_right A (List.mem_cons.mpr (Or.inr hx)))
    rcases lt_trichotomy x f with hlt | heq | hgt
    · exfalso
      have hxocc : occAt bs x := by
        simp only [occAt, hxmem.2]
        exact hbne
      exact hnomid x hxc hlt hxocc (by rw [hxmem.2]; exact hqual)
    · exfalso
      rw [heq, hfEM] at hxmem
      exact hbne hxmem.2.symm
    · exact hgt
  have hfromCB : LinkedFrom bs c B := by
    cases A with
    | nil => exact hLinked.2.2.2
    | cons a A' => exact ((LinkedFrom_append_iff bs A' a c B).mp hLinked.2.2.2).2
  obtain ⟨qopt, hq, hqpack⟩ :
      ∃ qopt, (match qopt with
        | none => (bget bs c).next_delta_ = NULL_DELTA
        | some q => (bget bs c).next_delta_ = q - c ∧ f < q ∧ q < bs.length) ∧
      ((B = [] ∧ qopt = none) ∨
        (∃ q B', B = q :: B' ∧ qopt = some q ∧
          (bget bs q).prev_delta_ = q - c ∧ f < q ∧ q < U64 ∧ q ∉ B' ∧
          LinkedFrom bs q B')) := by
    cases B with
    | nil => exact ⟨none, hfromCB, Or.inl ⟨rfl, rfl⟩⟩
    | cons q B' =>
      obtain ⟨hq1, hq2, hq3, hq4⟩ := hfromCB
      have hfq : f < q := hB_f q (List.mem_cons_self q B')
      have hqlen : q < bs.length :=
        ((hmemL q).mp (List.mem_append_right A (List.mem_cons.mpr (Or.inr
          (List.mem_cons_self q B'))))).1
      have hqnB : q ∉ B' := by
        have n1 := (List.nodup_append.mp hnodup).2.1
        have n2 := (List.nodup_cons.mp n1).2
        exact (List.nodup_cons.mp n2).1
      exact ⟨some q, ⟨hq2, hfq, hqlen⟩, Or.inr ⟨q, B', rfl, rfl, hq3, hfq,
        lt_trans hqlen hlenU, hqnB, hq4⟩⟩
  obtain ⟨popt, hp, hHeadP, hppack⟩ :
      ∃ popt, (match popt with
        | none => (bget bs c).prev_delta_ = NULL_DELTA
        | some p => (bget bs c).prev_delta_ = c - p ∧ p < c) ∧
      (∀ p, popt = some p →
        ¬(c = (bget bs c).object_bucket_ +
          (bget bs (bget bs c).object_bucket_).first_delta_)) ∧
      ((A = [] ∧ popt = none ∧
          c = (bget bs c).object_bucket_ +
            (bget bs (bget bs c).object_bucket_).first_delta_) ∨
        (∃ a A', A = a :: A' ∧ popt = some (A'.getLast?.getD a) ∧
          LinkedFromSeg bs a A' c ∧
          (bget bs (bget bs c).object_bucket_).first_delta_ =
            a - (bget bs c).object_bucket_ ∧
          (bget bs c).object_bucket_ ≤ a ∧
          (bget bs a).prev_delta_ = NULL_DELTA ∧
          ¬(c = (bget bs c).object_bucket_ +
            (bget bs (bget bs c).object_bucket_).first_delta_))) := by
    cases A with
    | nil =>
      obtain ⟨h1, h2, h3, h4⟩ := hLinked
      refine ⟨none, h3, fun p hp' => Option.noConfusion hp',
        Or.inl ⟨rfl, rfl, ?_⟩⟩
      rw [h2]
      omega
    | cons a A' =>
      obtain ⟨h1, h2, h3, h4⟩ := hLinked
      obtain ⟨hseg, hfromC⟩ := (LinkedFrom_append_iff bs A' a c B).mp h4
      obtain ⟨hplt, hpnext, hcprev⟩ := LinkedFromSeg_last bs A' a c hseg
      have hac : a < c := hA_lt a (List.mem_cons_self a A')
      have hnh : ¬(c = (bget bs c).object_bucket_ +
          (bget bs (bget bs c).object_bucket_).first_delta_) := by
        rw [h2]
        omega
      exact ⟨some (A'.getLast?.getD a), ⟨hcprev, hplt⟩, fun p _ => hnh,
        Or.inr ⟨a, A', rfl, rfl, hseg, h2, h1, h3, hnh⟩⟩
  obtain ⟨hsp1, hsp2, hsp3, hsp4, hsp5, hsp6⟩ := hopStep_spec bs c f popt qopt
    hclen hflen hcf hlenU hble hfEM hfnext hfprev hp hq hHeadP
  have hpfacts : ∀ p, popt = some p → p < c ∧ p < bs.length ∧
      (bget bs p).object_bucket_ = (bget bs c).object_bucket_ ∧
      occAt bs p := by
    intro p hp'
    rcases hppack with ⟨-, hpn, -⟩ | ⟨a, A', hAeq, hpeq, -, -, -, -, -⟩
    · rw [hpn] at hp'
      exact Option.noConfusion hp'
    · have hpmemA : p ∈ A := by
        have hpl : p = A'.getLast?.getD a :=
          Option.some.inj (hp'.symm.trans hpeq)
        rw [hpl, hAeq]
        exact getLastD_mem a A'
      have hplt : p < c := hA_lt p hpmemA
      have hpm2 := (hmemL p).mp (List.mem_append_left _ hpmemA)
      refine ⟨hplt, hpm2.1, hpm2.2, ?_⟩
      simp only [occAt, hpm2.2]
      exact hbne
  have hqfacts : ∀ q, qopt = some q → f < q ∧ q < bs.length ∧
      (bget bs q).object_bucket_ = (bget bs c).object_bucket_ ∧
      occAt bs q := by
    intro q hq'
    rcases hqpack with ⟨-, hqn⟩ | ⟨q2, B', hBeq, hqeq, -, hfq, -, -, -⟩
    · rw [hqn] at hq'
      exact Option.noConfusion hq'
    · have hqq : q = q2 := Option.some.inj (hq'.symm.trans hqeq)
      have hqmem : q ∈ B := by
        rw [hBeq, hqq]
        exact List.mem_cons_self _ _
      have hqm2 := (hmemL q).mp
        (List.mem_append_right A (List.mem_cons.mpr (Or.inr hqmem)))
      refine ⟨hB_f q hqmem, hqm2.1, hqm2.2, ?_⟩
      simp only [occAt, hqm2.2]
      exact hbne
  have hu1b : (bget (hopStep bs c f) c).object_bucket_ = EMPTY_BUCKET := by
    rw [hsp1]
  have hu1n : (bget (hopStep bs c f) c).next_delta_ = NULL_DELTA := by
    rw [hsp1]
  have hu1p : (bget (hopStep bs c f) c).prev_delta_ = NULL_DELTA := by
    rw [hsp1]
  have hu2b : (bget (hopStep bs c f) f).object_bucket_ =
      (bget bs c).object_bucket_ := by
    rw [hsp2]
  have hu2i : (bget (hopStep bs c f) f).object_it_ =
      (bget bs c).object_it_ := by
    rw [hsp2]
  have hu3 : ∀ x, x ≠ c → x ≠ f →
      (bget (hopStep bs c f) x).object_bucket_ = (bget bs x).object_bucket_ ∧
      (bget (hopStep bs c f) x).object_it_ = (bget bs x).object_it_ := by
    intro x hxc hxf
    by_cases hpx : popt = some x
    · rw [hsp3 x hpx]
      exact ⟨rfl, rfl⟩
    · by_cases hqx : qopt = some x
      · rw [hsp4 x hqx]
        exact ⟨rfl, rfl⟩
      · by_cases hhx : c = (bget bs c).object_bucket_ +
            (bget bs (bget bs c).object_bucket_).first_delta_ ∧
            x = (bget bs c).object_bucket_
        · have hobne : (bget bs c).object_bucket_ ≠ c := fun h =>
            hxc (hhx.2.trans h)
          rw [hhx.2, hsp5 hhx.1 hobne]
          exact ⟨rfl, rfl⟩
        · rw [hsp6 x hxc hxf hpx hqx hhx]
          exact ⟨rfl, rfl⟩
  have hu4 : ∀ x, ¬ occAt bs x → x ≠ c → x ≠ f →
      (bget (hopStep bs c f) x).next_delta_ = (bget bs x).next_delta_ ∧
      (bget (hopStep bs c f) x).prev_delta_ = (bget bs x).prev_delta_ := by
    intro x hnx hxc hxf
    have hpx : popt ≠ some x := fun h => hnx (hpfacts x h).2.2.2
    have hqx : qopt ≠ some x := fun h => hnx (hqfacts x h).2.2.2
    by_cases hhx : c = (bget bs c).object_bucket_ +
        (bget bs (bget bs c).object_bucket_).first_delta_ ∧
        x = (bget bs c).object_bucket_
    · have hobne : (bget bs c).object_bucket_ ≠ c := fun h =>
        hxc (hhx.2.trans h)
      rw [hhx.2, hsp5 hhx.1 hobne]
      exact ⟨rfl, rfl⟩
    · rw [hsp6 x hxc hxf hpx hqx hhx]
      exact ⟨rfl, rfl⟩
  have hu5 : ∀ x, x ≠ c → x ≠ f →
      (bget bs x).object_bucket_ ≠ (bget bs c).object_bucket_ →
      (bget (hopStep bs c f) x).next_delta_ = (bget bs x).next_delta_ ∧
      (bget (hopStep bs c f) x).prev_delta_ = (bget bs x).prev_delta_ := by
    intro x hxc hxf hox
    have hpx : popt ≠ some x := fun h => hox (hpfacts x h).2.2.1
    have hqx : qopt ≠ some x := fun h => hox (hqfacts x h).2.2.1
    by_cases hhx : c = (bget bs c).object_bucket_ +
        (bget bs (bget bs c).object_bucket_).first_delta_ ∧
        x = (bget bs c).object_bucket_
    · have hobne : (bget bs c).object_bucket_ ≠ c := fun h =>
        hxc (hhx.2.trans h)
      rw [hhx.2, hsp5 hhx.1 hobne]
      exact ⟨rfl, rfl⟩
    · rw [hsp6 x hxc hxf hpx hqx hhx]
      exact ⟨rfl, rfl⟩
  have hu6 : ∀ g, g ≠ (bget bs c).object_bucket_ →
      (bget (hopStep bs c f) g).first_delta_ = (bget bs g).first_delta_ := by
    intro g hg
    by_cases hgc : g = c
    · have hcond : ¬(c = (bget bs c).object_bucket_ +
          (bget bs (bget bs c).object_bucket_).first_delta_ ∧
          (bget bs c).object_bucket_ = c) := by
        intro h
        exact hg (hgc.trans h.2.symm)
      rw [hgc, hsp1]
      show (if c = (bget bs c).object_bucket_ +
            (bget bs (bget bs c).object_bucket_).first_delta_ ∧
            (bget bs c).object_bucket_ = c
          then usub f (bget bs c).object_bucket_
          else (bget bs c).first_delta_) = (bget bs c).first_delta_
      rw [if_neg hcond]
    · by_cases hgf : g = f
      · rw [hgf, hsp2]
      · by_cases hpg : popt = some g
        · rw [hsp3 g hpg]
        · by_cases hqg : qopt = some g
          · rw [hsp4 g hqg]
          · rw [hsp6 g hgc hgf hpg hqg (fun h => hg h.2)]
  obtain ⟨hoccIff, hstored, hocc', hinj', hclean', hchainsO⟩ :=
    hop_master_core os hasher H bs (hopStep bs c f) c f hB hcf hflen hocc hemp
      hqual (hopStep_length bs c f) hu1b hu1n hu1p hu2b hu2i hu3 hu4 hu5 hu6
  have hTail : LinkedFrom (hopStep bs c f) f B := by
    refine tail_rebuild bs (hopStep bs c f) c f qopt B hcf hqpack
      (by rw [hsp2]) (fun q hq' => by rw [hsp4 q hq']; exact ⟨rfl, rfl⟩) ?_
    intro x hxB hqx
    have hxgc : c < x := hB_gt x hxB
    have hxgf : f < x := hB_f x hxB
    have hpx : popt ≠ some x := by
      intro h
      have := (hpfacts x h).1
      omega
    have hhx : ¬(c = (bget bs c).object_bucket_ +
        (bget bs (bget bs c).object_bucket_).first_delta_ ∧
        x = (bget bs c).object_bucket_) := by
      rintro ⟨-, hxob⟩
      omega
    rw [hsp6 x (by omega) (by omega) hpx hqx hhx]
    exact ⟨rfl, rfl⟩
  have hchainEq : chainIndices (hopStep bs c f) (bget bs c).object_bucket_ =
      A ++ f :: B := by
    refine sorted_eq_of_mem_iff (chainIndices_sorted _ _)
      (sorted_hop A B c f hsorted hcf hB_f) (fun x => ?_)
    rw [mem_chainIndices, hopStep_length]
    by_cases hxc : x = c
    · constructor
      · rintro ⟨-, hox⟩
        rw [hxc, hu1b] at hox
        exact absurd hox.symm hbne
      · intro hmem
        exfalso
        rw [hxc] at hmem
        rcases List.mem_append.mp hmem with h | h
        · exact absurd (hA_lt c h) (lt_irrefl c)
        · rcases List.mem_cons.mp h with h | h
          · exact absurd h hcnotf
          · exact absurd (hB_gt c h) (lt_irrefl c)
    · by_cases hxf : x = f
      · constructor
        · intro _
          rw [hxf]
          exact List.mem_append_right A (List.mem_cons_self f B)
        · intro _
          rw [hxf]
          exact ⟨hflen, hu2b⟩
      · rw [(hu3 x hxc hxf).1]
        constructor
        · intro h
          have hxm := (hmemL x).mpr h
          rcases List.mem_append.mp hxm with h2 | h2
          · exact List.mem_append_left _ h2
          · rcases List.mem_cons.mp h2 with h2 | h2
            · exact absurd h2 hxc
            · exact List.mem_append_right A (List.mem_cons.mpr (Or.inr h2))
        · intro h
          apply (hmemL x).mp
          rcases List.mem_append.mp h with h2 | h2
          · exact List.mem_append_left _ h2
          · rcases List.mem_cons.mp h2 with h2 | h2
            · exact absurd h2 hxf
            · exact List.mem_append_right A (List.mem_cons.mpr (Or.inr h2))
  have hLinked' : Linked (hopStep bs c f) (bget bs c).object_bucket_
      (A ++ f :: B) := by
    rcases hppack with ⟨hA0, hpn, hheadC⟩ |
      ⟨a, A', hAeq, hpeq, hseg, hfirsteq, hhba, hpreva, hnh⟩
    · rw [hA0]
      show Linked (hopStep bs c f) (bget bs c).object_bucket_ (f :: B)
      refine ⟨by omega, ?_, ?_, hTail⟩
      · by_cases hobc : (bget bs c).object_bucket_ = c
        · rw [hobc, hsp1]
          show (if c = (bget bs c).object_bucket_ +
                (bget bs (bget bs c).object_bucket_).first_delta_ ∧
                (bget bs c).object_bucket_ = c
              then usub f (bget bs c).object_bucket_
              else (bget bs c).first_delta_) = f - c
          rw [if_pos ⟨hheadC, hobc⟩, hobc]
          exact usub_of_le (le_of_lt hcf) (by omega)
        · rw [hsp5 hheadC hobc]
          show usub f (bget bs c).object_bucket_ =
            f - (bget bs c).object_bucket_
          exact usub_of_le (by omega) (by omega)
      · rw [hsp2]
        show optPrev popt c f = NULL_DELTA
        rw [hpn]
        rfl
    · rw [hAeq]
      show Linked (hopStep bs c f) (bget bs c).object_bucket_
        (a :: (A' ++ f :: B))
      have hac : a < c := hA_lt a (by rw [hAeq]; exact List.mem_cons_self a A')
      obtain ⟨hplt, hpnext, hcprev⟩ := LinkedFromSeg_last bs A' a c hseg
      refine ⟨hhba, ?_, ?_, ?_⟩
      · by_cases hobc : (bget bs c).object_bucket_ = c
        · rw [hobc] at hfirsteq ⊢
          rw [hsp1]
          show (if c = (bget bs c).object_bucket_ +
                (bget bs (bget bs c).object_bucket_).first_delta_ ∧
                (bget bs c).object_bucket_ = c
              then usub f (bget bs c).object_bucket_
              else (bget bs c).first_delta_) = a - c
          rw [if_neg (fun h => hnh h.1)]
          exact hfirsteq
        · by_cases hpg : popt = some ((bget bs c).object_bucket_)
          · rw [hsp3 _ hpg]
            exact hfirsteq
          · have hqg : qopt ≠ some ((bget bs c).object_bucket_) := by
              intro h
              have := (hqfacts _ h).1
              omega
            rw [hsp6 _ hobc (by omega) hpg hqg (fun h => hnh h.1)]
            exact hfirsteq
      · by_cases hpa : popt = some a
        · rw [hsp3 a hpa]
          exact hpreva
        · have hqa : qopt ≠ some a := by
            intro h
            have := (hqfacts a h).1
            omega
          rw [hsp6 a (by omega) (by omega) hpa hqa (fun h => hnh h.1)]
          exact hpreva
      · refine (LinkedFrom_append_iff (hopStep bs c f) A' a f B).mpr
          ⟨?_, hTail⟩
        have hmemA : ∀ x ∈ a :: A', x ∈ A := by
          rw [hAeq]
          exact fun x hx => hx
        have hsidex : ∀ x ∈ a :: A', x ≠ c ∧ x ≠ f ∧ qopt ≠ some x ∧
            ¬(c = (bget bs c).object_bucket_ +
              (bget bs (bget bs c).object_bucket_).first_delta_ ∧
              x = (bget bs c).object_bucket_) := by
          intro x hx
          have hxc' : x < c := hA_lt x (hmemA x hx)
          refine ⟨by omega, by omega, ?_, fun h => hnh h.1⟩
          intro h
          have := (hqfacts x h).1
          omega
        refine LinkedFromSeg_retarget bs (hopStep bs c f) c f A' a hseg
          ?_ ?_ ?_ ?_ hcf
        · intro x hx
          obtain ⟨hxc', hxf', hqx, hhx⟩ := hsidex x hx
          by_cases hpx : popt = some x
          · rw [hsp3 x hpx]
          · rw [hsp6 x hxc' hxf' hpx hqx hhx]
        · intro x hx hxl
          obtain ⟨hxc', hxf', hqx, hhx⟩ := hsidex x hx
          have hpx : popt ≠ some x := by
            intro h
            exact hxl (Option.some.inj (h.symm.trans hpeq))
          rw [hsp6 x hxc' hxf' hpx hqx hhx]
        · simp only [hsp3 _ hpeq, hpnext]
          exact uadd_sub_assemble hplt hcf hfU
        · rw [hsp2]
          show optPrev popt c f = f - (A'.getLast?.getD a)
          rw [hpeq]
          show uadd (c - A'.getLast?.getD a) (f - c) = f - A'.getLast?.getD a
          exact uadd_sub_assemble hplt hcf hfU
  refine ⟨⟨?_, hocc', hinj', hclean', ?_⟩, hoccIff, hstored⟩
  · rw [hopStep_length]
    exact hlenU
  · intro g hg
    rw [hopStep_length] at hg
    by_cases hghb : g = (bget bs c).object_bucket_
    · rw [hghb, hchainEq]
      exact hLinked'
    · exact hchainsO g hg hghb

/-- Master lemma for Step B of `InsertObject`: the whole hop loop preserves
the bucket invariant, the table length and the stored handle set; on success
it yields an empty slot within the neighbourhood of `start`, with the probed
region below it still fully occupied. -/
theorem hopLoop_master (os : List Entry) (hasher : Nat → Nat) (H start : Nat) :
    ∀ (fuel : Nat) (bs : List Bucket) (free : Nat),
      BInv os hasher H bs →
      free < bs.length → ¬ occAt bs free → start ≤ free → free < fuel →
      (∀ i, start ≤ i → i < free → occAt bs i) →
      BInv os hasher H (hopLoop H start fuel bs free).1 ∧
        (hopLoop H start fuel bs free).1.length = bs.length ∧
        (∀ id, storedId (hopLoop H start fuel bs free).1 id ↔ storedId bs id) ∧
        (∀ free', (hopLoop H start fuel bs free).2 = some free' →
          start ≤ free' ∧ free' < bs.length ∧ free' - start < H ∧
          ¬ occAt (hopLoop H start fuel bs free).1 free' ∧
          (∀ i, start ≤ i → i < free' →
            occAt (hopLoop H start fuel bs free).1 i)) := by
  intro fuel
  induction fuel with
  | zero =>
    intro bs free _ _ _ _ hfuel _
    exact absurd hfuel (Nat.not_lt_zero free)
  | succ fuel ih =>
    intro bs free hB hflen hfemp hsf hfuel hreg
    have hlenU := hB.capU
    rw [hopLoop]
    by_cases hcond : H ≤ usub free start
    · rw [if_pos hcond]
      dsimp only
      by_cases hfail : fitScan bs H free free = 0 ∨
          H ≤ uadd (usub free (fitScan bs H free free)) 1
      · rw [if_pos hfail]
        exact ⟨hB, rfl, fun id => Iff.rfl,
          fun free' hres => Option.noConfusion hres⟩
      · rw [if_neg hfail]
        have husub : usub free start = free - start :=
          usub_of_le hsf (by omega)
        rw [husub] at hcond
        have hsc := fitScan_cases bs H free free
          (fun s hs hs' => absurd (lt_of_le_of_lt hs hs') (lt_irrefl _))
        rcases hsc with hsc | ⟨hqualc, hnoq⟩
        · exact absurd hsc hfail
        · obtain ⟨hfit0, hwin⟩ := not_or.mp hfail
          have hwin' : uadd (usub free (fitScan bs H free free)) 1 < H :=
            lt_of_not_le hwin
          have hfitle : fitScan bs H free free ≤ free := fitScan_le bs H free free
          rw [usub_of_le hfitle (by omega), uadd_of_lt (by omega)] at hwin'
          have hcfree : fitScan bs H free free - 1 < free := by omega
          have hstartc : start ≤ fitScan bs H free free - 1 := by omega
          have hcocc : occAt bs (fitScan bs H free free - 1) :=
            hreg _ hstartc hcfree
          have hclen' : fitScan bs H free free - 1 < bs.length := by omega
          obtain ⟨ec, -, -, -, hoble, -⟩ := hB.occ _ hclen' hcocc
          have hqualN : free -
              (bget bs (fitScan bs H free free - 1)).object_bucket_ < H := by
            simp only [qualifies] at hqualc
            rw [usub_of_le (by omega) (by omega)] at hqualc
            exact hqualc
          have hnomid : ∀ s, fitScan bs H free free - 1 < s → s < free →
              occAt bs s → ¬(free - (bget bs s).object_bucket_ < H) := by
            intro s hcs hsf' hsocc hfit'
            have hslen : s < bs.length := by omega
            obtain ⟨es, -, -, -, hsble, -⟩ := hB.occ s hslen hsocc
            refine hnoq s (by omega) hsf' ?_
            simp only [qualifies]
            rw [usub_of_le (by omega) (by omega)]
            exact hfit'
          obtain ⟨hB2, hocc2, hstored2⟩ := hopStep_master os hasher H bs
            (fitScan bs H free free - 1) free hB (by omega) hflen hcocc hfemp
            hqualN hnomid
          have hlen2 : (hopStep bs (fitScan bs H free free - 1) free).length =
              bs.length := hopStep_length bs _ free
          have hfemp2 : ¬ occAt (hopStep bs (fitScan bs H free free - 1) free)
              (fitScan bs H free free - 1) := by
            intro h
            rcases (hocc2 _).mp h with ⟨-, hne⟩ | h
            · exact hne rfl
            · omega
          have hreg2 : ∀ i, start ≤ i → i < fitScan bs H free free - 1 →
              occAt (hopStep bs (fitScan bs H free free - 1) free) i := by
            intro i h1 h2
            exact (hocc2 i).mpr (Or.inl ⟨hreg i h1 (by omega), by omega⟩)
          obtain ⟨ihB, ihlen, ihstored, ihres⟩ := ih
            (hopStep bs (fitScan bs H free free - 1) free)
            (fitScan bs H free free - 1) hB2 (by omega) hfemp2 hstartc
            (by omega) hreg2
          refine ⟨ihB, by rw [ihlen, hlen2],
            fun id => (ihstored id).trans (hstored2 id), ?_⟩
          intro free' hres
          obtain ⟨h1, h2, h3, h4, h5⟩ := ihres free' hres
          rw [hlen2] at h2
          exact ⟨h1, h2, h3, h4, h5⟩
    · rw [if_neg hcond]
      refine ⟨hB, rfl, fun id => Iff.rfl, ?_⟩
      intro free' hres
      have hfe : free = free' := Option.some.inj hres
      rw [← hfe]
      have husub : usub free start = free - start := usub_of_le hsf (by omega)
      rw [husub] at hcond
      exact ⟨hsf, hflen, lt_of_not_le hcond, hfemp, hreg⟩

/-- Step A characterization: the linear probe returns the first empty bucket
at or after `i` (everything in between is occupied), or the table length when
no bucket to the right is empty. -/
theorem probeFreeAux_spec (bs : List Bucket) :
    ∀ fuel i, fuel = bs.length - i → i ≤ bs.length →
      i ≤ probeFreeAux bs fuel i ∧ probeFreeAux bs fuel i ≤ bs.length ∧
      (∀ j, i ≤ j → j < probeFreeAux bs fuel i → occAt bs j) ∧
      (probeFreeAux bs fuel i < bs.length →
        ¬ occAt bs (probeFreeAux bs fuel i)) := by
  intro fuel
  induction fuel with
  | zero =>
    intro i hfuel hi
    have hieq : i = bs.length := by omega
    show i ≤ i ∧ i ≤ bs.length ∧ (∀ j, i ≤ j → j < i → occAt bs j) ∧
      (i < bs.length → ¬ occAt bs i)
    exact ⟨le_refl i, hi, fun j h1 h2 => absurd (lt_of_le_of_lt h1 h2)
      (lt_irrefl i), fun h => absurd h (by omega)⟩
  | succ fuel ih =>
    intro i hfuel hi
    rw [probeFreeAux]
    by_cases hc : i < bs.length ∧ (bget bs i).object_bucket_ ≠ EMPTY_BUCKET
    · rw [if_pos hc]
      obtain ⟨h1, h2, h3, h4⟩ := ih (i + 1) (by omega) (by omega)
      refine ⟨by omega, h2, ?_, h4⟩
      intro j hj1 hj2
      rcases Nat.eq_or_lt_of_le hj1 with h | h
      · rw [← h]
        exact hc.2
      · exact h3 j h hj2
    · rw [if_neg hc]
      refine ⟨le_refl i, hi, fun j h1 h2 => absurd (lt_of_le_of_lt h1 h2)
        (lt_irrefl i), ?_⟩
      intro hlt hocc
      exact hc ⟨hlt, hocc⟩

theorem probeFree_spec (bs : List Bucket) (start : Nat)
    (hs : start ≤ bs.length) :
    start ≤ probeFree bs start ∧ probeFree bs start ≤ bs.length ∧
      (∀ j, start ≤ j → j < probeFree bs start → occAt bs j) ∧
      (probeFree bs start < bs.length → ¬ occAt bs (probeFree bs start)) :=
  probeFreeAux_spec bs (bs.length - start) start rfl hs

/-- Step C's backward walk characterization: starting at `p ≥ start`, the walk
either reaches `start` having passed no bucket of home `h`, or stops just
above the highest bucket of home `h` strictly below `p`. -/
theorem prevWalk_spec (bs : List Bucket) (start h : Nat) :
    ∀ p, start ≤ p →
      (prevWalk bs start h p = start ∧
        (∀ j, start ≤ j → j < p → (bget bs j).object_bucket_ ≠ h)) ∨
      (start < prevWalk bs start h p ∧ prevWalk bs start h p ≤ p ∧
        (bget bs (prevWalk bs start h p - 1)).object_bucket_ = h ∧
        (∀ j, prevWalk bs start h p ≤ j → j < p →
          (bget bs j).object_bucket_ ≠ h)) := by
  intro p
  induction p with
  | zero =>
    intro hs
    left
    have hs0 : start = 0 := by omega
    exact ⟨hs0.symm, fun j h1 h2 => absurd h2 (Nat.not_lt_zero j)⟩
  | succ p ih =>
    intro hs
    rw [prevWalk]
    by_cases hc : p + 1 ≠ start ∧ (bget bs p).object_bucket_ ≠ h
    · rw [if_pos hc]
      rcases ih (by omega) with ⟨h1, h2⟩ | ⟨h1, h2, h3, h4⟩
      · left
        refine ⟨h1, fun j hj1 hj2 => ?_⟩
        rcases Nat.lt_or_ge j p with hj | hj
        · exact h2 j hj1 hj
        · have : j = p := by omega
          rw [this]
          exact hc.2
      · right
        refine ⟨h1, by omega, h3, fun j hj1 hj2 => ?_⟩
        rcases Nat.lt_or_ge j p with hj | hj
        · exact h4 j hj1 hj
        · have : j = p := by omega
          rw [this]
          exact hc.2
    · rw [if_neg hc]
      by_cases hps : p + 1 = start
      · left
        exact ⟨hps, fun j hj1 hj2 => by exfalso; omega⟩
      · right
        have hobp : (bget bs p).object_bucket_ = h := by
          rcases Decidable.not_and_iff_or_not.mp hc with hc1 | hc2
          · exact absurd (not_not.mp hc1) hps
          · exact not_not.mp hc2
        exact ⟨by omega, le_refl _, hobp, fun j hj1 hj2 => by exfalso; omega⟩

/-- The `next_delta_` the installed bucket receives, by successor case. -/
def spliceNext (qopt : Option Nat) (free old : Nat) : Nat :=
  match qopt with
  | some q => usub q free
  | none => old

/-- The `prev_delta_` the installed bucket receives, by predecessor case. -/
def splicePrev (popt : Option Nat) (free old : Nat) : Nat :=
  match popt with
  | some p => usub free p
  | none => old

/-- The `first_delta_` the installed bucket ends with: only a front insert
into its own home bucket rewrites it. -/
def spliceFirst (popt : Option Nat) (start free old : Nat) : Nat :=
  match popt with
  | some _ => old
  | none => if start = free then usub free start else old

/-- The complete effect of Step C on every bucket.  `p?` is the chain
predecessor the backward walk finds (`none` when the walk reaches `start`),
`q?` the chain successor the splice reconnects (the predecessor's old
successor, or the old chain head when inserting at the front). -/
theorem installSplice_spec (bs : List Bucket) (start free oid : Nat)
    (popt qopt : Option Nat)
    (hflen : free < bs.length) (hsf : start ≤ free) (hlenU : bs.length < U64)
    (hp : match popt with
      | none => prevWalk (bmod bs free (fun b =>
          { b with object_it_ := oid, object_bucket_ := start }))
          start start free = start
      | some p => prevWalk (bmod bs free (fun b =>
          { b with object_it_ := oid, object_bucket_ := start }))
          start start free ≠ start ∧
        prevWalk (bmod bs free (fun b =>
          { b with object_it_ := oid, object_bucket_ := start }))
          start start free - 1 = p ∧ start ≤ p ∧ p < free)
    (hq : match popt with
      | some p => (match qopt with
        | none => (bget bs p).next_delta_ = NULL_DELTA
        | some q => (bget bs p).next_delta_ = q - p ∧ free < q ∧
            q < bs.length)
      | none => (match qopt with
        | none => (bget bs start).first_delta_ = NULL_DELTA
        | some q => (bget bs start).first_delta_ = q - start ∧ free < q ∧
            q < bs.length)) :
    bget (installSplice bs start free oid) free =
        { object_it_ := oid,
          object_bucket_ := start,
          first_delta_ :=
            spliceFirst popt start free (bget bs free).first_delta_,
          next_delta_ := spliceNext qopt free (bget bs free).next_delta_,
          prev_delta_ :=
            splicePrev popt free (bget bs free).prev_delta_ } ∧
      (∀ p, popt = some p → bget (installSplice bs start free oid) p =
        { bget bs p with next_delta_ := usub free p }) ∧
      (∀ q, qopt = some q → bget (installSplice bs start free oid) q =
        { bget bs q with prev_delta_ := usub q free }) ∧
      (popt = none → start ≠ free →
        bget (installSplice bs start free oid) start =
          { bget bs start with first_delta_ := usub free start }) ∧
      (∀ x, x ≠ free → popt ≠ some x → qopt ≠ some x →
        ¬(popt = none ∧ x = start) →
        bget (installSplice bs start free oid) x = bget bs x) := by
  unfold installSplice
  dsimp only
  cases popt with
  | some p =>
    obtain ⟨hpne, hpval, hpsle, hplt⟩ := hp
    rw [if_pos hpne]
    simp only [hpval]
    have hfp : free ≠ p := by omega
    have hpf : p ≠ free := by omega
    have hb1p : bget (bmod bs free (fun b =>
        { b with object_it_ := oid, object_bucket_ := start })) p =
        bget bs p := bget_bmod_ne bs free p _ hfp
    cases qopt with
    | some q =>
      obtain ⟨hqd, hfq, hqlen⟩ := hq
      have hqnn : (bget (bmod bs free (fun b =>
          { b with object_it_ := oid, object_bucket_ := start }))
          p).next_delta_ ≠ NULL_DELTA := by
        rw [hb1p, hqd]
        simp only [NULL_DELTA]
        omega
      rw [if_pos hqnn]
      have hqT : p + (bget (bmod bs free (fun b =>
          { b with object_it_ := oid, object_bucket_ := start }))
          p).next_delta_ = q := by
        rw [hb1p, hqd]
        omega
      rw [hqT]
      have hqf : q ≠ free := by omega
      have hpq : p ≠ q := by omega
      have hfq2 : free ≠ q := by omega
      have hqp : q ≠ p := by omega
      refine ⟨?_, ?_, ?_, ?_, ?_⟩
      · rw [bget_bmod_self _ _ _ (by simp only [length_bmod]; omega),
          bget_bmod_ne _ _ _ _ hpf,
          bget_bmod_self _ _ _ (by simp only [length_bmod]; omega),
          bget_bmod_ne _ _ _ _ hqf,
          bget_bmod_self _ _ _ hflen]
        rfl
      · intro pv hpv
        rw [Option.some.inj hpv.symm]
        rw [bget_bmod_ne _ _ _ _ hfp,
          bget_bmod_self _ _ _ (by simp only [length_bmod]; omega),
          bget_bmod_ne _ _ _ _ hfp,
          bget_bmod_ne _ _ _ _ hqp,
          bget_bmod_ne _ _ _ _ hfp]
      · intro qv hqv
        rw [Option.some.inj hqv.symm]
        rw [bget_bmod_ne _ _ _ _ hfq2,
          bget_bmod_ne _ _ _ _ hpq,
          bget_bmod_ne _ _ _ _ hfq2,
          bget_bmod_self _ _ _ (by simp only [length_bmod]; omega),
          bget_bmod_ne _ _ _ _ hfq2]
      · intro hcontra
        exact absurd hcontra (fun h => Option.noConfusion h)
      · intro x hxf hxp hxq _
        have hfx : free ≠ x := fun h => hxf h.symm
        have hpx : p ≠ x := fun h => hxp (by rw [h])
        have hqx : q ≠ x := fun h => hxq (by rw [h])
        rw [bget_bmod_ne _ _ _ _ hfx,
          bget_bmod_ne _ _ _ _ hpx,
          bget_bmod_ne _ _ _ _ hfx,
          bget_bmod_ne _ _ _ _ hqx,
          bget_bmod_ne _ _ _ _ hfx]
    | none =>
      have hqnn : ¬ ((bget (bmod bs free (fun b =>
          { b with object_it_ := oid, object_bucket_ := start }))
          p).next_delta_ ≠ NULL_DELTA) := by
        rw [hb1p, hq]
        exact not_not.mpr rfl
      rw [if_neg hqnn]
      refine ⟨?_, ?_, ?_, ?_, ?_⟩
      · rw [bget_bmod_self _ _ _ (by simp only [length_bmod]; omega),
          bget_bmod_ne _ _ _ _ hpf,
          bget_bmod_self _ _ _ hflen]
        rfl
      · intro pv hpv
        rw [Option.some.inj hpv.symm]
        rw [bget_bmod_ne _ _ _ _ hfp,
          bget_bmod_self _ _ _ (by simp only [length_bmod]; omega),
          bget_bmod_ne _ _ _ _ hfp]
      · intro qv hqv
        exact absurd hqv (fun h => Option.noConfusion h)
      · intro hcontra
        exact absurd hcontra (fun h => Option.noConfusion h)
      · intro x hxf hxp _ _
        have hfx : free ≠ x := fun h => hxf h.symm
        have hpx : p ≠ x := fun h => hxp (by rw [h])
        rw [bget_bmod_ne _ _ _ _ hfx,
          bget_bmod_ne _ _ _ _ hpx,
          bget_bmod_ne _ _ _ _ hfx]
  | none =>
    rw [if_neg (not_not.mpr hp)]
    have hb1s : (bget (bmod bs free (fun b =>
        { b with object_it_ := oid, object_bucket_ := start }))
        start).first_delta_ = (bget bs start).first_delta_ := by
      by_cases hse : free = start
      · rw [hse, bget_bmod_self _ _ _ (by omega)]
      · rw [bget_bmod_ne _ _ _ _ hse]
    cases qopt with
    | some q =>
      obtain ⟨hqd, hfq, hqlen⟩ := hq
      have hqnn : (bget (bmod bs free (fun b =>
          { b with object_it_ := oid, object_bucket_ := start }))
          start).first_delta_ ≠ NULL_DELTA := by
        rw [hb1s, hqd]
        simp only [NULL_DELTA]
        omega
      rw [if_pos hqnn]
      have hqT : start + (bget (bmod bs free (fun b =>
          { b with object_it_ := oid, object_bucket_ := start }))
          start).first_delta_ = q := by
        rw [hb1s, hqd]
        omega
      rw [hqT]
      have hqf : q ≠ free := by omega
      have hfq2 : free ≠ q := by omega
      have hsq : start ≠ q := by omega
      have hqs : q ≠ start := by omega
      refine ⟨?_, ?_, ?_, ?_, ?_⟩
      · simp only [spliceFirst, spliceNext, splicePrev]
        by_cases hse : start = free
        · rw [if_pos hse, ← hse,
            bget_bmod_self _ _ _ (by simp only [length_bmod]; omega),
            bget_bmod_self _ _ _ (by simp only [length_bmod]; omega),
            bget_bmod_ne _ _ _ _ hqs,
            bget_bmod_self _ _ _ (by omega)]
        · rw [if_neg hse,
            bget_bmod_ne _ _ _ _ hse,
            bget_bmod_self _ _ _ (by simp only [length_bmod]; omega),
            bget_bmod_ne _ _ _ _ hqf,
            bget_bmod_self _ _ _ hflen]
      · intro pv hpv
        exact absurd hpv (fun h => Option.noConfusion h)
      · intro qv hqv
        rw [Option.some.inj hqv.symm]
        rw [bget_bmod_ne _ _ _ _ hsq,
          bget_bmod_ne _ _ _ _ hfq2,
          bget_bmod_self _ _ _ (by simp only [length_bmod]; omega),
          bget_bmod_ne _ _ _ _ hfq2]
      · intro _ hse
        have hfs : free ≠ start := fun h => hse h.symm
        rw [bget_bmod_self _ _ _ (by simp only [length_bmod]; omega),
          bget_bmod_ne _ _ _ _ hfs,
          bget_bmod_ne _ _ _ _ hqs,
          bget_bmod_ne _ _ _ _ hfs]
      · intro x hxf _ hxq hxs
        have hfx : free ≠ x := fun h => hxf h.symm
        have hsx : start ≠ x := fun h => hxs ⟨rfl, h.symm⟩
        have hqx : q ≠ x := fun h => hxq (by rw [h])
        rw [bget_bmod_ne _ _ _ _ hsx,
          bget_bmod_ne _ _ _ _ hfx,
          bget_bmod_ne _ _ _ _ hqx,
          bget_bmod_ne _ _ _ _ hfx]
    | none =>
      have hqnn : ¬ ((bget (bmod bs free (fun b =>
          { b with object_it_ := oid, object_bucket_ := start }))
          start).first_delta_ ≠ NULL_DELTA) := by
        rw [hb1s, hq]
        exact not_not.mpr rfl
      rw [if_neg hqnn]
      refine ⟨?_, ?_, ?_, ?_, ?_⟩
      · simp only [spliceFirst, spliceNext, splicePrev]
        by_cases hse : start = free
        · rw [if_pos hse, ← hse,
            bget_bmod_self _ _ _ (by simp only [length_bmod]; omega),
            bget_bmod_self _ _ _ (by omega)]
        · rw [if_neg hse,
            bget_bmod_ne _ _ _ _ hse,
            bget_bmod_self _ _ _ hflen]
      · intro pv hpv
        exact absurd hpv (fun h => Option.noConfusion h)
      · intro qv hqv
        exact absurd hqv (fun h => Option.noConfusion h)
      · intro _ hse
        have hfs : free ≠ start := fun h => hse h.symm
        rw [bget_bmod_self _ _ _ (by simp only [length_bmod]; omega),
          bget_bmod_ne _ _ _ _ hfs]
      · intro x hxf _ _ hxs
        have hfx : free ≠ x := fun h => hxf h.symm
        have hsx : start ≠ x := fun h => hxs ⟨rfl, h.symm⟩
        rw [bget_bmod_ne _ _ _ _ hsx,
          bget_bmod_ne _ _ _ _ hfx]

/-- Everything Step C establishes apart from the extended chain itself:
occupancy grows by the installed bucket, the stored handle set grows by the
new handle, and the per-bucket facts, injectivity, cleanness and all other
chains carry over. -/
theorem install_core (os : List Entry) (hasher : Nat → Nat) (H : Nat)
    (bs bs' : List Bucket) (start free oid : Nat) (e : Entry)
    (hB : BInv os hasher H bs)
    (hflen : free < bs.length) (hsf : start ≤ free)
    (hdispf : free - start < H)
    (hfemp : ¬ occAt bs free)
    (he : e ∈ os) (heid : e.id = oid)
    (hhash : hasher e.key % bs.length = start)
    (hnew : ¬ storedId bs oid)
    (hlen' : bs'.length = bs.length)
    (u1b : (bget bs' free).object_bucket_ = start)
    (u1i : (bget bs' free).object_it_ = oid)
    (u2 : ∀ x, x ≠ free →
      (bget bs' x).object_bucket_ = (bget bs x).object_bucket_ ∧
      (bget bs' x).object_it_ = (bget bs x).object_it_)
    (u3 : ∀ x, ¬ occAt bs x → x ≠ free →
      (bget bs' x).next_delta_ = (bget bs x).next_delta_ ∧
      (bget bs' x).prev_delta_ = (bget bs x).prev_delta_)
    (u5 : ∀ x, x ≠ free → occAt bs x →
      (bget bs x).object_bucket_ ≠ start →
      (bget bs' x).next_delta_ = (bget bs x).next_delta_ ∧
      (bget bs' x).prev_delta_ = (bget bs x).prev_delta_)
    (u6 : ∀ g, g ≠ start →
      (bget bs' g).first_delta_ = (bget bs g).first_delta_) :
    (∀ i, occAt bs' i ↔ (occAt bs i ∨ i = free)) ∧
      (∀ id, storedId bs' id ↔ (storedId bs id ∨ id = oid)) ∧
      (∀ i, i < bs'.length → occAt bs' i →
        ∃ e2 ∈ os, (bget bs' i).object_it_ = e2.id ∧
          hasher e2.key % bs'.length = (bget bs' i).object_bucket_ ∧
          (bget bs' i).object_bucket_ ≤ i ∧
          i - (bget bs' i).object_bucket_ < H) ∧
      (∀ i j, i < bs'.length → j < bs'.length → occAt bs' i → occAt bs' j →
        (bget bs' i).object_it_ = (bget bs' j).object_it_ → i = j) ∧
      (∀ i, ¬ occAt bs' i →
        (bget bs' i).next_delta_ = NULL_DELTA ∧
        (bget bs' i).prev_delta_ = NULL_DELTA) ∧
      (∀ g, g < bs.length → g ≠ start →
        Linked bs' g (chainIndices bs' g)) := by
  have hlenU := hB.capU
  have hsNE : start ≠ EMPTY_BUCKET := by
    simp only [EMPTY_BUCKET]
    omega
  have hoccIff : ∀ i, occAt bs' i ↔ (occAt bs i ∨ i = free) := by
    intro i
    by_cases hif : i = free
    · constructor
      · intro _
        exact Or.inr hif
      · intro _
        rw [hif]
        simp only [occAt, u1b]
        exact hsNE
    · simp only [occAt, (u2 i hif).1]
      constructor
      · intro h
        exact Or.inl h
      · rintro (h | h)
        · exact h
        · exact absurd h hif
  refine ⟨hoccIff, ?_, ?_, ?_, ?_, ?_⟩
  · intro id
    constructor
    · rintro ⟨i, hilen, hiocc, hiid⟩
      rw [hlen'] at hilen
      by_cases hif : i = free
      · right
        rw [hif, u1i] at hiid
        exact hiid.symm
      · left
        exact ⟨i, hilen, ((hoccIff i).mp hiocc).elim (fun h => h)
          (fun h => absurd h hif), by rw [← (u2 i hif).2]; exact hiid⟩
    · rintro (⟨i, hilen, hiocc, hiid⟩ | hoid)
      · have hif : i ≠ free := fun h => hfemp (h ▸ hiocc)
        exact ⟨i, by rw [hlen']; exact hilen, (hoccIff i).mpr (Or.inl hiocc),
          by rw [(u2 i hif).2]; exact hiid⟩
      · exact ⟨free, by rw [hlen']; exact hflen, (hoccIff free).mpr (Or.inr rfl),
          by rw [u1i, hoid]⟩
  · intro i hilen hiocc
    rw [hlen'] at hilen ⊢
    by_cases hif : i = free
    · rw [hif]
      exact ⟨e, he, by rw [u1i, heid], by rw [u1b]; exact hhash,
        by rw [u1b]; exact hsf, by rw [u1b]; exact hdispf⟩
    · have hiocc' : occAt bs i := ((hoccIff i).mp hiocc).elim (fun h => h)
        (fun h => absurd h hif)
      obtain ⟨e2, he2, ha, hb2, hc, hd⟩ := hB.occ i hilen hiocc'
      exact ⟨e2, he2, by rw [(u2 i hif).2]; exact ha,
        by rw [(u2 i hif).1]; exact hb2,
        by rw [(u2 i hif).1]; exact hc,
        by rw [(u2 i hif).1]; exact hd⟩
  · intro i j hilen hjlen hiocc hjocc hij
    rw [hlen'] at hilen hjlen
    by_cases hif : i = free
    · by_cases hjf : j = free
      · rw [hif, hjf]
      · exfalso
        have hjocc' : occAt bs j := ((hoccIff j).mp hjocc).elim (fun h => h)
          (fun h => absurd h hjf)
        apply hnew
        refine ⟨j, hjlen, hjocc', ?_⟩
        rw [← (u2 j hjf).2, ← hij, hif, u1i]
    · by_cases hjf : j = free
      · exfalso
        have hiocc' : occAt bs i := ((hoccIff i).mp hiocc).elim (fun h => h)
          (fun h => absurd h hif)
        apply hnew
        refine ⟨i, hilen, hiocc', ?_⟩
        rw [← (u2 i hif).2, hij, hjf, u1i]
      · have hiocc' : occAt bs i := ((hoccIff i).mp hiocc).elim (fun h => h)
          (fun h => absurd h hif)
        have hjocc' : occAt bs j := ((hoccIff j).mp hjocc).elim (fun h => h)
          (fun h => absurd h hjf)
        exact hB.inj i j hilen hjlen hiocc' hjocc'
          (by rw [← (u2 i hif).2, hij, (u2 j hjf).2])
  · intro i hni
    by_cases hif : i = free
    · exact absurd ((hoccIff i).mpr (Or.inr hif)) hni
    · have hni' : ¬ occAt bs i := fun h => hni ((hoccIff i).mpr (Or.inl h))
      obtain ⟨h1, h2⟩ := u3 i hni' hif
      obtain ⟨h3, h4⟩ := hB.emptyClean i hni'
      exact ⟨h1.trans h3, h2.trans h4⟩
  · intro g hglen hgs
    have hgE : g ≠ EMPTY_BUCKET := by
      simp only [EMPTY_BUCKET]
      omega
    have hchEq : chainIndices bs' g = chainIndices bs g := by
      refine sorted_eq_of_mem_iff (chainIndices_sorted _ _)
        (chainIndices_sorted _ _) (fun x => ?_)
      rw [mem_chainIndices, mem_chainIndices, hlen']
      by_cases hxf : x = free
      · constructor
        · rintro ⟨-, hobx⟩
          rw [hxf, u1b] at hobx
          exact absurd hobx hgs.symm
        · rintro ⟨-, hobx⟩
          exfalso
          apply hfemp
          rw [hxf] at hobx
          simp only [occAt, hobx]
          exact hgE
      · rw [(u2 x hxf).1]
    rw [hchEq]
    refine Linked_congr_fields bs bs' g (chainIndices bs g) (u6 g hgs)
      (fun x hx => ?_) (hB.chains g hglen)
    obtain ⟨hxlen, hxob⟩ := (mem_chainIndices bs g x).mp hx
    have hxocc : occAt bs x := by
      simp only [occAt, hxob]
      exact hgE
    have hxf : x ≠ free := fun h => hfemp (h ▸ hxocc)
    exact u5 x hxf hxocc (by rw [hxob]; exact hgs)

theorem LinkedFromSeg_congr_fields (bs bs' : List Bucket) :
    ∀ (a : Nat) (l : List Nat) (c : Nat),
      (∀ x ∈ a :: l, (bget bs' x).next_delta_ = (bget bs x).next_delta_) →
      (∀ x ∈ l ++ [c], (bget bs' x).prev_delta_ = (bget bs x).prev_delta_) →
      LinkedFromSeg bs a l c → LinkedFromSeg bs' a l c := by
  intro a l
  induction l generalizing a with
  | nil =>
    intro c hn hp h
    exact ⟨h.1, by rw [hn a (by simp)]; exact h.2.1,
      by rw [hp c (by simp)]; exact h.2.2⟩
  | cons b l ih =>
    intro c hn hp h
    refine ⟨h.1, by rw [hn a (by simp)]; exact h.2.1,
      by rw [hp b (by simp)]; exact h.2.2.1,
      ih b c (fun x hx => hn x (List.mem_cons.mpr (Or.inr hx)))
        (fun x hx => hp x (by
          rcases List.mem_append.mp hx with hx | hx
          · exact List.mem_append.mpr (Or.inl (List.mem_cons.mpr (Or.inr hx)))
          · exact List.mem_append.mpr (Or.inr hx))) h.2.2.2⟩

/-- Sortedness of the chain list after a mid-chain insert. -/
theorem sorted_insert_mid (A B : List Nat) (p f : Nat)
    (hs : (A ++ p :: B).Sorted (· < ·)) (hpf : p < f)
    (hBf : ∀ b ∈ B, f < b) :
    (A ++ p :: f :: B).Sorted (· < ·) := by
  rw [List.Sorted, List.pairwise_append] at hs ⊢
  obtain ⟨h1, h2, h3⟩ := hs
  rw [List.pairwise_cons] at h2
  refine ⟨h1, ?_, ?_⟩
  · rw [List.pairwise_cons]
    refine ⟨?_, ?_⟩
    · intro b hb
      rcases List.mem_cons.mp hb with hb | hb
      · rw [hb]
        exact hpf
      · exact h2.1 b hb
    · rw [List.pairwise_cons]
      exact ⟨hBf, h2.2⟩
  · intro a ha b hb
    rcases List.mem_cons.mp hb with hb | hb
    · exact hb ▸ h3 a ha p (List.mem_cons_self p B)
    · rcases List.mem_cons.mp hb with hb | hb
      · exact hb ▸ lt_trans (h3 a ha p (List.mem_cons_self p B)) hpf
      · exact h3 a ha b (List.mem_cons.mpr (Or.inr hb))

/-- Attaching the chain tail behind the freshly installed bucket. -/
theorem install_tail (bs bs' : List Bucket) (free : Nat) (qopt : Option Nat)
    (B : List Nat)
    (hqB : (B = [] ∧ qopt = none) ∨
      (∃ q B', B = q :: B' ∧ qopt = some q ∧ free < q ∧ q < U64 ∧ q ∉ B' ∧
        LinkedFrom bs q B'))
    (hnextf : (bget bs' free).next_delta_ =
      spliceNext qopt free (bget bs free).next_delta_)
    (hfnext : (bget bs free).next_delta_ = NULL_DELTA)
    (hC3 : ∀ q, qopt = some q →
      (bget bs' q).prev_delta_ = usub q free ∧
      (bget bs' q).next_delta_ = (bget bs q).next_delta_)
    (hpresB : ∀ x ∈ B, qopt ≠ some x →
      (bget bs' x).next_delta_ = (bget bs x).next_delta_ ∧
      (bget bs' x).prev_delta_ = (bget bs x).prev_delta_) :
    LinkedFrom bs' free B := by
  rcases hqB with ⟨hB0, hq0⟩ | ⟨q, B', hBeq, hqeq, hfq, hqU, hqnB, hLF⟩
  · rw [hB0]
    show (bget bs' free).next_delta_ = NULL_DELTA
    rw [hnextf, hq0]
    show (bget bs free).next_delta_ = NULL_DELTA
    exact hfnext
  · rw [hBeq]
    refine ⟨hfq, ?_, ?_, ?_⟩
    · rw [hnextf, hqeq]
      show usub q free = q - free
      exact usub_of_le (le_of_lt hfq) (by omega)
    · rw [(hC3 q hqeq).1]
      exact usub_of_le (le_of_lt hfq) (by omega)
    · refine LinkedFrom_congr_fields bs bs' q B' ?_ ?_ hLF
      · intro x hx
        rcases List.mem_cons.mp hx with hx | hx
        · rw [hx]
          exact (hC3 q hqeq).2
        · have hxq : qopt ≠ some x := by
            intro h
            have hqx : q = x := Option.some.inj (hqeq.symm.trans h)
            exact hqnB (by rw [hqx]; exact hx)
          exact (hpresB x (by rw [hBeq]; exact List.mem_cons.mpr (Or.inr hx))
            hxq).1
      · intro x hx
        have hxq : qopt ≠ some x := by
          intro h
          have hqx : q = x := Option.some.inj (hqeq.symm.trans h)
          exact hqnB (by rw [hqx]; exact hx)
        exact (hpresB x (by rw [hBeq]; exact List.mem_cons.mpr (Or.inr hx))
          hxq).2

/-- Field preservation facts of Step C, derived uniformly from its per-index
characterization. -/
theorem install_fields (bs : List Bucket) (start free oid : Nat)
    (popt qopt : Option Nat)
    (hC1 : bget (installSplice bs start free oid) free =
        { object_it_ := oid,
          object_bucket_ := start,
          first_delta_ :=
            spliceFirst popt start free (bget bs free).first_delta_,
          next_delta_ := spliceNext qopt free (bget bs free).next_delta_,
          prev_delta_ :=
            splicePrev popt free (bget bs free).prev_delta_ })
    (hC2 : ∀ p, popt = some p → bget (installSplice bs start free oid) p =
      { bget bs p with next_delta_ := usub free p })
    (hC3 : ∀ q, qopt = some q → bget (installSplice bs start free oid) q =
      { bget bs q with prev_delta_ := usub q free })
    (hC4 : popt = none → start ≠ free →
      bget (installSplice bs start free oid) start =
        { bget bs start with first_delta_ := usub free start })
    (hC5 : ∀ x, x ≠ free → popt ≠ some x → qopt ≠ some x →
      ¬(popt = none ∧ x = start) →
      bget (installSplice bs start free oid) x = bget bs x)
    (hpfacts : ∀ p, popt = some p →
      (bget bs p).object_bucket_ = start ∧ occAt bs p)
    (hqfacts : ∀ q, qopt = some q →
      (bget bs q).object_bucket_ = start ∧ occAt bs q) :
    (∀ x, x ≠ free →
      (bget (installSplice bs start free oid) x).object_bucket_ =
        (bget bs x).object_bucket_ ∧
      (bget (installSplice bs start free oid) x).object_it_ =
        (bget bs x).object_it_) ∧
    (∀ x, ¬ occAt bs x → x ≠ free →
      (bget (installSplice bs start free oid) x).next_delta_ =
        (bget bs x).next_delta_ ∧
      (bget (installSplice bs start free oid) x).prev_delta_ =
        (bget bs x).prev_delta_) ∧
    (∀ x, x ≠ free → occAt bs x →
      (bget bs x).object_bucket_ ≠ start →
      (bget (installSplice bs start free oid) x).next_delta_ =
        (bget bs x).next_delta_ ∧
      (bget (installSplice bs start free oid) x).prev_delta_ =
        (bget bs x).prev_delta_) ∧
    (∀ g, g ≠ start →
      (bget (installSplice bs start free oid) g).first_delta_ =
        (bget bs g).first_delta_) := by
  have hfields : ∀ x, x ≠ free → popt ≠ some x → qopt ≠ some x →
      (bget (installSplice bs start free oid) x).object_bucket_ =
        (bget bs x).object_bucket_ ∧
      (bget (installSplice bs start free oid) x).object_it_ =
        (bget bs x).object_it_ ∧
      (bget (installSplice bs start free oid) x).next_delta_ =
        (bget bs x).next_delta_ ∧
      (bget (installSplice bs start free oid) x).prev_delta_ =
        (bget bs x).prev_delta_ := by
    intro x hxf hpx hqx
    by_cases hx4 : popt = none ∧ x = start
    · rw [hx4.2, hC4 hx4.1 (fun h => hxf (hx4.2.symm ▸ h))]
      exact ⟨rfl, rfl, rfl, rfl⟩
    · rw [hC5 x hxf hpx hqx hx4]
      exact ⟨rfl, rfl, rfl, rfl⟩
  refine ⟨?_, ?_, ?_, ?_⟩
  · intro x hxf
    by_cases hpx : popt = some x
    · rw [hC2 x hpx]
      exact ⟨rfl, rfl⟩
    · by_cases hqx : qopt = some x
      · rw [hC3 x hqx]
        exact ⟨rfl, rfl⟩
      · obtain ⟨h1, h2, -, -⟩ := hfields x hxf hpx hqx
        exact ⟨h1, h2⟩
  · intro x hnx hxf
    have hpx : popt ≠ some x := fun h => hnx (hpfacts x h).2
    have hqx : qopt ≠ some x := fun h => hnx (hqfacts x h).2
    obtain ⟨-, -, h3, h4⟩ := hfields x hxf hpx hqx
    exact ⟨h3, h4⟩
  · intro x hxf hxocc hxob
    have hpx : popt ≠ some x := fun h => hxob (hpfacts x h).1
    have hqx : qopt ≠ some x := fun h => hxob (hqfacts x h).1
    obtain ⟨-, -, h3, h4⟩ := hfields x hxf hpx hqx
    exact ⟨h3, h4⟩
  · intro g hgs
    by_cases hgf : g = free
    · rw [hgf, hC1]
      show spliceFirst popt start free (bget bs free).first_delta_ =
        (bget bs free).first_delta_
      cases popt with
      | some p => rfl
      | none =>
        simp only [spliceFirst]
        rw [if_neg (fun h => hgs (hgf.trans h.symm))]
    · by_cases hpg : popt = some g
      · rw [hC2 g hpg]
      · by_cases hqg : qopt = some g
        · rw [hC3 g hqg]
        · by_cases hg4 : popt = none ∧ g = start
          · exact absurd hg4.2 hgs
          · rw [hC5 g hgf hpg hqg hg4]

/-- Master lemma for Step C of `InsertObject`: installing a fresh entry in the
empty bucket `free` of its home's neighbourhood and splicing it into the home
chain preserves the bucket invariant, adds `free` to the occupied set and the
handle to the stored set. -/
theorem installSplice_master (os : List Entry) (hasher : Nat → Nat) (H : Nat)
    (bs : List Bucket) (start free oid : Nat) (e : Entry)
    (hB : BInv os hasher H bs)
    (hflen : free < bs.length) (hsf : start ≤ free)
    (hdispf : free - start < H)
    (hfemp : ¬ occAt bs free)
    (he : e ∈ os) (heid : e.id = oid)
    (hhash : hasher e.key % bs.length = start)
    (hnew : ¬ storedId bs oid) :
    BInv os hasher H (installSplice bs start free oid) ∧
      (∀ i, occAt (installSplice bs start free oid) i ↔
        (occAt bs i ∨ i = free)) ∧
      (∀ id, storedId (installSplice bs start free oid) id ↔
        (storedId bs id ∨ id = oid)) ∧
      (bget (installSplice bs start free oid) free).object_it_ = oid := by
  have hlenU := hB.capU
  have hslen : start < bs.length := by omega
  have hsNE : start ≠ EMPTY_BUCKET := by
    simp only [EMPTY_BUCKET]
    omega
  obtain ⟨hfnext, hfprev⟩ := hB.emptyClean free hfemp
  have hL : Linked bs start (chainIndices bs start) := hB.chains start hslen
  have hmemf : ∀ m ∈ chainIndices bs start,
      occAt bs m ∧ start ≤ m ∧ m ≠ free ∧ m < bs.length := by
    intro m hm
    obtain ⟨hmlen, hmob⟩ := (mem_chainIndices bs start m).mp hm
    have hmocc : occAt bs m := by
      simp only [occAt, hmob]
      exact hsNE
    obtain ⟨e2, -, -, -, hoble, -⟩ := hB.occ m hmlen hmocc
    rw [hmob] at hoble
    exact ⟨hmocc, hoble, fun h => hfemp (h ▸ hmocc), hmlen⟩
  have hb1 : ∀ j, j ≠ free → bget (bmod bs free (fun b =>
      { b with object_it_ := oid, object_bucket_ := start })) j =
      bget bs j := fun j hj => bget_bmod_ne bs free j _ (fun h => hj h.symm)
  obtain ⟨popt, hpspec, hppack⟩ :
      ∃ popt, (match popt with
        | none => prevWalk (bmod bs free (fun b =>
            { b with object_it_ := oid, object_bucket_ := start }))
            start start free = start
        | some p => prevWalk (bmod bs free (fun b =>
            { b with object_it_ := oid, object_bucket_ := start }))
            start start free ≠ start ∧
          prevWalk (bmod bs free (fun b =>
            { b with object_it_ := oid, object_bucket_ := start }))
            start start free - 1 = p ∧ start ≤ p ∧ p < free) ∧
      ((popt = none ∧ ∀ m ∈ chainIndices bs start, free < m) ∨
        (∃ p, popt = some p ∧ start ≤ p ∧ p < free ∧
          (bget bs p).object_bucket_ = start ∧
          (∀ j, p < j → j < free → (bget bs j).object_bucket_ ≠ start))) := by
    rcases prevWalk_spec (bmod bs free (fun b =>
        { b with object_it_ := oid, object_bucket_ := start }))
        start start free hsf with ⟨hw1, hw2⟩ | ⟨hw1, hw2, hw3, hw4⟩
    · refine ⟨none, hw1, Or.inl ⟨rfl, ?_⟩⟩
      intro m hm
      obtain ⟨hmocc, hms, hmf, hmlen⟩ := hmemf m hm
      by_contra hmle
      have hmlt : m < free := by omega
      have hrej := hw2 m hms hmlt
      rw [hb1 m hmf] at hrej
      exact hrej ((mem_chainIndices bs start m).mp hm).2
    · have hple : prevWalk (bmod bs free (fun b =>
          { b with object_it_ := oid, object_bucket_ := start }))
          start start free - 1 < free := by omega
      have hpne : prevWalk (bmod bs free (fun b =>
          { b with object_it_ := oid, object_bucket_ := start }))
          start start free - 1 ≠ free := by omega
      have hpob : (bget bs (prevWalk (bmod bs free (fun b =>
          { b with object_it_ := oid, object_bucket_ := start }))
          start start free - 1)).object_bucket_ = start := by
        rw [← hb1 _ hpne]
        exact hw3
      refine ⟨some (prevWalk (bmod bs free (fun b =>
          { b with object_it_ := oid, object_bucket_ := start }))
          start start free - 1), ⟨by omega, rfl, by omega, hple⟩,
        Or.inr ⟨_, rfl, by omega, hple, hpob, ?_⟩⟩
      intro j hj1 hj2
      have hjf : j ≠ free := by omega
      have hrej := hw4 j (by omega) hj2
      rw [hb1 j hjf] at hrej
      exact hrej
  rcases hppack with ⟨hpnone, hallgt⟩ | ⟨p, hpeq, hpsle, hplt, hpob, hnomid⟩
  · -- front insert: the walk reached `start`, every chain member is past free
    subst hpnone
    obtain ⟨qopt, hqspec, hqpack⟩ :
        ∃ qopt, (match qopt with
          | none => (bget bs start).first_delta_ = NULL_DELTA
          | some q => (bget bs start).first_delta_ = q - start ∧ free < q ∧
              q < bs.length) ∧
        ((chainIndices bs start = [] ∧ qopt = none) ∨
          (∃ q L', chainIndices bs start = q :: L' ∧ qopt = some q ∧
            free < q ∧ q < U64 ∧ q ∉ L' ∧ LinkedFrom bs q L')) := by
      cases hLcase : chainIndices bs start with
      | nil =>
        have hL0 : Linked bs start ([] : List Nat) := hLcase ▸ hL
        exact ⟨none, hL0, Or.inl ⟨rfl, rfl⟩⟩
      | cons q L' =>
        have hL1 : Linked bs start (q :: L') := hLcase ▸ hL
        obtain ⟨h1, h2, h3, h4⟩ := hL1
        have hqmem : q ∈ chainIndices bs start := by
          rw [hLcase]
          exact List.mem_cons_self q L'
        have hfq : free < q := hallgt q hqmem
        have hqlen : q < bs.length := (hmemf q hqmem).2.2.2
        have hqnL : q ∉ L' := by
          have hnd := chainIndices_nodup bs start
          rw [hLcase] at hnd
          exact (List.nodup_cons.mp hnd).1
        exact ⟨some q, ⟨h2, hfq, hqlen⟩,
          Or.inr ⟨q, L', rfl, rfl, hfq, by omega, hqnL, h4⟩⟩
    obtain ⟨hC1, hC2, hC3, hC4, hC5⟩ := installSplice_spec bs start free oid
      none qopt hflen hsf hlenU hpspec hqspec
    have hqfacts : ∀ q, qopt = some q →
        (bget bs q).object_bucket_ = start ∧ occAt bs q := by
      intro q hq'
      rcases hqpack with ⟨-, hqn⟩ | ⟨q2, L', hLcase, hqeq, hfq, -, -, -⟩
      · rw [hqn] at hq'
        exact Option.noConfusion hq'
      · have hqq : q = q2 := Option.some.inj (hq'.symm.trans hqeq)
        have hqmem : q ∈ chainIndices bs start := by
          rw [hLcase, hqq]
          exact List.mem_cons_self _ _
        exact ⟨((mem_chainIndices bs start q).mp hqmem).2, (hmemf q hqmem).1⟩
    have hqgt : ∀ q, qopt = some q → free < q := by
      intro q hq'
      rcases hqpack with ⟨-, hqn⟩ | ⟨q2, L', hLcase, hqeq, hfq, -, -, -⟩
      · rw [hqn] at hq'
        exact Option.noConfusion hq'
      · rw [Option.some.inj (hq'.symm.trans hqeq)]
        exact hfq
    obtain ⟨u2, u3, u5, u6⟩ := install_fields bs start free oid none qopt
      hC1 hC2 hC3 hC4 hC5 (fun p' h => Option.noConfusion h) hqfacts
    have hu1b : (bget (installSplice bs start free oid) free).object_bucket_ =
        start := by
      rw [hC1]
    have hu1i : (bget (installSplice bs start free oid) free).object_it_ =
        oid := by
      rw [hC1]
    obtain ⟨hoccIff, hstored, hocc', hinj', hclean', hchainsO⟩ :=
      install_core os hasher H bs (installSplice bs start free oid) start free
        oid e hB hflen hsf hdispf hfemp he heid hhash hnew
        (installSplice_length bs start free oid) hu1b hu1i u2 u3 u5 u6
    have hpresL : ∀ x ∈ chainIndices bs start, qopt ≠ some x →
        (bget (installSplice bs start free oid) x).next_delta_ =
          (bget bs x).next_delta_ ∧
        (bget (installSplice bs start free oid) x).prev_delta_ =
          (bget bs x).prev_delta_ := by
      intro x hx hqx
      have hxgt : free < x := hallgt x hx
      have hxs : x ≠ start := by omega
      rw [hC5 x (by omega) (fun h => Option.noConfusion h) hqx
        (fun h => hxs h.2)]
      exact ⟨rfl, rfl⟩
    have hTail : LinkedFrom (installSplice bs start free oid) free
        (chainIndices bs start) := by
      refine install_tail bs _ free qopt (chainIndices bs start) ?_
        (by rw [hC1]) hfnext
        (fun q hq' => by rw [hC3 q hq']; exact ⟨rfl, rfl⟩) hpresL
      rcases hqpack with ⟨h1, h2⟩ | ⟨q, L', h1, h2, h3, h4, h5, h6⟩
      · exact Or.inl ⟨h1, h2⟩
      · exact Or.inr ⟨q, L', h1, h2, h3, h4, h5, h6⟩
    have hfirst' : (bget (installSplice bs start free oid)
        start).first_delta_ = free - start := by
      by_cases hse : start = free
      · have hf2 : (bget (installSplice bs start free oid)
            free).first_delta_ = usub free start := by
          rw [hC1]
          show spliceFirst none start free (bget bs free).first_delta_ =
            usub free start
          simp only [spliceFirst]
          rw [if_pos hse]
        rw [hse] at hf2 ⊢
        rw [hf2, usub_self]
        omega
      · rw [hC4 rfl hse]
        show usub free start = free - start
        exact usub_of_le hsf (by omega)
    have hprevf : (bget (installSplice bs start free oid)
        free).prev_delta_ = NULL_DELTA := by
      rw [hC1]
      show splicePrev none free (bget bs free).prev_delta_ = NULL_DELTA
      exact hfprev
    have hchainEq : chainIndices (installSplice bs start free oid) start =
        free :: chainIndices bs start := by
      refine sorted_eq_of_mem_iff (chainIndices_sorted _ _)
        (List.sorted_cons.mpr ⟨hallgt, chainIndices_sorted bs start⟩)
        (fun x => ?_)
      rw [mem_chainIndices, installSplice_length]
      by_cases hxf : x = free
      · rw [hxf]
        constructor
        · intro _
          exact List.mem_cons_self free _
        · intro _
          exact ⟨hflen, hu1b⟩
      · rw [(u2 x hxf).1]
        rw [List.mem_cons]
        constructor
        · intro h
          exact Or.inr ((mem_chainIndices bs start x).mpr h)
        · rintro (h | h)
          · exact absurd h hxf
          · exact (mem_chainIndices bs start x).mp h
    refine ⟨⟨by rw [installSplice_length]; exact hlenU, hocc', hinj',
      hclean', ?_⟩, hoccIff, hstored, hu1i⟩
    intro g hg
    rw [installSplice_length] at hg
    by_cases hgs : g = start
    · rw [hgs, hchainEq]
      exact ⟨hsf, hfirst', hprevf, hTail⟩
    · exact hchainsO g hg hgs
  · -- mid insert: the walk found the chain predecessor `p`
    subst hpeq
    have hpocc : occAt bs p := by
      simp only [occAt, hpob]
      exact hsNE
    have hpmem : p ∈ chainIndices bs start :=
      (mem_chainIndices bs start p).mpr ⟨by omega, hpob⟩
    obtain ⟨A, Bq, hLde⟩ := List.append_of_mem hpmem
    have hLinkedL : Linked bs start (A ++ p :: Bq) := hLde ▸ hL
    have hsortedL : (A ++ p :: Bq).Sorted (· < ·) :=
      hLde ▸ chainIndices_sorted bs start
    have hnodupL : (A ++ p :: Bq).Nodup := hLde ▸ chainIndices_nodup bs start
    have hmemLL : ∀ x, (x ∈ A ++ p :: Bq) ↔
        (x < bs.length ∧ (bget bs x).object_bucket_ = start) := by
      intro x
      rw [← hLde]
      exact mem_chainIndices bs start x
    have hpw := List.pairwise_append.mp hsortedL
    have hA_lt : ∀ x ∈ A, x < p := fun x hx =>
      hpw.2.2 x hx p (List.mem_cons_self p Bq)
    have hB_gt : ∀ x ∈ Bq, p < x := (List.pairwise_cons.mp hpw.2.1).1
    have hB_f : ∀ x ∈ Bq, free < x := by
      intro x hx
      have hxp := hB_gt x hx
      have hxm := (hmemLL x).mp
        (List.mem_append_right A (List.mem_cons.mpr (Or.inr hx)))
      have hxf : x ≠ free := by
        intro h
        apply hfemp
        rw [← h]
        simp only [occAt, hxm.2]
        exact hsNE
      rcases lt_trichotomy x free with hlt | heq | hgt
      · exact absurd hxm.2 (hnomid x hxp hlt)
      · exact absurd heq hxf
      · exact hgt
    have hfromP : LinkedFrom bs p Bq := by
      cases A with
      | nil => exact hLinkedL.2.2.2
      | cons a A' =>
        exact ((LinkedFrom_append_iff bs A' a p Bq).mp hLinkedL.2.2.2).2
    obtain ⟨qopt, hqspec, hqpack⟩ :
        ∃ qopt, (match qopt with
          | none => (bget bs p).next_delta_ = NULL_DELTA
          | some q => (bget bs p).next_delta_ = q - p ∧ free < q ∧
              q < bs.length) ∧
        ((Bq = [] ∧ qopt = none) ∨
          (∃ q B', Bq = q :: B' ∧ qopt = some q ∧ free < q ∧ q < U64 ∧
            q ∉ B' ∧ LinkedFrom bs q B')) := by
      cases Bq with
      | nil => exact ⟨none, hfromP, Or.inl ⟨rfl, rfl⟩⟩
      | cons q B' =>
        obtain ⟨h1, h2, h3, h4⟩ := hfromP
        have hfq : free < q := hB_f q (List.mem_cons_self q B')
        have hqlen : q < bs.length :=
          ((hmemLL q).mp (List.mem_append_right A (List.mem_cons.mpr
            (Or.inr (List.mem_cons_self q B'))))).1
        have hqnB : q ∉ B' := by
          have n1 := (List.nodup_append.mp hnodupL).2.1
          have n2 := (List.nodup_cons.mp n1).2
          exact (List.nodup_cons.mp n2).1
        exact ⟨some q, ⟨h2, hfq, hqlen⟩,
          Or.inr ⟨q, B', rfl, rfl, hfq, by omega, hqnB, h4⟩⟩
    obtain ⟨hC1, hC2, hC3, hC4, hC5⟩ := installSplice_spec bs start free oid
      (some p) qopt hflen hsf hlenU hpspec hqspec
    have hqfacts : ∀ q, qopt = some q →
        (bget bs q).object_bucket_ = start ∧ occAt bs q := by
      intro q hq'
      rcases hqpack with ⟨-, hqn⟩ | ⟨q2, B', hBcase, hqeq, hfq, -, -, -⟩
      · rw [hqn] at hq'
        exact Option.noConfusion hq'
      · have hqq : q = q2 := Option.some.inj (hq'.symm.trans hqeq)
        have hqmem : q ∈ A ++ p :: Bq := by
          rw [hBcase, hqq]
          exact List.mem_append_right A (List.mem_cons.mpr
            (Or.inr (List.mem_cons_self _ _)))
        have hqm := (hmemLL q).mp hqmem
        refine ⟨hqm.2, ?_⟩
        simp only [occAt, hqm.2]
        exact hsNE
    have hqgt : ∀ q, qopt = some q → free < q := by
      intro q hq'
      rcases hqpack with ⟨-, hqn⟩ | ⟨q2, B', hBcase, hqeq, hfq, -, -, -⟩
      · rw [hqn] at hq'
        exact Option.noConfusion hq'
      · rw [Option.some.inj (hq'.symm.trans hqeq)]
        exact hfq
    have hpfacts : ∀ p', some p = some p' →
        (bget bs p').object_bucket_ = start ∧ occAt bs p' := by
      intro p' h
      rw [← Option.some.inj h]
      exact ⟨hpob, hpocc⟩
    obtain ⟨u2, u3, u5, u6⟩ := install_fields bs start free oid (some p) qopt
      hC1 hC2 hC3 hC4 hC5 hpfacts hqfacts
    have hu1b : (bget (installSplice bs start free oid) free).object_bucket_ =
        start := by
      rw [hC1]
    have hu1i : (bget (installSplice bs start free oid) free).object_it_ =
        oid := by
      rw [hC1]
    obtain ⟨hoccIff, hstored, hocc', hinj', hclean', hchainsO⟩ :=
      install_core os hasher H bs (installSplice bs start free oid) start free
        oid e hB hflen hsf hdispf hfemp he heid hhash hnew
        (installSplice_length bs start free oid) hu1b hu1i u2 u3 u5 u6
    have hpresB : ∀ x ∈ Bq, qopt ≠ some x →
        (bget (installSplice bs start free oid) x).next_delta_ =
          (bget bs x).next_delta_ ∧
        (bget (installSplice bs start free oid) x).prev_delta_ =
          (bget bs x).prev_delta_ := by
      intro x hx hqx
      have hxgt : free < x := hB_f x hx
      rw [hC5 x (by omega) (fun h => by
          have := Option.some.inj h
          omega) hqx (fun h => Option.noConfusion h.1)]
      exact ⟨rfl, rfl⟩
    have hTail : LinkedFrom (installSplice bs start free oid) free Bq := by
      refine install_tail bs _ free qopt Bq hqpack (by rw [hC1]) hfnext
        (fun q hq' => by rw [hC3 q hq']; exact ⟨rfl, rfl⟩) hpresB
    have hfromPnew : LinkedFrom (installSplice bs start free oid) p
        (free :: Bq) := by
      refine ⟨hplt, ?_, ?_, hTail⟩
      · rw [hC2 p rfl]
        show usub free p = free - p
        exact usub_of_le (le_of_lt hplt) (by omega)
      · rw [hC1]
        show splicePrev (some p) free (bget bs free).prev_delta_ = free - p
        show usub free p = free - p
        exact usub_of_le (le_of_lt hplt) (by omega)
    have hfirstpres : (bget (installSplice bs start free oid)
        start).first_delta_ = (bget bs start).first_delta_ := by
      by_cases hsp : start = p
      · have h2 := hC2 p rfl
        rw [← hsp] at h2
        rw [h2]
      · have hsfree : start ≠ free := by omega
        rw [hC5 start hsfree
          (fun h => hsp (Option.some.inj h).symm)
          (fun h => by have := hqgt start h; omega)
          (fun h => Option.noConfusion h.1)]
    have hchainEq : chainIndices (installSplice bs start free oid) start =
        A ++ p :: free :: Bq := by
      refine sorted_eq_of_mem_iff (chainIndices_sorted _ _)
        (sorted_insert_mid A Bq p free hsortedL hplt hB_f) (fun x => ?_)
      rw [mem_chainIndices, installSplice_length]
      by_cases hxf : x = free
      · rw [hxf]
        constructor
        · intro _
          exact List.mem_append_right A (List.mem_cons.mpr
            (Or.inr (List.mem_cons_self free Bq)))
        · intro _
          exact ⟨hflen, hu1b⟩
      · rw [(u2 x hxf).1]
        constructor
        · intro h
          have hxm := (hmemLL x).mpr h
          rcases List.mem_append.mp hxm with h2 | h2
          · exact List.mem_append_left _ h2
          · rcases List.mem_cons.mp h2 with h2 | h2
            · exact List.mem_append_right A (List.mem_cons.mpr (Or.inl h2))
            · exact List.mem_append_right A (List.mem_cons.mpr (Or.inr
                (List.mem_cons.mpr (Or.inr h2))))
        · intro h
          apply (hmemLL x).mp
          rcases List.mem_append.mp h with h2 | h2
          · exact List.mem_append_left _ h2
          · rcases List.mem_cons.mp h2 with h2 | h2
            · exact List.mem_append_right A (List.mem_cons.mpr (Or.inl h2))
            · rcases List.mem_cons.mp h2 with h2 | h2
              · exact absurd h2 hxf
              · exact List.mem_append_right A (List.mem_cons.mpr (Or.inr h2))
    have hLinked' : Linked (installSplice bs start free oid) start
        (A ++ p :: free :: Bq) := by
      have hpresA : ∀ x, x ∈ A → bget (installSplice bs start free oid) x =
          bget bs x := by
        intro x hx
        have hxp : x < p := hA_lt x hx
        refine hC5 x (by omega) (fun h => by
            have := Option.some.inj h
            omega)
          (fun h => by have := hqgt x h; omega)
          (fun h => Option.noConfusion h.1)
      cases A with
      | nil =>
        have hL0 : Linked bs start (p :: Bq) := hLinkedL
        refine ⟨hL0.1, ?_, ?_, hfromPnew⟩
        · rw [hfirstpres]
          exact hL0.2.1
        · rw [hC2 p rfl]
          exact hL0.2.2.1
      | cons a A' =>
        have hL0 : Linked bs start (a :: (A' ++ p :: Bq)) := hLinkedL
        have haA : a ∈ a :: A' := List.mem_cons_self a A'
        refine ⟨hL0.1, ?_, ?_, ?_⟩
        · rw [hfirstpres]
          exact hL0.2.1
        · rw [hpresA a haA]
          exact hL0.2.2.1
        · obtain ⟨hseg, -⟩ := (LinkedFrom_append_iff bs A' a p Bq).mp
            hL0.2.2.2
          refine (LinkedFrom_append_iff _ A' a p (free :: Bq)).mpr
            ⟨?_, hfromPnew⟩
          refine LinkedFromSeg_congr_fields bs _ a A' p ?_ ?_ hseg
          · intro x hx
            rw [hpresA x hx]
          · intro x hx
            rcases List.mem_append.mp hx with hx | hx
            · rw [hpresA x (List.mem_cons.mpr (Or.inr hx))]
            · rcases List.mem_cons.mp hx with hx | hx
              · rw [hx, hC2 p rfl]
              · exact absurd hx (List.not_mem_nil x)
    refine ⟨⟨by rw [installSplice_length]; exact hlenU, hocc', hinj',
      hclean', ?_⟩, hoccIff, hstored, hu1i⟩
    intro g hg
    rw [installSplice_length] at hg
    by_cases hgs : g = start
    · rw [hgs, hchainEq]
      exact hLinked'
    · exact hchainsO g hg hgs

/-- Master lemma for `InsertObject`: placing a fresh handle preserves the
bucket invariant; on failure the stored handle set is unchanged, on success
it grows by exactly the new handle, which sits in the returned bucket. -/
theorem InsertObject_master (m : HashMap) (oid : Nat)
    (hB : BInv m.objects_ m.hasher_ m.neighbourhood_size_ m.buckets_)
    (hnew : ¬ storedId m.buckets_ oid)
    (hlen0 : 0 < m.buckets_.length) :
    BInv m.objects_ m.hasher_ m.neighbourhood_size_
        (InsertObject m oid).1.buckets_ ∧
      ((InsertObject m oid).2 = none →
        ∀ id, storedId (InsertObject m oid).1.buckets_ id ↔
          storedId m.buckets_ id) ∧
      (∀ b, (InsertObject m oid).2 = some b →
        (∀ id, storedId (InsertObject m oid).1.buckets_ id ↔
          (storedId m.buckets_ id ∨ id = oid)) ∧
        (bget (InsertObject m oid).1.buckets_ b).object_it_ = oid) := by
  unfold InsertObject
  split
  · exact ⟨hB, fun _ id => Iff.rfl, fun b hb => Option.noConfusion hb⟩
  · next e heq =>
    have he : e ∈ m.objects_ := List.mem_of_find?_eq_some heq
    have heid : e.id = oid := by
      have := List.find?_some heq
      simpa using this
    simp only [GetStartBucket]
    have hstart : m.hasher_ e.key % m.buckets_.length < m.buckets_.length :=
      Nat.mod_lt _ hlen0
    obtain ⟨hp1, hp2, hp3, hp4⟩ := probeFree_spec m.buckets_
      (m.hasher_ e.key % m.buckets_.length) (le_of_lt hstart)
    split
    · exact ⟨hB, fun _ id => Iff.rfl, fun b hb => Option.noConfusion hb⟩
    · next hfree0 =>
      have hfree0lt : probeFree m.buckets_
          (m.hasher_ e.key % m.buckets_.length) < m.buckets_.length := by
        omega
      obtain ⟨hl1, hl2, hl3, hl4⟩ := hopLoop_master m.objects_ m.hasher_
        m.neighbourhood_size_ (m.hasher_ e.key % m.buckets_.length)
        (probeFree m.buckets_ (m.hasher_ e.key % m.buckets_.length) + 1)
        m.buckets_
        (probeFree m.buckets_ (m.hasher_ e.key % m.buckets_.length))
        hB hfree0lt (hp4 hfree0lt) hp1 (by omega) hp3
      split
      · next bs2 heq2 =>
        rw [heq2] at hl1 hl3
        exact ⟨hl1, fun _ id => hl3 id, fun b hb => Option.noConfusion hb⟩
      · next bs2 free heq2 =>
        rw [heq2] at hl1 hl2 hl3 hl4
        obtain ⟨hs1, hs2, hs3, hs4, hs5⟩ := hl4 free rfl
        rw [if_neg (not_lt.mpr hs1)]
        have hlen2 : bs2.length = m.buckets_.length := hl2
        obtain ⟨hi1, hi2, hi3, hi4⟩ := installSplice_master m.objects_
          m.hasher_ m.neighbourhood_size_ bs2
          (m.hasher_ e.key % m.buckets_.length) free oid e hl1
          (by rw [hlen2]; exact hs2) hs1 hs3 hs4 he heid
          (by rw [hlen2]) (fun h => hnew ((hl3 oid).mp h))
        refine ⟨hi1, fun h => Option.noConfusion h, fun b hb => ?_⟩
        have hbfree : free = b := Option.some.inj hb
        rw [← hbfree]
        exact ⟨fun id => (hi3 id).trans (or_congr_left (hl3 id)), hi4⟩

/-- The forward link a spliced-out bucket's predecessor (or home) receives. -/
def eraseNext (qopt : Option Nat) (p : Nat) : Nat :=
  match qopt with
  | some q => usub q p
  | none => NULL_DELTA

/-- The back link a spliced-out bucket's successor receives. -/
def erasePrev (popt : Option Nat) (q : Nat) : Nat :=
  match popt with
  | some p => usub q p
  | none => NULL_DELTA

/-- The complete effect of `EraseObject` on every bucket.  `p?` is the chain
predecessor of the erased bucket, `q?` its successor. -/
theorem EraseObject_spec (bs : List Bucket) (i : Nat) (popt qopt : Option Nat)
    (hilen : i < bs.length) (hlenU : bs.length < U64)
    (hoble : (bget bs i).object_bucket_ ≤ i)
    (hp : match popt with
      | none => (bget bs i).prev_delta_ = NULL_DELTA
      | some p => (bget bs i).prev_delta_ = i - p ∧ p < i)
    (hq : match qopt with
      | none => (bget bs i).next_delta_ = NULL_DELTA
      | some q => (bget bs i).next_delta_ = q - i ∧ i < q ∧ q < bs.length) :
    bget (EraseObject bs i) i =
        { object_it_ := (bget bs i).object_it_,
          first_delta_ :=
            (if popt = none ∧ (bget bs i).object_bucket_ = i
             then eraseNext qopt (bget bs i).object_bucket_
             else (bget bs i).first_delta_),
          next_delta_ := NULL_DELTA,
          prev_delta_ := NULL_DELTA,
          object_bucket_ := EMPTY_BUCKET } ∧
      (∀ p, popt = some p → bget (EraseObject bs i) p =
        { bget bs p with next_delta_ := eraseNext qopt p }) ∧
      (∀ q, qopt = some q → bget (EraseObject bs i) q =
        { bget bs q with prev_delta_ := erasePrev popt q }) ∧
      (popt = none → (bget bs i).object_bucket_ ≠ i →
        bget (EraseObject bs i) ((bget bs i).object_bucket_) =
          { bget bs ((bget bs i).object_bucket_) with
            first_delta_ := eraseNext qopt (bget bs i).object_bucket_ }) ∧
      (∀ x, x ≠ i → popt ≠ some x → qopt ≠ some x →
        ¬(popt = none ∧ x = (bget bs i).object_bucket_) →
        bget (EraseObject bs i) x = bget bs x) := by
  unfold EraseObject
  dsimp only
  cases popt with
  | some p =>
    obtain ⟨hpd, hplt⟩ := hp
    have hpnn : (bget bs i).prev_delta_ ≠ NULL_DELTA := by
      rw [hpd]
      simp only [NULL_DELTA]
      omega
    rw [if_pos hpnn]
    have hpT : i - (bget bs i).prev_delta_ = p := by
      rw [hpd]
      omega
    rw [hpT]
    have hpi : p ≠ i := by omega
    have hip : i ≠ p := by omega
    cases qopt with
    | some q =>
      obtain ⟨hqd, hiq, hqlen⟩ := hq
      have hqnn : (bget bs i).next_delta_ ≠ NULL_DELTA := by
        rw [hqd]
        simp only [NULL_DELTA]
        omega
      rw [if_pos hqnn]
      have hqT : i + (bget bs i).next_delta_ = q := by
        rw [hqd]
        omega
      rw [hqT]
      have hqi : q ≠ i := by omega
      have hiq2 : i ≠ q := by omega
      have hpq : p ≠ q := by omega
      have hqp : q ≠ p := by omega
      refine ⟨?_, ?_, ?_, ?_, ?_⟩
      · rw [bget_bmod_self _ _ _ (by simp only [length_bmod]; omega),
          bget_bmod_ne _ _ _ _ hqi,
          bget_bmod_ne _ _ _ _ hpi]
        have hcond : ¬(some p = none ∧ (bget bs i).object_bucket_ = i) :=
          fun h => Option.noConfusion h.1
        rw [if_neg hcond]
      · intro pv hpv
        rw [Option.some.inj hpv.symm]
        rw [bget_bmod_ne _ _ _ _ hip,
          bget_bmod_ne _ _ _ _ hqp,
          bget_bmod_self _ _ _ (by omega)]
        rfl
      · intro qv hqv
        rw [Option.some.inj hqv.symm]
        rw [bget_bmod_ne _ _ _ _ hiq2,
          bget_bmod_self _ _ _ (by simp only [length_bmod]; omega),
          bget_bmod_ne _ _ _ _ hpq]
        rfl
      · intro hcontra
        exact absurd hcontra (fun h => Option.noConfusion h)
      · intro x hxi hxp hxq _
        have hix : i ≠ x := fun h => hxi h.symm
        have hpx : p ≠ x := fun h => hxp (by rw [h])
        have hqx : q ≠ x := fun h => hxq (by rw [h])
        rw [bget_bmod_ne _ _ _ _ hix,
          bget_bmod_ne _ _ _ _ hqx,
          bget_bmod_ne _ _ _ _ hpx]
    | none =>
      have hqnn : ¬ ((bget bs i).next_delta_ ≠ NULL_DELTA) := not_not.mpr hq
      rw [if_neg hqnn]
      refine ⟨?_, ?_, ?_, ?_, ?_⟩
      · rw [bget_bmod_self _ _ _ (by simp only [length_bmod]; omega),
          bget_bmod_ne _ _ _ _ hpi]
        have hcond : ¬(some p = none ∧ (bget bs i).object_bucket_ = i) :=
          fun h => Option.noConfusion h.1
        rw [if_neg hcond]
      · intro pv hpv
        rw [Option.some.inj hpv.symm]
        rw [bget_bmod_ne _ _ _ _ hip,
          bget_bmod_self _ _ _ (by omega)]
        rfl
      · intro qv hqv
        exact absurd hqv (fun h => Option.noConfusion h)
      · intro hcontra
        exact absurd hcontra (fun h => Option.noConfusion h)
      · intro x hxi hxp _ _
        have hix : i ≠ x := fun h => hxi h.symm
        have hpx : p ≠ x := fun h => hxp (by rw [h])
        rw [bget_bmod_ne _ _ _ _ hix,
          bget_bmod_ne _ _ _ _ hpx]
  | none =>
    have hpnn : ¬ ((bget bs i).prev_delta_ ≠ NULL_DELTA) := not_not.mpr hp
    rw [if_neg hpnn]
    cases qopt with
    | some q =>
      obtain ⟨hqd, hiq, hqlen⟩ := hq
      have hqnn : (bget bs i).next_delta_ ≠ NULL_DELTA := by
        rw [hqd]
        simp only [NULL_DELTA]
        omega
      rw [if_pos hqnn]
      have hqT : i + (bget bs i).next_delta_ = q := by
        rw [hqd]
        omega
      rw [hqT]
      have hqi : q ≠ i := by omega
      have hiq2 : i ≠ q := by omega
      have hsq : (bget bs i).object_bucket_ ≠ q := by omega
      have hqs : q ≠ (bget bs i).object_bucket_ := by omega
      refine ⟨?_, ?_, ?_, ?_, ?_⟩
      · by_cases hsi : (bget bs i).object_bucket_ = i
        · rw [if_pos ⟨rfl, hsi⟩, hsi]
          rw [bget_bmod_self _ _ _ (by simp only [length_bmod]; omega),
            bget_bmod_ne _ _ _ _ hqi,
            bget_bmod_self _ _ _ (by omega)]
          rfl
        · rw [if_neg (fun h => hsi h.2)]
          rw [bget_bmod_self _ _ _ (by simp only [length_bmod]; omega),
            bget_bmod_ne _ _ _ _ hqi,
            bget_bmod_ne _ _ _ _ hsi]
      · intro pv hpv
        exact absurd hpv (fun h => Option.noConfusion h)
      · intro qv hqv
        rw [Option.some.inj hqv.symm]
        rw [bget_bmod_ne _ _ _ _ hiq2,
          bget_bmod_self _ _ _ (by simp only [length_bmod]; omega),
          bget_bmod_ne _ _ _ _ hsq]
        rfl
      · intro _ hsi
        rw [bget_bmod_ne _ _ _ _ (fun h => hsi h.symm),
          bget_bmod_ne _ _ _ _ hqs,
          bget_bmod_self _ _ _ (by omega)]
        rfl
      · intro x hxi _ hxq hxs
        have hix : i ≠ x := fun h => hxi h.symm
        have hqx : q ≠ x := fun h => hxq (by rw [h])
        have hsx : (bget bs i).object_bucket_ ≠ x := fun h =>
          hxs ⟨rfl, h.symm⟩
        rw [bget_bmod_ne _ _ _ _ hix,
          bget_bmod_ne _ _ _ _ hqx,
          bget_bmod_ne _ _ _ _ hsx]
    | none =>
      have hqnn : ¬ ((bget bs i).next_delta_ ≠ NULL_DELTA) := not_not.mpr hq
      rw [if_neg hqnn]
      refine ⟨?_, ?_, ?_, ?_, ?_⟩
      · by_cases hsi : (bget bs i).object_bucket_ = i
        · rw [if_pos ⟨rfl, hsi⟩, hsi]
          rw [bget_bmod_self _ _ _ (by simp only [length_bmod]; omega),
            bget_bmod_self _ _ _ (by omega)]
          rfl
        · rw [if_neg (fun h => hsi h.2)]
          rw [bget_bmod_self _ _ _ (by simp only [length_bmod]; omega),
            bget_bmod_ne _ _ _ _ hsi]
      · intro pv hpv
        exact absurd hpv (fun h => Option.noConfusion h)
      · intro qv hqv
        exact absurd hqv (fun h => Option.noConfusion h)
      · intro _ hsi
        rw [bget_bmod_ne _ _ _ _ (fun h => hsi h.symm),
          bget_bmod_self _ _ _ (by omega)]
        rfl
      · intro x hxi _ _ hxs
        have hix : i ≠ x := fun h => hxi h.symm
        have hsx : (bget bs i).object_bucket_ ≠ x := fun h =>
          hxs ⟨rfl, h.symm⟩
        rw [bget_bmod_ne _ _ _ _ hix,
          bget_bmod_ne _ _ _ _ hsx]

/-- Closing a segment whose target was spliced away: the last node now ends
the chain. -/
theorem LinkedFromSeg_close (bs bs' : List Bucket) :
    ∀ (A : List Nat) (a c : Nat),
      LinkedFromSeg bs a A c →
      (∀ x ∈ a :: A, x ≠ (A.getLast?.getD a) →
        (bget bs' x).next_delta_ = (bget bs x).next_delta_) →
      (∀ x ∈ A, (bget bs' x).prev_delta_ = (bget bs x).prev_delta_) →
      (bget bs' (A.getLast?.getD a)).next_delta_ = NULL_DELTA →
      LinkedFrom bs' a A := by
  intro A
  induction A with
  | nil =>
    intro a c _ _ _ hln
    exact hln
  | cons b A ih =>
    intro a c h hnext hprev hln
    have hab : a ≠ (b :: A).getLast?.getD a := by
      rw [getLastD_cons_eq]
      obtain ⟨hmem, _⟩ := LinkedFromSeg_mem_gt bs (b :: A) a c h
      have : a < A.getLast?.getD b := by
        cases hA : A.getLast? with
        | none =>
          simp only [hA, Option.getD]
          exact h.1
        | some z =>
          simp only [hA, Option.getD]
          exact hmem z (List.mem_cons.mpr (Or.inr (List.mem_of_mem_getLast? hA)))
      omega
    refine ⟨h.1, ?_, ?_, ih b c h.2.2.2
      (fun x hx hxl => hnext x (List.mem_cons.mpr (Or.inr hx)) (by
        rw [getLastD_cons_eq]
        exact hxl))
      (fun x hx => hprev x (List.mem_cons.mpr (Or.inr hx)))
      (by rw [← getLastD_cons_eq a b A]; exact hln)⟩
    · rw [hnext a (by simp) hab]
      exact h.2.1
    · rw [hprev b (by simp)]
      exact h.2.2.1

/-- Everything `EraseObject` preserves apart from the shortened chain itself. -/
theorem erase_core (os : List Entry) (hasher : Nat → Nat) (H : Nat)
    (bs bs' : List Bucket) (i : Nat)
    (hB : BInv os hasher H bs)
    (hilen : i < bs.length) (hiocc : occAt bs i)
    (hlen' : bs'.length = bs.length)
    (u1b : (bget bs' i).object_bucket_ = EMPTY_BUCKET)
    (u1n : (bget bs' i).next_delta_ = NULL_DELTA)
    (u1p : (bget bs' i).prev_delta_ = NULL_DELTA)
    (u2 : ∀ x, x ≠ i →
      (bget bs' x).object_bucket_ = (bget bs x).object_bucket_ ∧
      (bget bs' x).object_it_ = (bget bs x).object_it_)
    (u3 : ∀ x, ¬ occAt bs x → x ≠ i →
      (bget bs' x).next_delta_ = (bget bs x).next_delta_ ∧
      (bget bs' x).prev_delta_ = (bget bs x).prev_delta_)
    (u5 : ∀ x, x ≠ i → occAt bs x →
      (bget bs x).object_bucket_ ≠ (bget bs i).object_bucket_ →
      (bget bs' x).next_delta_ = (bget bs x).next_delta_ ∧
      (bget bs' x).prev_delta_ = (bget bs x).prev_delta_)
    (u6 : ∀ g, g ≠ (bget bs i).object_bucket_ →
      (bget bs' g).first_delta_ = (bget bs g).first_delta_) :
    (∀ j, occAt bs' j ↔ (occAt bs j ∧ j ≠ i)) ∧
      (∀ id, storedId bs' id ↔
        (storedId bs id ∧ id ≠ (bget bs i).object_it_)) ∧
      (∀ j, j < bs'.length → occAt bs' j →
        ∃ e2 ∈ os, (bget bs' j).object_it_ = e2.id ∧
          hasher e2.key % bs'.length = (bget bs' j).object_bucket_ ∧
          (bget bs' j).object_bucket_ ≤ j ∧
          j - (bget bs' j).object_bucket_ < H) ∧
      (∀ j k, j < bs'.length → k < bs'.length → occAt bs' j → occAt bs' k →
        (bget bs' j).object_it_ = (bget bs' k).object_it_ → j = k) ∧
      (∀ j, ¬ occAt bs' j →
        (bget bs' j).next_delta_ = NULL_DELTA ∧
        (bget bs' j).prev_delta_ = NULL_DELTA) ∧
      (∀ g, g < bs.length → g ≠ (bget bs i).object_bucket_ →
        Linked bs' g (chainIndices bs' g)) := by
  have hlenU := hB.capU
  have hoccIff : ∀ j, occAt bs' j ↔ (occAt bs j ∧ j ≠ i) := by
    intro j
    by_cases hji : j = i
    · constructor
      · intro h
        rw [hji] at h
        simp only [occAt, u1b] at h
        exact absurd rfl h
      · rintro ⟨-, hne⟩
        exact absurd hji hne
    · simp only [occAt, (u2 j hji).1]
      constructor
      · intro h
        exact ⟨h, hji⟩
      · rintro ⟨h, -⟩
        exact h
  refine ⟨hoccIff, ?_, ?_, ?_, ?_, ?_⟩
  · intro id
    constructor
    · rintro ⟨j, hjlen, hjocc, hjid⟩
      rw [hlen'] at hjlen
      obtain ⟨hjocc', hji⟩ := (hoccIff j).mp hjocc
      refine ⟨⟨j, hjlen, hjocc', by rw [← (u2 j hji).2]; exact hjid⟩, ?_⟩
      intro hid
      apply hji
      exact hB.inj j i hjlen hilen hjocc' hiocc
        (by rw [← (u2 j hji).2, hjid, hid])
    · rintro ⟨⟨j, hjlen, hjocc, hjid⟩, hid⟩
      have hji : j ≠ i := by
        intro h
        rw [h] at hjid
        exact hid hjid.symm
      exact ⟨j, by rw [hlen']; exact hjlen, (hoccIff j).mpr ⟨hjocc, hji⟩,
        by rw [(u2 j hji).2]; exact hjid⟩
  · intro j hjlen hjocc
    rw [hlen'] at hjlen ⊢
    obtain ⟨hjocc', hji⟩ := (hoccIff j).mp hjocc
    obtain ⟨e2, he2, ha, hb2, hc, hd⟩ := hB.occ j hjlen hjocc'
    exact ⟨e2, he2, by rw [(u2 j hji).2]; exact ha,
      by rw [(u2 j hji).1]; exact hb2,
      by rw [(u2 j hji).1]; exact hc,
      by rw [(u2 j hji).1]; exact hd⟩
  · intro j k hjlen hklen hjocc hkocc hjk
    rw [hlen'] at hjlen hklen
    obtain ⟨hjocc', hji⟩ := (hoccIff j).mp hjocc
    obtain ⟨hkocc', hki⟩ := (hoccIff k).mp hkocc
    exact hB.inj j k hjlen hklen hjocc' hkocc'
      (by rw [← (u2 j hji).2, hjk, (u2 k hki).2])
  · intro j hnj
    by_cases hji : j = i
    · rw [hji]
      exact ⟨u1n, u1p⟩
    · have hnj' : ¬ occAt bs j := fun h => hnj ((hoccIff j).mpr ⟨h, hji⟩)
      obtain ⟨h1, h2⟩ := u3 j hnj' hji
      obtain ⟨h3, h4⟩ := hB.emptyClean j hnj'
      exact ⟨h1.trans h3, h2.trans h4⟩
  · intro g hglen hgh
    have hgE : g ≠ EMPTY_BUCKET := by
      simp only [EMPTY_BUCKET]
      omega
    have hchEq : chainIndices bs' g = chainIndices bs g := by
      refine sorted_eq_of_mem_iff (chainIndices_sorted _ _)
        (chainIndices_sorted _ _) (fun x => ?_)
      rw [mem_chainIndices, mem_chainIndices, hlen']
      by_cases hxi : x = i
      · constructor
        · rintro ⟨-, hobx⟩
          rw [hxi, u1b] at hobx
          exact absurd hobx.symm hgE
        · rintro ⟨-, hobx⟩
          rw [hxi] at hobx
          exact absurd hobx.symm hgh
      · rw [(u2 x hxi).1]
    rw [hchEq]
    refine Linked_congr_fields bs bs' g (chainIndices bs g) (u6 g hgh)
      (fun x hx => ?_) (hB.chains g hglen)
    obtain ⟨hxlen, hxob⟩ := (mem_chainIndices bs g x).mp hx
    have hxocc : occAt bs x := by
      simp only [occAt, hxob]
      exact hgE
    have hxi : x ≠ i := by
      intro h
      rw [h] at hxob
      exact hgh hxob.symm
    exact u5 x hxi hxocc (by rw [hxob]; exact hgh)

/-- Master lemma for `EraseObject`: splicing an occupied bucket out of its
chain preserves the bucket invariant, removes exactly that bucket from the
occupied set and exactly its handle from the stored set. -/
theorem EraseObject_master (os : List Entry) (hasher : Nat → Nat) (H : Nat)
    (bs : List Bucket) (i : Nat)
    (hB : BInv os hasher H bs)
    (hilen : i < bs.length) (hiocc : occAt bs i) :
    BInv os hasher H (EraseObject bs i) ∧
      (∀ j, occAt (EraseObject bs i) j ↔ (occAt bs j ∧ j ≠ i)) ∧
      (∀ id, storedId (EraseObject bs i) id ↔
        (storedId bs id ∧ id ≠ (bget bs i).object_it_)) := by
  have hlenU := hB.capU
  obtain ⟨e0, he0, heid0, hhash0, hoble, hdisp⟩ := hB.occ i hilen hiocc
  have hbne : (bget bs i).object_bucket_ ≠ EMPTY_BUCKET := hiocc
  have hbLt : (bget bs i).object_bucket_ < bs.length :=
    lt_of_le_of_lt hoble hilen
  have himem : i ∈ chainIndices bs (bget bs i).object_bucket_ :=
    (mem_chainIndices bs _ i).mpr ⟨hilen, rfl⟩
  obtain ⟨A, B, hLde⟩ := List.append_of_mem himem
  have hLinked : Linked bs (bget bs i).object_bucket_ (A ++ i :: B) :=
    hLde ▸ hB.chains _ hbLt
  have hsorted : (A ++ i :: B).Sorted (· < ·) := hLde ▸ chainIndices_sorted bs _
  have hnodup : (A ++ i :: B).Nodup := hLde ▸ chainIndices_nodup bs _
  have hmemL : ∀ x, (x ∈ A ++ i :: B) ↔
      (x < bs.length ∧
        (bget bs x).object_bucket_ = (bget bs i).object_bucket_) := by
    intro x
    rw [← hLde]
    exact mem_chainIndices bs _ x
  have hpw := List.pairwise_append.mp hsorted
  have hA_lt : ∀ x ∈ A, x < i := fun x hx =>
    hpw.2.2 x hx i (List.mem_cons_self i B)
  have hB_gt : ∀ x ∈ B, i < x := (List.pairwise_cons.mp hpw.2.1).1
  have hfromIB : LinkedFrom bs i B := by
    cases A with
    | nil => exact hLinked.2.2.2
    | cons a A' =>
      exact ((LinkedFrom_append_iff bs A' a i B).mp hLinked.2.2.2).2
  obtain ⟨qopt, hq, hqpack⟩ :
      ∃ qopt, (match qopt with
        | none => (bget bs i).next_delta_ = NULL_DELTA
        | some q => (bget bs i).next_delta_ = q - i ∧ i < q ∧
            q < bs.length) ∧
      ((B = [] ∧ qopt = none) ∨
        (∃ q B', B = q :: B' ∧ qopt = some q ∧ i < q ∧ q < bs.length ∧
          q ∉ B' ∧ (bget bs q).prev_delta_ = q - i ∧ LinkedFrom bs q B')) := by
    cases B with
    | nil => exact ⟨none, hfromIB, Or.inl ⟨rfl, rfl⟩⟩
    | cons q B' =>
      obtain ⟨hq1, hq2, hq3, hq4⟩ := hfromIB
      have hqlen : q < bs.length :=
        ((hmemL q).mp (List.mem_append_right A (List.mem_cons.mpr
          (Or.inr (List.mem_cons_self q B'))))).1
      have hqnB : q ∉ B' := by
        have n1 := (List.nodup_append.mp hnodup).2.1
        have n2 := (List.nodup_cons.mp n1).2
        exact (List.nodup_cons.mp n2).1
      exact ⟨some q, ⟨hq2, hq1, hqlen⟩,
        Or.inr ⟨q, B', rfl, rfl, hq1, hqlen, hqnB, hq3, hq4⟩⟩
  obtain ⟨popt, hp, hppack⟩ :
      ∃ popt, (match popt with
        | none => (bget bs i).prev_delta_ = NULL_DELTA
        | some p => (bget bs i).prev_delta_ = i - p ∧ p < i) ∧
      ((A = [] ∧ popt = none) ∨
        (∃ a A', A = a :: A' ∧ popt = some (A'.getLast?.getD a) ∧
          LinkedFromSeg bs a A' i ∧
          (bget bs (bget bs i).object_bucket_).first_delta_ =
            a - (bget bs i).object_bucket_ ∧
          (bget bs i).object_bucket_ ≤ a ∧
          (bget bs a).prev_delta_ = NULL_DELTA)) := by
    cases A with
    | nil =>
      obtain ⟨h1, h2, h3, h4⟩ := hLinked
      exact ⟨none, h3, Or.inl ⟨rfl, rfl⟩⟩
    | cons a A' =>
      obtain ⟨h1, h2, h3, h4⟩ := hLinked
      obtain ⟨hseg, -⟩ := (LinkedFrom_append_iff bs A' a i B).mp h4
      obtain ⟨hplt, hpnext, hiprev⟩ := LinkedFromSeg_last bs A' a i hseg
      exact ⟨some (A'.getLast?.getD a), ⟨hiprev, hplt⟩,
        Or.inr ⟨a, A', rfl, rfl, hseg, h2, h1, h3⟩⟩
  obtain ⟨hsp1, hsp2, hsp3, hsp4, hsp5⟩ := EraseObject_spec bs i popt qopt
    hilen hlenU hoble hp hq
  have hpfacts : ∀ p, popt = some p → p ∈ A ∧ p < i ∧ p < bs.length ∧
      (bget bs p).object_bucket_ = (bget bs i).object_bucket_ ∧
      occAt bs p := by
    intro p hp'
    rcases hppack with ⟨-, hpn⟩ | ⟨a, A', hAeq, hpeq, -, -, -, -⟩
    · rw [hpn] at hp'
      exact Option.noConfusion hp'
    · have hpl : p = A'.getLast?.getD a :=
        Option.some.inj (hp'.symm.trans hpeq)
      have hpmemA : p ∈ A := by
        rw [hpl, hAeq]
        exact getLastD_mem a A'
      have hplt : p < i := hA_lt p hpmemA
      have hpm2 := (hmemL p).mp (List.mem_append_left _ hpmemA)
      refine ⟨hpmemA, hplt, hpm2.1, hpm2.2, ?_⟩
      simp only [occAt, hpm2.2]
      exact hbne
  have hqfacts : ∀ q, qopt = some q → q ∈ B ∧ i < q ∧ q < bs.length ∧
      (bget bs q).object_bucket_ = (bget bs i).object_bucket_ ∧
      occAt bs q := by
    intro q hq'
    rcases hqpack with ⟨-, hqn⟩ | ⟨q2, B', hBeq, hqeq, hiq, -, -, -, -⟩
    · rw [hqn] at hq'
      exact Option.noConfusion hq'
    · have hqq : q = q2 := Option.some.inj (hq'.symm.trans hqeq)
      have hqmem : q ∈ B := by
        rw [hBeq, hqq]
        exact List.mem_cons_self _ _
      have hqm2 := (hmemL q).mp
        (List.mem_append_right A (List.mem_cons.mpr (Or.inr hqmem)))
      refine ⟨hqmem, hB_gt q hqmem, hqm2.1, hqm2.2, ?_⟩
      simp only [occAt, hqm2.2]
      exact hbne
  have hu1b : (bget (EraseObject bs i) i).object_bucket_ = EMPTY_BUCKET := by
    rw [hsp1]
  have hu1n : (bget (EraseObject bs i) i).next_delta_ = NULL_DELTA := by
    rw [hsp1]
  have hu1p : (bget (EraseObject bs i) i).prev_delta_ = NULL_DELTA := by
    rw [hsp1]
  have hu2 : ∀ x, x ≠ i →
      (bget (EraseObject bs i) x).object_bucket_ =
        (bget bs x).object_bucket_ ∧
      (bget (EraseObject bs i) x).object_it_ = (bget bs x).object_it_ := by
    intro x hxi
    by_cases hpx : popt = some x
    · rw [hsp2 x hpx]
      exact ⟨rfl, rfl⟩
    · by_cases hqx : qopt = some x
      · rw [hsp3 x hqx]
        exact ⟨rfl, rfl⟩
      · by_cases hx4 : popt = none ∧ x = (bget bs i).object_bucket_
        · have hobi : (bget bs i).object_bucket_ ≠ i := fun h =>
            hxi (hx4.2.trans h)
          rw [hx4.2, hsp4 hx4.1 hobi]
          exact ⟨rfl, rfl⟩
        · rw [hsp5 x hxi hpx hqx hx4]
          exact ⟨rfl, rfl⟩
  have hu3 : ∀ x, ¬ occAt bs x → x ≠ i →
      (bget (EraseObject bs i) x).next_delta_ = (bget bs x).next_delta_ ∧
      (bget (EraseObject bs i) x).prev_delta_ = (bget bs x).prev_delta_ := by
    intro x hnx hxi
    have hpx : popt ≠ some x := fun h => hnx (hpfacts x h).2.2.2.2
    have hqx : qopt ≠ some x := fun h => hnx (hqfacts x h).2.2.2.2
    by_cases hx4 : popt = none ∧ x = (bget bs i).object_bucket_
    · have hobi : (bget bs i).object_bucket_ ≠ i := fun h =>
        hxi (hx4.2.trans h)
      rw [hx4.2, hsp4 hx4.1 hobi]
      exact ⟨rfl, rfl⟩
    · rw [hsp5 x hxi hpx hqx hx4]
      exact ⟨rfl, rfl⟩
  have hu5 : ∀ x, x ≠ i → occAt bs x →
      (bget bs x).object_bucket_ ≠ (bget bs i).object_bucket_ →
      (bget (EraseObject bs i) x).next_delta_ = (bget bs x).next_delta_ ∧
      (bget (EraseObject bs i) x).prev_delta_ = (bget bs x).prev_delta_ := by
    intro x hxi hxocc hxob
    have hpx : popt ≠ some x := fun h => hxob (hpfacts x h).2.2.2.1
    have hqx : qopt ≠ some x := fun h => hxob (hqfacts x h).2.2.2.1
    by_cases hx4 : popt = none ∧ x = (bget bs i).object_bucket_
    · have hobi : (bget bs i).object_bucket_ ≠ i := fun h =>
        hxi (hx4.2.trans h)
      rw [hx4.2, hsp4 hx4.1 hobi]
      exact ⟨rfl, rfl⟩
    · rw [hsp5 x hxi hpx hqx hx4]
      exact ⟨rfl, rfl⟩
  have hu6 : ∀ g, g ≠ (bget bs i).object_bucket_ →
      (bget (EraseObject bs i) g).first_delta_ =
        (bget bs g).first_delta_ := by
    intro g hg
    by_cases hgi : g = i
    · rw [hgi, hsp1]
      show (if popt = none ∧ (bget bs i).object_bucket_ = i
          then eraseNext qopt (bget bs i).object_bucket_
          else (bget bs i).first_delta_) = (bget bs i).first_delta_
      rw [if_neg (fun h => hg (hgi.trans h.2.symm))]
    · by_cases hpg : popt = some g
      · rw [hsp2 g hpg]
      · by_cases hqg : qopt = some g
        · rw [hsp3 g hqg]
        · rw [hsp5 g hgi hpg hqg (fun h => hg h.2)]
  obtain ⟨hoccIff, hstored, hocc', hinj', hclean', hchainsO⟩ :=
    erase_core os hasher H bs (EraseObject bs i) i hB hilen hiocc
      (length_EraseObject bs i) hu1b hu1n hu1p hu2 hu3 hu5 hu6
  have hpresB : ∀ x ∈ B, qopt ≠ some x →
      bget (EraseObject bs i) x = bget bs x := by
    intro x hx hqx
    have hxi : i < x := hB_gt x hx
    refine hsp5 x (by omega) (fun h => by
        have := (hpfacts x h).2.1
        omega) hqx ?_
    rintro ⟨-, hxob⟩
    omega
  have hchainEq : chainIndices (EraseObject bs i)
      (bget bs i).object_bucket_ = A ++ B := by
    refine sorted_eq_of_mem_iff (chainIndices_sorted _ _)
      ((hsorted.sublist (List.Sublist.append_left
        (List.sublist_cons_self i B) A)))
      (fun x => ?_)
    rw [mem_chainIndices, length_EraseObject]
    by_cases hxi : x = i
    · constructor
      · rintro ⟨-, hobx⟩
        rw [hxi, hu1b] at hobx
        exact absurd hobx.symm hbne
      · intro hmem
        exfalso
        rw [hxi] at hmem
        rcases List.mem_append.mp hmem with h | h
        · exact absurd (hA_lt i h) (lt_irrefl i)
        · exact absurd (hB_gt i h) (lt_irrefl i)
    · rw [(hu2 x hxi).1]
      constructor
      · intro h
        have hxm := (hmemL x).mpr h
        rcases List.mem_append.mp hxm with h2 | h2
        · exact List.mem_append_left _ h2
        · rcases List.mem_cons.mp h2 with h2 | h2
          · exact absurd h2 hxi
          · exact List.mem_append_right A h2
      · intro h
        apply (hmemL x).mp
        rcases List.mem_append.mp h with h2 | h2
        · exact List.mem_append_left _ h2
        · exact List.mem_append_right A (List.mem_cons.mpr (Or.inr h2))
  have hTailB : ∀ a : Nat, (∀ q B', B = q :: B' → qopt = some q →
      LinkedFrom (EraseObject bs i) q B') := by
    intro a q B' hBeq hqeq
    rcases hqpack with ⟨hB0, -⟩ | ⟨q2, B2, hBeq2, hqeq2, hiq, hqlen, hqnB,
        hqprev, hLF⟩
    · rw [hB0] at hBeq
      exact absurd hBeq (fun h => List.noConfusion h)
    · have hqq : q = q2 := Option.some.inj (hqeq.symm.trans hqeq2)
      have hBB : B' = B2 := by
        rw [hBeq] at hBeq2
        exact (List.cons.inj hBeq2).2
      rw [hqq, hBB]
      refine LinkedFrom_congr_fields bs _ q2 B2 ?_ ?_ hLF
      · intro x hx
        rcases List.mem_cons.mp hx with hx | hx
        · rw [hx, hsp3 q2 hqeq2]
        · have hxB : x ∈ B := by
            rw [hBeq2]
            exact List.mem_cons.mpr (Or.inr hx)
          have hxq : qopt ≠ some x := by
            intro h
            have : q2 = x := Option.some.inj (hqeq2.symm.trans h)
            exact hqnB (this ▸ hx)
          rw [hpresB x hxB hxq]
      · intro x hx
        have hxB : x ∈ B := by
          rw [hBeq2]
          exact List.mem_cons.mpr (Or.inr hx)
        have hxq : qopt ≠ some x := by
          intro h
          have : q2 = x := Option.some.inj (hqeq2.symm.trans h)
          exact hqnB (this ▸ hx)
        rw [hpresB x hxB hxq]
  have hLinked' : Linked (EraseObject bs i) (bget bs i).object_bucket_
      (A ++ B) := by
    rcases hppack with ⟨hA0, hpn⟩ |
      ⟨a, A', hAeq, hpeq, hseg, hfirsteq, hhba, hpreva⟩
    · rw [hA0]
      show Linked (EraseObject bs i) (bget bs i).object_bucket_ B
      have hfirstval : (bget (EraseObject bs i)
          (bget bs i).object_bucket_).first_delta_ =
          eraseNext qopt (bget bs i).object_bucket_ := by
        by_cases hobi : (bget bs i).object_bucket_ = i
        · rw [hobi, hsp1]
          show (if popt = none ∧ (bget bs i).object_bucket_ = i
              then eraseNext qopt (bget bs i).object_bucket_
              else (bget bs i).first_delta_) = eraseNext qopt i
          rw [if_pos ⟨hpn, hobi⟩, hobi]
        · rw [hsp4 hpn hobi]
      rcases hqpack with ⟨hB0, hq0⟩ | ⟨q, B', hBeq, hqeq, hiq, hqlen, hqnB,
          hqprev, hLF⟩
      · rw [hB0]
        show (bget (EraseObject bs i)
          (bget bs i).object_bucket_).first_delta_ = NULL_DELTA
        rw [hfirstval, hq0]
        rfl
      · rw [hBeq]
        refine ⟨by omega, ?_, ?_, ?_⟩
        · rw [hfirstval, hqeq]
          show usub q (bget bs i).object_bucket_ =
            q - (bget bs i).object_bucket_
          exact usub_of_le (by omega) (by omega)
        · rw [hsp3 q hqeq]
          show erasePrev popt q = NULL_DELTA
          rw [hpn]
          rfl
        · exact hTailB 0 q B' hBeq hqeq
    · rw [hAeq]
      show Linked (EraseObject bs i) (bget bs i).object_bucket_
        (a :: (A' ++ B))
      have hac : a < i := hA_lt a (by rw [hAeq]; exact List.mem_cons_self a A')
      obtain ⟨hplt, hpnext, hiprev⟩ := LinkedFromSeg_last bs A' a i hseg
      have hobine : (bget bs i).object_bucket_ ≠ i := by
        intro h
        omega
      have hfirstpres : (bget (EraseObject bs i)
          (bget bs i).object_bucket_).first_delta_ =
          (bget bs (bget bs i).object_bucket_).first_delta_ := by
        by_cases hpg : popt = some ((bget bs i).object_bucket_)
        · rw [hsp2 _ hpg]
        · have hqg : qopt ≠ some ((bget bs i).object_bucket_) := by
            intro h
            have := (hqfacts _ h).2.1
            omega
          rw [hsp5 _ hobine hpg hqg (fun h => Option.noConfusion
            (hpeq.symm.trans h.1))]
      have hsidex : ∀ x ∈ a :: A', x ≠ i ∧ qopt ≠ some x ∧
          ¬(popt = none ∧ x = (bget bs i).object_bucket_) := by
        intro x hx
        have hxi : x < i := hA_lt x (by rw [hAeq]; exact hx)
        refine ⟨by omega, ?_, fun h => Option.noConfusion
          (hpeq.symm.trans h.1)⟩
        intro h
        have := (hqfacts x h).2.1
        omega
      have hprevpres : ∀ x ∈ a :: A',
          (bget (EraseObject bs i) x).prev_delta_ =
          (bget bs x).prev_delta_ := by
        intro x hx
        obtain ⟨hxi, hqx, hx4⟩ := hsidex x hx
        by_cases hpx : popt = some x
        · rw [hsp2 x hpx]
        · rw [hsp5 x hxi hpx hqx hx4]
      have hnextpres : ∀ x ∈ a :: A', x ≠ (A'.getLast?.getD a) →
          (bget (EraseObject bs i) x).next_delta_ =
          (bget bs x).next_delta_ := by
        intro x hx hxl
        obtain ⟨hxi, hqx, hx4⟩ := hsidex x hx
        have hpx : popt ≠ some x := by
          intro h
          exact hxl (Option.some.inj (h.symm.trans hpeq))
        rw [hsp5 x hxi hpx hqx hx4]
      refine ⟨hhba, ?_, ?_, ?_⟩
      · rw [hfirstpres]
        exact hfirsteq
      · rw [hprevpres a (List.mem_cons_self a A')]
        exact hpreva
      · rcases hqpack with ⟨hB0, hq0⟩ | ⟨q, B', hBeq, hqeq, hiq, hqlen,
            hqnB, hqprev, hLF⟩
        · rw [hB0, List.append_nil]
          refine LinkedFromSeg_close bs (EraseObject bs i) A' a i hseg
            hnextpres (fun x hx => hprevpres x (List.mem_cons.mpr
              (Or.inr hx))) ?_
          rw [hsp2 _ hpeq, hq0]
          rfl
        · rw [hBeq]
          refine (LinkedFrom_append_iff _ A' a q B').mpr ⟨?_, ?_⟩
          · refine LinkedFromSeg_retarget bs (EraseObject bs i) i q A' a hseg
              (fun x hx => hprevpres x hx) hnextpres ?_ ?_ (by omega)
            · rw [hsp2 _ hpeq, hqeq]
              show usub q (A'.getLast?.getD a) = q - A'.getLast?.getD a
              exact usub_of_le (by omega) (by omega)
            · rw [hsp3 q hqeq, hpeq]
              show usub q (A'.getLast?.getD a) = q - A'.getLast?.getD a
              exact usub_of_le (by omega) (by omega)
          · exact hTailB 0 q B' hBeq hqeq
  refine ⟨⟨by rw [length_EraseObject]; exact hlenU, hocc', hinj', hclean',
    ?_⟩, hoccIff, hstored⟩
  intro g hg
  rw [length_EraseObject] at hg
  by_cases hgh : g = (bget bs i).object_bucket_
  · rw [hgh, hchainEq]
    exact hLinked'
  · exact hchainsO g hg hgh

theorem lookupEntry_some {os : List Entry} {id : Nat} {e : Entry}
    (h : lookupEntry os id = some e) : e ∈ os ∧ e.id = id := by
  refine ⟨List.mem_of_find?_eq_some h, ?_⟩
  have := List.find?_some h
  simpa using this

theorem lookupEntry_none {os : List Entry} {id : Nat}
    (h : lookupEntry os id = none) : ∀ e ∈ os, e.id ≠ id := by
  intro e he
  have := List.find?_eq_none.mp h e he
  simpa using this

theorem lookupEntry_mem {os : List Entry} (hnd : (os.map Entry.id).Nodup) :
    ∀ {e : Entry}, e ∈ os → lookupEntry os e.id = some e := by
  induction os with
  | nil => intro e he; exact absurd he (List.not_mem_nil e)
  | cons a os ih =>
    intro e he
    rw [List.map_cons, List.nodup_cons] at hnd
    by_cases hae : a.id = e.id
    · have hea : e = a := by
        rcases List.mem_cons.mp he with h | h
        · exact h
        · exfalso
          apply hnd.1
          rw [hae]
          exact List.mem_map.mpr ⟨e, h, rfl⟩
      rw [hea]
      show List.find? _ _ = _
      rw [List.find?_cons_of_pos _ (by simp)]
    · rcases List.mem_cons.mp he with h | h
      · exact absurd (congrArg Entry.id h.symm) hae
      · show List.find? _ _ = _
        rw [List.find?_cons_of_neg _ (by simpa using hae)]
        exact ih hnd.2 h

/-- The full well-formedness invariant of a map state. -/
structure Inv (m : HashMap) : Prop where
  binv : BInv m.objects_ m.hasher_ m.neighbourhood_size_ m.buckets_
  onto : ∀ e ∈ m.objects_, storedId m.buckets_ e.id
  ids_lt : ∀ e ∈ m.objects_, e.id < m.next_id
  ids_nodup : (m.objects_.map Entry.id).Nodup
  keys_nodup : (m.objects_.map Entry.key).Nodup
  dims : 4 ≤ m.neighbourhood_size_ ∧
    m.neighbourhood_size_ ≤ m.buckets_.length

/-- The bucket invariant only reads the entry store through membership, so it
is monotone under adding entries. -/
theorem BInv_cons (os : List Entry) (e : Entry) (hasher : Nat → Nat)
    (H : Nat) (bs : List Bucket) (hB : BInv os hasher H bs) :
    BInv (e :: os) hasher H bs := by
  refine ⟨hB.capU, ?_, hB.inj, hB.emptyClean, hB.chains⟩
  intro i hilen hiocc
  obtain ⟨e2, he2, h1, h2, h3, h4⟩ := hB.occ i hilen hiocc
  exact ⟨e2, List.mem_cons.mpr (Or.inr he2), h1, h2, h3, h4⟩

/-- The bucket invariant survives deleting entries no bucket refers to. -/
theorem BInv_eraseP (os : List Entry) (p : Entry → Bool) (hasher : Nat → Nat)
    (H : Nat) (bs : List Bucket) (hB : BInv os hasher H bs)
    (hsafe : ∀ i, i < bs.length → occAt bs i →
      ∃ e ∈ os, (bget bs i).object_it_ = e.id ∧
        hasher e.key % bs.length = (bget bs i).object_bucket_ ∧
        (bget bs i).object_bucket_ ≤ i ∧
        i - (bget bs i).object_bucket_ < H ∧ ¬ p e = true) :
    BInv (os.eraseP p) hasher H bs := by
  refine ⟨hB.capU, ?_, hB.inj, hB.emptyClean, hB.chains⟩
  intro i hilen hiocc
  obtain ⟨e2, he2, h1, h2, h3, h4, h5⟩ := hsafe i hilen hiocc
  exact ⟨e2, (List.mem_eraseP_of_neg h5).mpr he2, h1, h2, h3, h4⟩

theorem chainIndices_replicate (cap h : Nat) (hh : h ≠ EMPTY_BUCKET) :
    chainIndices (List.replicate cap ({} : Bucket)) h = [] := by
  rw [chainIndices, List.filter_eq_nil_iff]
  intro i _
  rw [bget_replicate]
  simpa using fun hc => hh hc.symm

theorem BInv_replicate (os : List Entry) (hasher : Nat → Nat) (H cap : Nat)
    (hcap : cap < U64) : BInv os hasher H (List.replicate cap {}) := by
  have hget : ∀ i, ¬ occAt (List.replicate cap ({} : Bucket)) i := by
    intro i h
    rw [occAt, bget_replicate] at h
    exact h rfl
  refine ⟨by simpa using hcap, ?_, ?_, ?_, ?_⟩
  · intro i _ hiocc
    exact absurd hiocc (hget i)
  · intro i j _ _ hiocc _ _
    exact absurd hiocc (hget i)
  · intro i _
    rw [bget_replicate]
    exact ⟨rfl, rfl⟩
  · intro h hlt
    rw [List.length_replicate] at hlt
    rw [chainIndices_replicate cap h (by simp only [EMPTY_BUCKET]; omega)]
    show (bget (List.replicate cap ({} : Bucket)) h).first_delta_ = NULL_DELTA
    rw [bget_replicate]

theorem mkHashMap_Inv (hasher : Nat → Nat) : Inv (mkHashMap hasher) := by
  refine ⟨BInv_replicate [] hasher _ _
    (by norm_num [U64, min_neighbourhood_size_]), ?_, ?_, ?_, ?_, ?_⟩
  · intro e he
    exact absurd he (List.not_mem_nil e)
  · intro e he
    exact absurd he (List.not_mem_nil e)
  · exact List.nodup_nil
  · exact List.nodup_nil
  · exact ⟨le_refl _, by simp [mkHashMap, min_neighbourhood_size_]⟩

/-- Bucket `i` currently holds an entry whose key is `key`. -/
def bucketHasKey (m : HashMap) (key i : Nat) : Prop :=
  ∃ e, lookupEntry m.objects_ (bget m.buckets_ i).object_it_ = some e ∧
    e.key = key

/-- The chain walk of `FindObject` visits exactly the chain nodes and reports
the first (hence, by key uniqueness, the only) match. -/
theorem findLoop_chain (m : HashMap) (key : Nat) :
    ∀ (l : List Nat) (a fuel : Nat),
      LinkedFrom m.buckets_ a l →
      (∀ x ∈ a :: l, x < m.buckets_.length) →
      m.buckets_.length < U64 →
      l.length < fuel →
      (∀ b, findLoop m key fuel a = some b →
        b ∈ a :: l ∧ bucketHasKey m key b) ∧
      (findLoop m key fuel a = none →
        ∀ b ∈ a :: l, ¬ bucketHasKey m key b) := by
  intro l
  induction l with
  | nil =>
    intro a fuel hLF hmem hU hfuel
    obtain ⟨fuel, rfl⟩ : ∃ f, fuel = f + 1 := ⟨fuel - 1, by omega⟩
    rw [findLoop]
    cases hl : lookupEntry m.objects_ (bget m.buckets_ a).object_it_ with
    | some e =>
      by_cases hk : e.key = key
      · rw [if_pos (by simpa using hk)]
        refine ⟨fun b hb => ?_, fun hn => Option.noConfusion hn⟩
        rw [← Option.some.inj hb]
        exact ⟨List.mem_cons_self a [], e, hl, hk⟩
      · rw [if_neg (by simpa using hk)]
        have hnl : (bget m.buckets_ a).next_delta_ = NULL_DELTA := hLF
        rw [if_neg (not_not.mpr hnl)]
        refine ⟨fun b hb => Option.noConfusion hb, fun _ b hb => ?_⟩
        rcases List.mem_cons.mp hb with hb | hb
        · rintro ⟨e2, hl2, hk2⟩
          rw [hb] at hl2
          rw [hl] at hl2
          exact hk (Option.some.inj hl2 ▸ hk2)
        · exact absurd hb (List.not_mem_nil b)
    | none =>
      rw [if_neg (by simp)]
      have hnl : (bget m.buckets_ a).next_delta_ = NULL_DELTA := hLF
      rw [if_neg (not_not.mpr hnl)]
      refine ⟨fun b hb => Option.noConfusion hb, fun _ b hb => ?_⟩
      rcases List.mem_cons.mp hb with hb | hb
      · rintro ⟨e2, hl2, -⟩
        rw [hb, hl] at hl2
        exact Option.noConfusion hl2
      · exact absurd hb (List.not_mem_nil b)
  | cons b' l' ih =>
    intro a fuel hLF hmem hU hfuel
    obtain ⟨fuel, rfl⟩ : ∃ f, fuel = f + 1 := ⟨fuel - 1, by omega⟩
    obtain ⟨hab, hnext, hprev, hLF'⟩ := hLF
    have hb'len : b' < m.buckets_.length :=
      hmem b' (List.mem_cons.mpr (Or.inr (List.mem_cons_self b' l')))
    have hnn : (bget m.buckets_ a).next_delta_ ≠ NULL_DELTA := by
      rw [hnext]
      simp only [NULL_DELTA]
      omega
    have hstep : a + (bget m.buckets_ a).next_delta_ = b' := by
      rw [hnext]
      omega
    rw [findLoop]
    have hrec := ih b' fuel hLF'
      (fun x hx => hmem x (List.mem_cons.mpr (Or.inr hx))) hU (by
        simp only [List.length_cons] at hfuel
        omega)
    cases hl : lookupEntry m.objects_ (bget m.buckets_ a).object_it_ with
    | some e =>
      by_cases hk : e.key = key
      · rw [if_pos (by simpa using hk)]
        refine ⟨fun b hb => ?_, fun hn => Option.noConfusion hn⟩
        rw [← Option.some.inj hb]
        exact ⟨List.mem_cons_self a _, e, hl, hk⟩
      · rw [if_neg (by simpa using hk)]
        rw [if_pos hnn, hstep]
        refine ⟨fun b hb => ?_, fun hn b hb => ?_⟩
        · obtain ⟨h1, h2⟩ := hrec.1 b hb
          exact ⟨List.mem_cons.mpr (Or.inr h1), h2⟩
        · rcases List.mem_cons.mp hb with hb | hb
          · rintro ⟨e2, hl2, hk2⟩
            rw [hb, hl] at hl2
            exact hk (Option.some.inj hl2 ▸ hk2)
          · exact hrec.2 hn b hb
    | none =>
      rw [if_neg (by simp)]
      rw [if_pos hnn, hstep]
      refine ⟨fun b hb => ?_, fun hn b hb => ?_⟩
      · obtain ⟨h1, h2⟩ := hrec.1 b hb
        exact ⟨List.mem_cons.mpr (Or.inr h1), h2⟩
      · rcases List.mem_cons.mp hb with hb | hb
        · rintro ⟨e2, hl2, -⟩
          rw [hb, hl] at hl2
          exact Option.noConfusion hl2
        · exact hrec.2 hn b hb

/-- `FindObject` under the invariant: a returned bucket holds an entry with
the key, and `none` means no entry has the key. -/
theorem FindObject_spec (m : HashMap) (hInv : Inv m) (key : Nat) :
    (∀ b, FindObject m key = some b → b < m.buckets_.length ∧
      occAt m.buckets_ b ∧
      ∃ e ∈ m.objects_, (bget m.buckets_ b).object_it_ = e.id ∧
        e.key = key) ∧
    (FindObject m key = none → ∀ e ∈ m.objects_, e.key ≠ key) := by
  have hlen0 : 0 < m.buckets_.length := by
    have := hInv.dims
    omega
  have hlenU := hInv.binv.capU
  have hstart : m.hasher_ key % m.buckets_.length < m.buckets_.length :=
    Nat.mod_lt _ hlen0
  have hL : Linked m.buckets_ (m.hasher_ key % m.buckets_.length)
      (chainIndices m.buckets_ (m.hasher_ key % m.buckets_.length)) :=
    hInv.binv.chains _ hstart
  have hkeyMem : ∀ e ∈ m.objects_, e.key = key →
      ∃ j, j ∈ chainIndices m.buckets_
        (m.hasher_ key % m.buckets_.length) ∧
      (bget m.buckets_ j).object_it_ = e.id := by
    intro e he hek
    obtain ⟨j, hjlen, hjocc, hjid⟩ := hInv.onto e he
    obtain ⟨e2, he2, h1, h2, h3, h4⟩ := hInv.binv.occ j hjlen hjocc
    have hee : e2 = e := List.inj_on_of_nodup_map hInv.ids_nodup he2 he
      (by rw [← h1, hjid])
    refine ⟨j, (mem_chainIndices _ _ _).mpr ⟨hjlen, ?_⟩, hjid⟩
    rw [← h2, hee, hek]
  unfold FindObject
  dsimp only [GetStartBucket]
  split
  · next hfd =>
    refine ⟨fun b hb => Option.noConfusion hb, fun _ e he hek => ?_⟩
    obtain ⟨j, hjmem, -⟩ := hkeyMem e he hek
    rcases hLc : chainIndices m.buckets_
        (m.hasher_ key % m.buckets_.length) with _ | ⟨x, l'⟩
    · rw [hLc] at hjmem
      exact absurd hjmem (List.not_mem_nil j)
    · rw [hLc] at hL
      have hxlen : x < m.buckets_.length :=
        ((mem_chainIndices _ _ _).mp (by
          rw [hLc]
          exact List.mem_cons_self x l')).1
      have : (bget m.buckets_
          (m.hasher_ key % m.buckets_.length)).first_delta_ =
          x - m.hasher_ key % m.buckets_.length := hL.2.1
      rw [hfd] at this
      simp only [NULL_DELTA] at this
      omega
  · next hfd =>
    rcases hLc : chainIndices m.buckets_
        (m.hasher_ key % m.buckets_.length) with _ | ⟨x, l'⟩
    · exfalso
      rw [hLc] at hL
      exact hfd hL
    · rw [hLc] at hL
      obtain ⟨hsx, hfx, hpx, hLFx⟩ := hL
      have hmemx : ∀ y ∈ x :: l', y < m.buckets_.length := by
        intro y hy
        exact ((mem_chainIndices _ _ _).mp (by
          rw [hLc]
          exact hy)).1
      have hheadix : m.hasher_ key % m.buckets_.length +
          (bget m.buckets_
            (m.hasher_ key % m.buckets_.length)).first_delta_ = x := by
        rw [hfx]
        omega
      rw [hheadix]
      have hlchain := findLoop_chain m key l' x (m.buckets_.length + 1)
        hLFx hmemx hlenU (by
          have : (x :: l').length ≤ m.buckets_.length := by
            rw [← hLc, chainIndices]
            exact le_trans (List.length_filter_le _ _)
              (by rw [List.length_range])
          simp only [List.length_cons] at this
          omega)
      refine ⟨fun b hb => ?_, fun hn e he hek => ?_⟩
      · obtain ⟨h1, e2, h2, h3⟩ := hlchain.1 b hb
        have hbmem : b ∈ chainIndices m.buckets_
            (m.hasher_ key % m.buckets_.length) := by
          rw [hLc]
          exact h1
        obtain ⟨hblen, hbob⟩ := (mem_chainIndices _ _ _).mp hbmem
        obtain ⟨he2m, he2id⟩ := lookupEntry_some h2
        refine ⟨hblen, ?_, e2, he2m, he2id.symm, h3⟩
        simp only [occAt, hbob]
        simp only [EMPTY_BUCKET]
        omega
      · obtain ⟨j, hjmem, hjid⟩ := hkeyMem e he hek
        have hjB : bucketHasKey m key j := by
          refine ⟨e, ?_, hek⟩
          rw [hjid]
          exact lookupEntry_mem hInv.ids_nodup he
        apply hlchain.2 hn j (by rw [← hLc]; exact hjmem) hjB

/-- Master lemma for the reinstall loop of `Reallocate`: the bucket invariant
is maintained, placed handles stay placed, and a `true` flag means every
pending entry got placed. -/
theorem reinsertLoop_master :
    ∀ (todo : List Entry) (m : HashMap),
      BInv m.objects_ m.hasher_ m.neighbourhood_size_ m.buckets_ →
      0 < m.buckets_.length →
      (∀ e ∈ todo, e ∈ m.objects_) →
      (∀ e ∈ todo, ¬ storedId m.buckets_ e.id) →
      (todo.map Entry.id).Nodup →
      BInv (reinsertLoop m todo).1.objects_ (reinsertLoop m todo).1.hasher_
          (reinsertLoop m todo).1.neighbourhood_size_
          (reinsertLoop m todo).1.buckets_ ∧
        (∀ id, storedId m.buckets_ id →
          storedId (reinsertLoop m todo).1.buckets_ id) ∧
        ((reinsertLoop m todo).2 = true →
          ∀ e ∈ todo, storedId (reinsertLoop m todo).1.buckets_ e.id) := by
  intro todo
  induction todo with
  | nil =>
    intro m hB _ _ _ _
    exact ⟨hB, fun id h => h, fun _ e he => absurd he (List.not_mem_nil e)⟩
  | cons e rest ih =>
    intro m hB hlen0 hmem hunst hnodup
    rw [List.map_cons, List.nodup_cons] at hnodup
    obtain ⟨hmB, hmN, hmS⟩ := InsertObject_master m e.id hB
      (hunst e (List.mem_cons_self e rest)) hlen0
    obtain ⟨hf1, hf2, hf3, hf4, hf5⟩ := InsertObject_frame m e.id
    rw [reinsertLoop]
    split
    · next m2 r heq =>
      have hm2B : BInv m2.objects_ m2.hasher_ m2.neighbourhood_size_
          m2.buckets_ := by
        have h1 : m2 = (InsertObject m e.id).1 := by rw [heq]
        rw [h1, hf1, hf3, hf4]
        exact hmB
      have hstored2 : ∀ id, storedId m2.buckets_ id ↔
          (storedId m.buckets_ id ∨ id = e.id) := by
        intro id
        have h1 : m2 = (InsertObject m e.id).1 := by rw [heq]
        have h2 : (InsertObject m e.id).2 = some r := by rw [heq]
        rw [h1]
        exact (hmS r h2).1 id
      obtain ⟨c1, c2, c3⟩ := ih m2 hm2B (by
          have h1 : m2 = (InsertObject m e.id).1 := by rw [heq]
          rw [h1, hf5]
          exact hlen0)
        (fun e2 he2 => by
          have h1 : m2 = (InsertObject m e.id).1 := by rw [heq]
          rw [h1, hf1]
          exact hmem e2 (List.mem_cons.mpr (Or.inr he2)))
        (fun e2 he2 => by
          rw [hstored2]
          rintro (h | h)
          · exact hunst e2 (List.mem_cons.mpr (Or.inr he2)) h
          · exact hnodup.1 (h ▸ List.mem_map.mpr ⟨e2, he2, rfl⟩))
        hnodup.2
      refine ⟨c1, ?_, ?_⟩
      · intro id h
        exact c2 id ((hstored2 id).mpr (Or.inl h))
      · intro hflag e2 he2
        rcases List.mem_cons.mp he2 with h | h
        · rw [h]
          exact c2 e.id ((hstored2 e.id).mpr (Or.inr rfl))
        · exact c3 hflag e2 h
    · next m2 heq =>
      have h1 : m2 = (InsertObject m e.id).1 := by rw [heq]
      have h2 : (InsertObject m e.id).2 = none := by rw [heq]
      refine ⟨by rw [h1, hf1, hf3, hf4]; exact hmB, ?_,
        fun hflag => Bool.noConfusion hflag⟩
      intro id h
      rw [h1]
      exact (hmN h2 id).mpr h

/-- `Reallocate` keeps the bucket invariant; a `true` flag additionally means
every entry ends up placed. -/
theorem Reallocate_BInv (m : HashMap) (cap hh : Nat) (m2 : HashMap)
    (flag : Bool)
    (hB : BInv m.objects_ m.hasher_ m.neighbourhood_size_ m.buckets_)
    (hnodup : (m.objects_.map Entry.id).Nodup)
    (hcap0 : 0 < cap)
    (hres : Reallocate m cap hh = some (m2, flag)) :
    BInv m2.objects_ m2.hasher_ m2.neighbourhood_size_ m2.buckets_ ∧
      (flag = true → ∀ e ∈ m2.objects_, storedId m2.buckets_ e.id) := by
  unfold Reallocate at hres
  split at hres
  · injection hres with hres
    obtain ⟨h1, h2⟩ := Prod.mk.inj hres
    rw [← h1, ← h2]
    exact ⟨hB, fun hf => Bool.noConfusion hf⟩
  · split at hres
    · exact Option.noConfusion hres
    · next hcap =>
      dsimp only at hres
      have hcapU : cap < U64 := lt_of_not_le hcap
      obtain ⟨c1, c2, c3⟩ := reinsertLoop_master m.objects_
          { m with buckets_ := List.replicate cap {},
                   neighbourhood_size_ := hh }
          (BInv_replicate _ _ _ _ hcapU)
          (by simpa using hcap0)
          (fun e2 he2 => he2)
          (fun e2 _ h => by
            obtain ⟨j, hjlen, hjocc, -⟩ := h
            rw [occAt, bget_replicate] at hjocc
            exact hjocc rfl)
          hnodup
      injection hres with hres
      obtain ⟨h1, h2⟩ := Prod.mk.inj hres
      rw [← h1, ← h2]
      refine ⟨c1, fun hf e2 he2 => c3 hf e2 ?_⟩
      have hfr := reinsertLoop_frame m.objects_
        { m with buckets_ := List.replicate cap {},
                 neighbourhood_size_ := hh }
      rw [hfr.1] at he2
      exact he2

/-- Master lemma for the retry loop of `HandleCollision`: a returned map
satisfies the bucket invariant with every entry placed, and the entry store
is untouched. -/
theorem hcLoop_master :
    ∀ (fuel : Nat) (m m' : HashMap),
      BInv m.objects_ m.hasher_ m.neighbourhood_size_ m.buckets_ →
      (m.objects_.map Entry.id).Nodup →
      0 < m.buckets_.length →
      hcLoop fuel m = some m' →
      BInv m'.objects_ m'.hasher_ m'.neighbourhood_size_ m'.buckets_ ∧
        (∀ e ∈ m'.objects_, storedId m'.buckets_ e.id) ∧
        m'.objects_ = m.objects_ ∧ m'.next_id = m.next_id ∧
        m'.hasher_ = m.hasher_ := by
  intro fuel
  induction fuel with
  | zero =>
    intro m m' _ _ _ h
    exact Option.noConfusion h
  | succ fuel ih =>
    intro m m' hB hnodup hlen0 h
    rw [hcLoop] at h
    split at h
    · exact Option.noConfusion h
    · next m2 heq =>
      injection h with h
      subst h
      obtain ⟨c1, c2⟩ := Reallocate_BInv m _ _ m2 true hB hnodup
        (by split <;> (try simp only [size_modifier_]) <;> omega) heq
      obtain ⟨f1, f2, f3, -⟩ := Reallocate_spec m _ _ m2 true heq
      exact ⟨c1, c2 rfl, f1, f2, f3⟩
    · next m2 heq =>
      obtain ⟨c1, -⟩ := Reallocate_BInv m _ _ m2 false hB hnodup
        (by split <;> (try simp only [size_modifier_]) <;> omega) heq
      obtain ⟨f1, f2, f3, fd⟩ := Reallocate_spec m _ _ m2 false heq
      have hlen2 : 0 < m2.buckets_.length := by
        rcases fd with ⟨h1, -⟩ | ⟨h1, -⟩
        · omega
        · rw [h1]
          split <;> (try simp only [size_modifier_]) <;> omega
      obtain ⟨d1, d2, d3, d4, d5⟩ := ih m2 m' c1 (by rw [f1]; exact hnodup)
        hlen2 h
      exact ⟨d1, d2, by rw [d3, f1], by rw [d4, f2], by rw [d5, f3]⟩

/-- Master lemma for `HandleCollision`. -/
theorem HandleCollision_master (fuel : Nat) (m m' : HashMap)
    (hB : BInv m.objects_ m.hasher_ m.neighbourhood_size_ m.buckets_)
    (hnodup : (m.objects_.map Entry.id).Nodup)
    (hlen0 : 0 < m.buckets_.length)
    (h : HandleCollision fuel m = some m') :
    BInv m'.objects_ m'.hasher_ m'.neighbourhood_size_ m'.buckets_ ∧
      (∀ e ∈ m'.objects_, storedId m'.buckets_ e.id) ∧
      m'.objects_ = m.objects_ ∧ m'.next_id = m.next_id ∧
      m'.hasher_ = m.hasher_ := by
  rw [HandleCollision] at h
  split at h
  · split at h
    · exact Option.noConfusion h
    · next m2 heq =>
      injection h with h
      subst h
      obtain ⟨c1, c2⟩ := Reallocate_BInv m _ _ m2 true hB hnodup
        (by simp only [size_modifier_]; omega) heq
      obtain ⟨f1, f2, f3, -⟩ := Reallocate_spec m _ _ m2 true heq
      exact ⟨c1, c2 rfl, f1, f2, f3⟩
    · next m2 heq =>
      obtain ⟨c1, -⟩ := Reallocate_BInv m _ _ m2 false hB hnodup
        (by simp only [size_modifier_]; omega) heq
      obtain ⟨f1, f2, f3, fd⟩ := Reallocate_spec m _ _ m2 false heq
      have hlen2 : 0 < m2.buckets_.length := by
        rcases fd with ⟨h1, -⟩ | ⟨h1, -⟩
        · omega
        · simp only [size_modifier_] at h1
          omega
      obtain ⟨d1, d2, d3, d4, d5⟩ := hcLoop_master fuel m2 m' c1
        (by rw [f1]; exact hnodup) hlen2 h
      exact ⟨d1, d2, by rw [d3, f1], by rw [d4, f2], by rw [d5, f3]⟩
  · exact hcLoop_master fuel m m' hB hnodup hlen0 h

theorem mem_eraseP_ne (tid : Nat) :
    ∀ (os : List Entry), (os.map Entry.id).Nodup →
      (∃ e ∈ os, e.id = tid) →
      ∀ e2 ∈ os.eraseP (fun x => x.id == tid), e2.id ≠ tid := by
  intro os
  induction os with
  | nil =>
    rintro - ⟨e, he, -⟩ - -
    exact absurd he (List.not_mem_nil e)
  | cons a os ih =>
    intro hnd hex e2 he2
    rw [List.map_cons, List.nodup_cons] at hnd
    by_cases hpa : a.id = tid
    · rw [List.eraseP_cons_of_pos (by simpa using hpa)] at he2
      intro h2
      apply hnd.1
      rw [hpa, ← h2]
      exact List.mem_map.mpr ⟨e2, he2, rfl⟩
    · rw [List.eraseP_cons_of_neg (by simpa using hpa)] at he2
      rcases List.mem_cons.mp he2 with h | h
      · rw [h]
        exact hpa
      · obtain ⟨e, he, heid⟩ := hex
        rcases List.mem_cons.mp he with h3 | h3
        · exact absurd (h3 ▸ heid) hpa
        · exact ih hnd.2 ⟨e, h3, heid⟩ e2 h

theorem clear_Inv (m : HashMap) : Inv (clear m) := by
  refine ⟨BInv_replicate _ _ _ _
    (by norm_num [U64, min_neighbourhood_size_]), ?_, ?_, ?_, ?_, ?_⟩
  · intro e he
    exact absurd he (List.not_mem_nil e)
  · intro e he
    exact absurd he (List.not_mem_nil e)
  · exact List.nodup_nil
  · exact List.nodup_nil
  · exact ⟨le_refl _, by simp [clear, min_neighbourhood_size_]⟩

theorem erase_Inv (m : HashMap) (key : Nat) (hInv : Inv m) :
    Inv (erase m key) := by
  unfold erase
  split
  · exact hInv
  · next b hfo =>
    obtain ⟨hblen, hbocc, e, he, hbid, hek⟩ := (FindObject_spec m hInv key).1
      b hfo
    obtain ⟨hEB, hEocc, hEst⟩ := EraseObject_master m.objects_ m.hasher_
      m.neighbourhood_size_ m.buckets_ b hInv.binv hblen hbocc
    refine ⟨?_, ?_, ?_, ?_, ?_, ?_⟩
    · show BInv (m.objects_.eraseP _) m.hasher_ m.neighbourhood_size_
        (EraseObject m.buckets_ b)
      refine BInv_eraseP _ _ _ _ _ hEB ?_
      intro j hjlen hjocc
      obtain ⟨e2, he2, h1, h2, h3, h4⟩ := hEB.occ j hjlen hjocc
      refine ⟨e2, he2, h1, h2, h3, h4, ?_⟩
      have hst : storedId (EraseObject m.buckets_ b) e2.id :=
        ⟨j, hjlen, hjocc, h1⟩
      have hne := ((hEst e2.id).mp hst).2
      simpa using hne
    · intro e2 he2
      show storedId (EraseObject m.buckets_ b) e2.id
      have he2os : e2 ∈ m.objects_ := List.mem_of_mem_eraseP he2
      have hne : e2.id ≠ (bget m.buckets_ b).object_it_ := by
        have := mem_eraseP_ne ((bget m.buckets_ b).object_it_) m.objects_
          hInv.ids_nodup ⟨e, he, hbid.symm⟩ e2 he2
        exact this
      exact (hEst e2.id).mpr ⟨hInv.onto e2 he2os, hne⟩
    · intro e2 he2
      exact hInv.ids_lt e2 (List.mem_of_mem_eraseP he2)
    · exact ((List.eraseP_sublist _).map Entry.id).nodup hInv.ids_nodup
    · exact ((List.eraseP_sublist _).map Entry.key).nodup hInv.keys_nodup
    · refine ⟨hInv.dims.1, ?_⟩
      show m.neighbourhood_size_ ≤ (EraseObject m.buckets_ b).length
      rw [length_EraseObject]
      exact hInv.dims.2

theorem insert_Inv (m : HashMap) (key val fuel : Nat) (m' : HashMap)
    (hnd : Nat) (hInv : Inv m)
    (hres : insert m key val fuel = some (m', hnd)) : Inv m' := by
  unfold insert at hres
  split at hres
  · injection hres with hres
    obtain ⟨h1, -⟩ := Prod.mk.inj hres
    rw [← h1]
    exact hInv
  · next hfo =>
    have habs := (FindObject_spec m hInv key).2 hfo
    have hlen0 : 0 < m.buckets_.length := by
      have := hInv.dims
      omega
    have hm1B : BInv (⟨m.next_id, key, val⟩ :: m.objects_) m.hasher_
        m.neighbourhood_size_ m.buckets_ :=
      BInv_cons _ _ _ _ _ hInv.binv
    have hnew : ¬ storedId m.buckets_ m.next_id := by
      rintro ⟨j, hjlen, hjocc, hjid⟩
      obtain ⟨e2, he2, h1, -⟩ := hInv.binv.occ j hjlen hjocc
      have := hInv.ids_lt e2 he2
      omega
    have hnodup1 : ((⟨m.next_id, key, val⟩ :: m.objects_).map
        Entry.id).Nodup := by
      rw [List.map_cons, List.nodup_cons]
      refine ⟨?_, hInv.ids_nodup⟩
      intro hmem
      obtain ⟨e2, he2, heq2⟩ := List.mem_map.mp hmem
      dsimp only at heq2
      have := hInv.ids_lt e2 he2
      omega
    have hkeys1 : ((⟨m.next_id, key, val⟩ :: m.objects_).map
        Entry.key).Nodup := by
      rw [List.map_cons, List.nodup_cons]
      refine ⟨?_, hInv.keys_nodup⟩
      intro hmem
      obtain ⟨e2, he2, heq2⟩ := List.mem_map.mp hmem
      exact habs e2 he2 heq2
    dsimp only at hres
    split at hres
    · next m2 b heq2 =>
      injection hres with hres
      obtain ⟨h1, -⟩ := Prod.mk.inj hres
      rw [← h1]
      obtain ⟨hmB, -, hmS⟩ := InsertObject_master
        { m with objects_ := ⟨m.next_id, key, val⟩ :: m.objects_,
                 next_id := m.next_id + 1 } m.next_id hm1B hnew hlen0
      obtain ⟨hf1, hf2, hf3, hf4, hf5⟩ := InsertObject_frame
        { m with objects_ := ⟨m.next_id, key, val⟩ :: m.objects_,
                 next_id := m.next_id + 1 } m.next_id
      rw [heq2] at hmB hmS hf1 hf2 hf3 hf4 hf5
      have hstored2 := (hmS b rfl).1
      refine ⟨?_, ?_, ?_, ?_, ?_, ?_⟩
      · show BInv m2.objects_ m2.hasher_ m2.neighbourhood_size_ m2.buckets_
        rw [show m2.objects_ = _ from hf1, show m2.hasher_ = _ from hf3,
          show m2.neighbourhood_size_ = _ from hf4]
        exact hmB
      · intro e2 he2
        rw [show m2.objects_ = _ from hf1] at he2
        rcases List.mem_cons.mp he2 with h | h
        · exact (hstored2 e2.id).mpr (Or.inr (by rw [h]))
        · exact (hstored2 e2.id).mpr (Or.inl (hInv.onto e2 h))
      · intro e2 he2
        rw [show m2.objects_ = _ from hf1] at he2
        rw [show m2.next_id = _ from hf2]
        rcases List.mem_cons.mp he2 with h | h
        · rw [h]
          dsimp only
          omega
        · have := hInv.ids_lt e2 h
          dsimp only
          omega
      · rw [show m2.objects_ = _ from hf1]
        exact hnodup1
      · rw [show m2.objects_ = _ from hf1]
        exact hkeys1
      · refine ⟨?_, ?_⟩
        · rw [show m2.neighbourhood_size_ = _ from hf4]
          exact hInv.dims.1
        · have h5 := hf5
          rw [show m2.neighbourhood_size_ = _ from hf4]
          show m.neighbourhood_size_ ≤ m2.buckets_.length
          rw [h5]
          exact hInv.dims.2
    · next m2 heq2 =>
      obtain ⟨hf1, hf2, hf3, hf4, hf5⟩ := InsertObject_frame
        { m with objects_ := ⟨m.next_id, key, val⟩ :: m.objects_,
                 next_id := m.next_id + 1 } m.next_id
      obtain ⟨hmB, -, -⟩ := InsertObject_master
        { m with objects_ := ⟨m.next_id, key, val⟩ :: m.objects_,
                 next_id := m.next_id + 1 } m.next_id hm1B hnew hlen0
      rw [heq2] at hmB hf1 hf2 hf3 hf4 hf5
      have hm2B : BInv m2.objects_ m2.hasher_ m2.neighbourhood_size_
          m2.buckets_ := by
        rw [show m2.objects_ = _ from hf1, show m2.hasher_ = _ from hf3,
          show m2.neighbourhood_size_ = _ from hf4]
        exact hmB
      split at hres
      · exact Option.noConfusion hres
      · next m3 heq3 =>
        obtain ⟨hc1, hc2, hc3, hc4, hc5⟩ := HandleCollision_master fuel m2 m3
          hm2B (by rw [show m2.objects_ = _ from hf1]; exact hnodup1)
          (by rw [hf5]; exact hlen0) heq3
        have hgd : GoodDims m3 := HandleCollision_goodDims fuel m2 m3
          ⟨by rw [show m2.neighbourhood_size_ = _ from hf4]
              exact hInv.dims.1,
            by rw [show m2.neighbourhood_size_ = _ from hf4, hf5]
               exact hInv.dims.2⟩ heq3
        split at hres
        · next b3 hfo3 =>
          injection hres with hres
          obtain ⟨h1, -⟩ := Prod.mk.inj hres
          rw [← h1]
          refine ⟨hc1, hc2, ?_, ?_, ?_, hgd⟩
          · intro e2 he2
            rw [hc3, show m2.objects_ = _ from hf1] at he2
            rw [hc4, show m2.next_id = _ from hf2]
            rcases List.mem_cons.mp he2 with h | h
            · rw [h]
              dsimp only
              omega
            · have := hInv.ids_lt e2 h
              dsimp only
              omega
          · rw [hc3, show m2.objects_ = _ from hf1]
            exact hnodup1
          · rw [hc3, show m2.objects_ = _ from hf1]
            exact hkeys1
        · exact Option.noConfusion hres

/-- Every reachable state satisfies the full invariant. -/
theorem Reachable_Inv (m : HashMap) (h : Reachable m) : Inv m := by
  induction h with
  | init hasher => exact mkHashMap_Inv hasher
  | insert hR hres ih => exact insert_Inv _ _ _ _ _ _ ih hres
  | erase key hR ih => exact erase_Inv _ key ih
  | clear hR ih => exact clear_Inv _

/-! ### The public-surface claim layer -/

/-- The walk of the home-discovery description: starting from a chain node,
repeatedly follow `next_delta_`, collecting the visited bucket indices
(fuelled, since the described walk is a priori unbounded). -/
def chainWalkAux (bs : List Bucket) : Nat → Nat → List Nat
  | 0, _ => []
  | fuel + 1, a =>
    if (bget bs a).next_delta_ = NULL_DELTA then [a]
    else a :: chainWalkAux bs fuel (a + (bget bs a).next_delta_)

/-- Follow `first_delta_` of bucket `h`, then the `next_delta_` chain. -/
def chainWalk (bs : List Bucket) (h : Nat) : List Nat :=
  if (bget bs h).first_delta_ = NULL_DELTA then []
  else chainWalkAux bs bs.length (h + (bget bs h).first_delta_)

/-- Run one `insert(key, val)` and keep the resulting map. -/
def insKV (m : HashMap) (key val : Nat) : HashMap :=
  match insert m key val 9 with
  | some (m', _) => m'
  | none => m

/-- A fresh map with the identity hasher. -/
def cw0 : HashMap := mkHashMap (fun k => k)

/-- `cw0` after `insert(0, 5)`: one entry of key `0` and value `5`, stored in
bucket `0` under handle `0`. -/
def cw1 : HashMap := insKV cw0 0 5

theorem cw1_eq : insert cw0 0 5 9 = some (cw1, 0) := rfl

theorem Reachable_cw1 : Reachable cw1 :=
  Reachable.insert (Reachable.init (fun k => k)) cw1_eq

/-- On a linked chain suffix, the fuelled walk reproduces the node list. -/
theorem chainWalkAux_of_linkedFrom (bs : List Bucket)
    (hlenU : bs.length < U64) :
    ∀ (l : List Nat) (a fuel : Nat), LinkedFrom bs a l →
      (∀ x ∈ l, x < bs.length) → l.length < fuel →
      chainWalkAux bs fuel a = a :: l := by
  intro l
  induction l with
  | nil =>
    intro a fuel hL hmem hfuel
    cases fuel with
    | zero => simp at hfuel
    | succ fuel =>
      have hnl : (bget bs a).next_delta_ = NULL_DELTA := hL
      rw [chainWalkAux, if_pos hnl]
  | cons b l ih =>
    intro a fuel hL hmem hfuel
    have hL' : a < b ∧ (bget bs a).next_delta_ = b - a ∧
        (bget bs b).prev_delta_ = b - a ∧ LinkedFrom bs b l := hL
    obtain ⟨hab, hnd, -, hLF⟩ := hL'
    cases fuel with
    | zero => simp at hfuel
    | succ fuel =>
      have hblen : b < bs.length := hmem b (List.mem_cons_self b l)
      have hne : (bget bs a).next_delta_ ≠ NULL_DELTA := by
        rw [hnd]
        simp only [NULL_DELTA]
        omega
      rw [chainWalkAux, if_neg hne, hnd,
        show a + (b - a) = b from by omega,
        ih b fuel hLF (fun x hx => hmem x (List.mem_cons_of_mem b hx))
          (by simp only [List.length_cons] at hfuel; omega)]

/-- The public lookup surface, characterised through the invariant: a key is
found exactly when some entry holds it, and then `find`, `findVal` and
`atVal` all report that entry. -/
theorem FindObject_chars (m : HashMap) (hInv : Inv m) (key : Nat) :
    (FindObject m key = none ↔ ∀ e ∈ m.objects_, e.key ≠ key) ∧
    (∀ e ∈ m.objects_, e.key = key →
      find m key = some e.id ∧ findVal m key = some e.val ∧
      atVal m key = Except.ok e.val) := by
  obtain ⟨hsome, hnone⟩ := FindObject_spec m hInv key
  constructor
  · constructor
    · exact hnone
    · intro habs
      rcases hfo : FindObject m key with _ | b
      · rfl
      · obtain ⟨-, -, e, he, -, hek⟩ := hsome b hfo
        exact absurd hek (habs e he)
  · intro e he hek
    rcases hfo : FindObject m key with _ | b
    · exact absurd hek (hnone hfo e he)
    · obtain ⟨-, -, e2, he2, hbid, he2k⟩ := hsome b hfo
      have he2e : e2 = e :=
        List.inj_on_of_nodup_map hInv.keys_nodup he2 he
          (by rw [he2k, hek])
      have hbid2 : (bget m.buckets_ b).object_it_ = e.id := by
        rw [hbid, he2e]
      have hlook : lookupEntry m.objects_
          ((bget m.buckets_ b).object_it_) = some e := by
        rw [hbid2]
        exact lookupEntry_mem hInv.ids_nodup he
      refine ⟨?_, ?_, ?_⟩
      · simp only [find, hfo, Option.map_some', hbid2]
      · simp only [findVal, hfo, hlook, Option.map_some']
      · simp only [atVal, hfo, hlook]

/-- After a successful `insert`, the returned handle is exactly what `find`
reports for the key, and a fresh key receives the inserted value. -/
theorem insert_find (m : HashMap) (k v fuel : Nat) (m1 : HashMap) (h1 : Nat)
    (hInv : Inv m)
    (hins : insert m k v fuel = some (m1, h1)) :
    find m1 k = some h1 ∧
      (FindObject m k = none → findVal m1 k = some v) := by
  have hInv1 : Inv m1 := insert_Inv m k v fuel m1 h1 hInv hins
  unfold insert at hins
  split at hins
  · next b hfo =>
    injection hins with hins
    obtain ⟨hm, hh⟩ := Prod.mk.inj hins
    subst hm
    refine ⟨?_, ?_⟩
    · simp only [find, hfo, Option.map_some', hh]
    · intro hnone
      rw [hfo] at hnone
      exact Option.noConfusion hnone
  · next hfo =>
    have hlen0 : 0 < m.buckets_.length := by
      have := hInv.dims
      omega
    have hm1B : BInv (⟨m.next_id, k, v⟩ :: m.objects_) m.hasher_
        m.neighbourhood_size_ m.buckets_ :=
      BInv_cons _ _ _ _ _ hInv.binv
    have hnew : ¬ storedId m.buckets_ m.next_id := by
      rintro ⟨j, hjlen, hjocc, hjid⟩
      obtain ⟨e2, he2, hje, -⟩ := hInv.binv.occ j hjlen hjocc
      have := hInv.ids_lt e2 he2
      omega
    have hnodup1 : ((⟨m.next_id, k, v⟩ :: m.objects_).map
        Entry.id).Nodup := by
      rw [List.map_cons, List.nodup_cons]
      refine ⟨?_, hInv.ids_nodup⟩
      intro hmem
      obtain ⟨e2, he2, heq2⟩ := List.mem_map.mp hmem
      dsimp only at heq2
      have := hInv.ids_lt e2 he2
      omega
    dsimp only at hins
    split at hins
    · next m2 b heq =>
      injection hins with hins
      obtain ⟨hm, hh⟩ := Prod.mk.inj hins
      subst hm
      obtain ⟨-, -, hmS⟩ := InsertObject_master
        { m with objects_ := ⟨m.next_id, k, v⟩ :: m.objects_,
                 next_id := m.next_id + 1 } m.next_id hm1B hnew hlen0
      obtain ⟨hf1, -, -, -, -⟩ := InsertObject_frame
        { m with objects_ := ⟨m.next_id, k, v⟩ :: m.objects_,
                 next_id := m.next_id + 1 } m.next_id
      rw [heq] at hmS hf1
      dsimp only at hf1
      have hoid : (bget m2.buckets_ b).object_it_ = m.next_id :=
        (hmS b rfl).2
      have hmem : (⟨m.next_id, k, v⟩ : Entry) ∈ m2.objects_ := by
        rw [hf1]
        exact List.mem_cons_self _ _
      obtain ⟨hfind, hval, -⟩ := (FindObject_chars m2 hInv1 k).2
        ⟨m.next_id, k, v⟩ hmem rfl
      have hh1 : h1 = m.next_id := by omega
      refine ⟨?_, fun _ => hval⟩
      rw [hfind, hh1]
    · next m2 heq =>
      obtain ⟨hf1, hf2, hf3, hf4, hf5⟩ := InsertObject_frame
        { m with objects_ := ⟨m.next_id, k, v⟩ :: m.objects_,
                 next_id := m.next_id + 1 } m.next_id
      obtain ⟨hmB, -, -⟩ := InsertObject_master
        { m with objects_ := ⟨m.next_id, k, v⟩ :: m.objects_,
                 next_id := m.next_id + 1 } m.next_id hm1B hnew hlen0
      rw [heq] at hmB hf1 hf2 hf3 hf4 hf5
      split at hins
      · exact Option.noConfusion hins
      · next m3 heq3 =>
        have hm2B : BInv m2.objects_ m2.hasher_ m2.neighbourhood_size_
            m2.buckets_ := by
          rw [show m2.objects_ = _ from hf1, show m2.hasher_ = _ from hf3,
            show m2.neighbourhood_size_ = _ from hf4]
          exact hmB
        obtain ⟨-, -, hc3, -, -⟩ := HandleCollision_master fuel m2 m3 hm2B
          (by rw [show m2.objects_ = _ from hf1]; exact hnodup1)
          (by rw [hf5]; exact hlen0) heq3
        split at hins
        · next b3 hfo3 =>
          injection hins with hins
          obtain ⟨hm, hh⟩ := Prod.mk.inj hins
          subst hm
          have hmem : (⟨m.next_id, k, v⟩ : Entry) ∈ m3.objects_ := by
            rw [hc3, show m2.objects_ = _ from hf1]
            exact List.mem_cons_self _ _
          obtain ⟨-, hval, -⟩ := (FindObject_chars m3 hInv1 k).2
            ⟨m.next_id, k, v⟩ hmem rfl
          refine ⟨?_, fun _ => hval⟩
          simp only [find, hfo3, Option.map_some', hh]
        · exact Option.noConfusion hins

/-- C1.  Neighborhood invariant: in every reachable state, every occupied
bucket `i` holds an entry whose home index `hash(key) % capacity` lies at
most `i`, with `i - home_index < H`. -/
theorem neighborhood_invariant (m : HashMap) (hR : Reachable m) (i : Nat)
    (hilen : i < capacity m) (hiocc : occAt m.buckets_ i) :
    ∃ e ∈ m.objects_, (bget m.buckets_ i).object_it_ = e.id ∧
      GetStartBucket m e.key ≤ i ∧
      i - GetStartBucket m e.key < m.neighbourhood_size_ := by
  have hInv := Reachable_Inv m hR
  obtain ⟨e, he, h1, h2, h3, h4⟩ := hInv.binv.occ i hilen hiocc
  refine ⟨e, he, h1, ?_, ?_⟩
  · show m.hasher_ e.key % m.buckets_.length ≤ i
    rw [h2]
    exact h3
  · show i - (m.hasher_ e.key % m.buckets_.length) < m.neighbourhood_size_
    rw [h2]
    exact h4

/-- Witness for `neighborhood_invariant` at the occupied bucket `0` of the
reachable one-entry state `cw1`. -/
theorem neighborhood_invariant_witness :
    ∃ e ∈ cw1.objects_, (bget cw1.buckets_ 0).object_it_ = e.id ∧
      GetStartBucket cw1 e.key ≤ 0 ∧
      0 - GetStartBucket cw1 e.key < cw1.neighbourhood_size_ :=
  neighborhood_invariant cw1 Reachable_cw1 0 (by decide) (by decide)

/-- C2, counterexample to the unconditional no-overwrite reading.  In the
reachable state `cw1` (key `0` already stored with value `5`), `insert(0, 1)`
followed by `insert(0, 2)` both return normally, yet the value stored for key
`0` afterwards is `5`, not the first call's argument `1`. -/
theorem insert_overwrite_cex :
    Reachable cw1 ∧
      insert cw1 0 1 9 = some (cw1, 0) ∧
      insert cw1 0 2 9 = some (cw1, 0) ∧
      findVal cw1 0 = some 5 ∧ (5 : Nat) ≠ 1 :=
  ⟨Reachable_cw1, rfl, rfl, rfl, by decide⟩

/-- C2 (corrected).  A second insert of an already-present key is a complete
no-op: it returns the same map and the same handle as `find` reports, so the
size is unchanged; and the stored value is the first call's `v1` provided the
key was absent before the first call (if the key pre-existed, both calls keep
the even older value, which refutes the unconditional reading). -/
theorem insert_no_overwrite (m m1 m2 : HashMap)
    (k v1 v2 fuel1 fuel2 h1 h2 : Nat)
    (hR : Reachable m)
    (hins1 : insert m k v1 fuel1 = some (m1, h1))
    (hins2 : insert m1 k v2 fuel2 = some (m2, h2)) :
    m2 = m1 ∧ h2 = h1 ∧ size m2 = size m1 ∧
      (find m k = none → findVal m2 k = some v1) := by
  have hInv := Reachable_Inv m hR
  obtain ⟨hfind1, hval1⟩ := insert_find m k v1 fuel1 m1 h1 hInv hins1
  obtain ⟨b, hfo1, hoidb⟩ : ∃ b, FindObject m1 k = some b ∧
      (bget m1.buckets_ b).object_it_ = h1 := by
    rcases hfo : FindObject m1 k with _ | b
    · exfalso
      simp only [find, hfo, Option.map_none'] at hfind1
      exact Option.noConfusion hfind1
    · refine ⟨b, rfl, ?_⟩
      simp only [find, hfo, Option.map_some'] at hfind1
      exact Option.some.inj hfind1
  unfold insert at hins2
  split at hins2
  · next b' hfo' =>
    injection hins2 with hins2
    obtain ⟨hm, hh⟩ := Prod.mk.inj hins2
    have hb' : b' = b := by
      rw [hfo'] at hfo1
      exact Option.some.inj hfo1
    refine ⟨hm.symm, ?_, by rw [hm], ?_⟩
    · rw [← hh, hb']
      exact hoidb
    · intro hnone
      have hfo0 : FindObject m k = none := by
        unfold find at hnone
        exact Option.map_eq_none'.mp hnone
      rw [← hm]
      exact hval1 hfo0
  · next hfo' =>
    rw [hfo1] at hfo'
    exact Option.noConfusion hfo'

/-- Witness for `insert_no_overwrite`: insert value `5` then value `7` for
key `0` into a fresh map. -/
theorem insert_no_overwrite_witness :
    cw1 = cw1 ∧ (0 : Nat) = 0 ∧ size cw1 = size cw1 ∧
      (find cw0 0 = none → findVal cw1 0 = some 5) :=
  insert_no_overwrite cw0 cw1 cw1 0 5 7 9 9 0 0
    (Reachable.init (fun k => k)) cw1_eq rfl

/-- C5.  Chain invariant: in every reachable state, for every home index `h`
with at least one occupant (witnessed by bucket `i0` holding entry `e0` whose
key hashes home to `h`), bucket `h` has a non-sentinel `first_delta_`, and the
walk that follows `first_delta_` then repeatedly `next_delta_` visits exactly
the occupied buckets whose stored entry has home `h`, each exactly once, in
strictly increasing bucket order. -/
theorem chain_invariant (m : HashMap) (hR : Reachable m) (h i0 : Nat)
    (e0 : Entry) (hi0len : i0 < capacity m) (hi0occ : occAt m.buckets_ i0)
    (he0 : e0 ∈ m.objects_) (hid0 : (bget m.buckets_ i0).object_it_ = e0.id)
    (hhome0 : GetStartBucket m e0.key = h) :
    (bget m.buckets_ h).first_delta_ ≠ NULL_DELTA ∧
      chainWalk m.buckets_ h = chainIndices m.buckets_ h ∧
      (∀ i, i ∈ chainWalk m.buckets_ h ↔
        (i < capacity m ∧ occAt m.buckets_ i ∧
          ∃ e ∈ m.objects_, (bget m.buckets_ i).object_it_ = e.id ∧
            GetStartBucket m e.key = h)) ∧
      (chainWalk m.buckets_ h).Sorted (· < ·) ∧
      (chainWalk m.buckets_ h).Nodup := by
  have hInv := Reachable_Inv m hR
  have hlenU := hInv.binv.capU
  have hhome0' : m.hasher_ e0.key % m.buckets_.length = h := hhome0
  obtain ⟨e', he', hid', hhash', hle', -⟩ := hInv.binv.occ i0 hi0len hi0occ
  have he'e0 : e' = e0 :=
    List.inj_on_of_nodup_map hInv.ids_nodup he' he0
      (hid'.symm.trans hid0)
  rw [he'e0] at hhash'
  have hob : (bget m.buckets_ i0).object_bucket_ = h :=
    hhash'.symm.trans hhome0'
  have hi0len' : i0 < m.buckets_.length := hi0len
  have hhlen : h < m.buckets_.length := by omega
  have hchain := hInv.binv.chains h hhlen
  have hmem0 : i0 ∈ chainIndices m.buckets_ h :=
    (mem_chainIndices m.buckets_ h i0).mpr ⟨hi0len', hob⟩
  rcases hCI : chainIndices m.buckets_ h with _ | ⟨a, l⟩
  · rw [hCI] at hmem0
    exact absurd hmem0 (List.not_mem_nil i0)
  · rw [hCI] at hchain
    have hchain' : h ≤ a ∧ (bget m.buckets_ h).first_delta_ = a - h ∧
        (bget m.buckets_ a).prev_delta_ = NULL_DELTA ∧
        LinkedFrom m.buckets_ a l := hchain
    obtain ⟨hha, hfd, -, hLF⟩ := hchain'
    have hmemCI : ∀ x, x ∈ chainIndices m.buckets_ h →
        x < m.buckets_.length :=
      fun x hx => ((mem_chainIndices m.buckets_ h x).mp hx).1
    have halen : a < m.buckets_.length := by
      refine hmemCI a ?_
      rw [hCI]
      exact List.mem_cons_self a l
    have hne : (bget m.buckets_ h).first_delta_ ≠ NULL_DELTA := by
      rw [hfd]
      simp only [NULL_DELTA]
      omega
    have hlenCI : (chainIndices m.buckets_ h).length ≤
        m.buckets_.length := by
      calc (chainIndices m.buckets_ h).length
          ≤ (List.range m.buckets_.length).length :=
            List.length_filter_le _ _
        _ = m.buckets_.length := List.length_range _
    have hwalk : chainWalk m.buckets_ h = chainIndices m.buckets_ h := by
      unfold chainWalk
      rw [if_neg hne, hfd, show h + (a - h) = a from by omega,
        chainWalkAux_of_linkedFrom m.buckets_ hlenU l a
          m.buckets_.length hLF
          (fun x hx => hmemCI x (by rw [hCI]; exact List.mem_cons_of_mem a hx))
          (by rw [hCI] at hlenCI
              simp only [List.length_cons] at hlenCI
              omega),
        hCI]
    refine ⟨hne, hwalk.trans hCI, ?_, ?_, ?_⟩
    · intro i
      rw [hwalk, mem_chainIndices]
      constructor
      · rintro ⟨hilen, hobi⟩
        have hiocc : occAt m.buckets_ i := by
          show (bget m.buckets_ i).object_bucket_ ≠ EMPTY_BUCKET
          rw [hobi]
          simp only [EMPTY_BUCKET]
          omega
        obtain ⟨e, he, h1, h2, -, -⟩ := hInv.binv.occ i hilen hiocc
        exact ⟨hilen, hiocc, e, he, h1, h2.trans hobi⟩
      · rintro ⟨hilen, hiocc, e, he, h1, h2⟩
        refine ⟨hilen, ?_⟩
        obtain ⟨e2, he2, h1', h2', -, -⟩ := hInv.binv.occ i hilen hiocc
        have he2e : e2 = e :=
          List.inj_on_of_nodup_map hInv.ids_nodup he2 he
            (h1'.symm.trans h1)
        rw [he2e] at h2'
        exact h2'.symm.trans h2
    · rw [hwalk]
      exact chainIndices_sorted m.buckets_ h
    · rw [hwalk]
      exact chainIndices_nodup m.buckets_ h

/-- Witness for `chain_invariant` at home `0` of the reachable one-entry
state `cw1`. -/
theorem chain_invariant_witness :
    (bget cw1.buckets_ 0).first_delta_ ≠ NULL_DELTA ∧
      chainWalk cw1.buckets_ 0 = chainIndices cw1.buckets_ 0 ∧
      (∀ i, i ∈ chainWalk cw1.buckets_ 0 ↔
        (i < capacity cw1 ∧ occAt cw1.buckets_ i ∧
          ∃ e ∈ cw1.objects_, (bget cw1.buckets_ i).object_it_ = e.id ∧
            GetStartBucket cw1 e.key = 0)) ∧
      (chainWalk cw1.buckets_ 0).Sorted (· < ·) ∧
      (chainWalk cw1.buckets_ 0).Nodup :=
  chain_invariant cw1 Reachable_cw1 0 0 ⟨0, 0, 5⟩ (by decide) (by decide)
    (by decide) (by decide) (by decide)

/-- C6.  `at(key)` fails with `NotFound` exactly when no entry holds `key`;
on a present key it returns that entry's stored value.  (`find`, `erase` and
`insert` have no error channel at all: the source's only `throw` is in `at`,
which the embedding mirrors by giving only `atVal` an `Except` result.) -/
theorem at_notFound (m : HashMap) (hR : Reachable m) (key : Nat) :
    (atVal m key = Except.error HMError.notFound ↔
      ∀ e ∈ m.objects_, e.key ≠ key) ∧
    (∀ e ∈ m.objects_, e.key = key → atVal m key = Except.ok e.val) := by
  have hInv := Reachable_Inv m hR
  obtain ⟨hchars1, hchars2⟩ := FindObject_chars m hInv key
  refine ⟨⟨?_, ?_⟩, ?_⟩
  · intro hat
    refine hchars1.mp ?_
    rcases hfo : FindObject m key with _ | b
    · rfl
    · exfalso
      simp only [atVal, hfo] at hat
      split at hat <;> exact Except.noConfusion hat
  · intro habs
    have hfo := hchars1.mpr habs
    simp only [atVal, hfo]
  · intro e he hek
    exact (hchars2 e he hek).2.2

/-- Witness for `at_notFound` at the reachable one-entry state `cw1`. -/
theorem at_notFound_witness :
    (atVal cw1 0 = Except.error HMError.notFound ↔
      ∀ e ∈ cw1.objects_, e.key ≠ 0) ∧
    (∀ e ∈ cw1.objects_, e.key = 0 → atVal cw1 0 = Except.ok e.val) :=
  at_notFound cw1 Reachable_cw1 0

/-- C7.  Erase semantics: in every reachable state, after `erase(k)` the key
`k` is no longer found; erasing an absent key is the identity on the map
(hence preserves the size); and the value observable for every other key is
unchanged by the erase. -/
theorem erase_semantics (m : HashMap) (hR : Reachable m) (k : Nat) :
    find (erase m k) k = none ∧
      (find m k = none → erase m k = m) ∧
      (find m k = none → size (erase m k) = size m) ∧
      (∀ k2, k2 ≠ k → findVal (erase m k) k2 = findVal m k2) := by
  have hInv := Reachable_Inv m hR
  have hInv' : Inv (erase m k) := erase_Inv m k hInv
  rcases hfo : FindObject m k with _ | b
  · have hid : erase m k = m := by
      unfold erase
      rw [hfo]
    refine ⟨?_, fun _ => hid, fun _ => by rw [hid], fun k2 _ => by rw [hid]⟩
    rw [hid]
    simp only [find, hfo, Option.map_none']
  · obtain ⟨hblen, hbocc, e, he, hbid, hek⟩ :=
      (FindObject_spec m hInv k).1 b hfo
    have hobj : (erase m k).objects_ =
        m.objects_.eraseP
          (fun e2 => e2.id == (bget m.buckets_ b).object_it_) := by
      unfold erase
      rw [hfo]
    have habs' : ∀ e2 ∈ (erase m k).objects_, e2.key ≠ k := by
      intro e2 he2 he2k
      rw [hobj] at he2
      have he2m : e2 ∈ m.objects_ := List.mem_of_mem_eraseP he2
      have he2e : e2 = e :=
        List.inj_on_of_nodup_map hInv.keys_nodup he2m he
          (by rw [he2k, hek])
      have hne := mem_eraseP_ne ((bget m.buckets_ b).object_it_) m.objects_
        hInv.ids_nodup ⟨e, he, hbid.symm⟩ e2 he2
      rw [he2e, ← hbid] at hne
      exact hne rfl
    have hfo' : FindObject (erase m k) k = none :=
      ((FindObject_chars (erase m k) hInv' k).1).mpr habs'
    refine ⟨?_, ?_, ?_, ?_⟩
    · simp only [find, hfo', Option.map_none']
    · intro hnone
      exfalso
      unfold find at hnone
      rw [hfo] at hnone
      simp at hnone
    · intro hnone
      exfalso
      unfold find at hnone
      rw [hfo] at hnone
      simp at hnone
    · intro k2 hk2
      by_cases hk2p : ∃ e2 ∈ m.objects_, e2.key = k2
      · obtain ⟨e2, he2, he2k⟩ := hk2p
        have hne2 : e2.id ≠ (bget m.buckets_ b).object_it_ := by
          intro hEq
          have he2e : e2 = e :=
            List.inj_on_of_nodup_map hInv.ids_nodup he2 he
              (by rw [hEq, hbid])
          rw [he2e] at he2k
          rw [hek] at he2k
          exact hk2 he2k.symm
        have he2' : e2 ∈ (erase m k).objects_ := by
          rw [hobj, List.mem_eraseP_of_neg (by simpa using hne2)]
          exact he2
        obtain ⟨-, hval2, -⟩ := (FindObject_chars m hInv k2).2 e2 he2 he2k
        obtain ⟨-, hval2', -⟩ :=
          (FindObject_chars (erase m k) hInv' k2).2 e2 he2' he2k
        rw [hval2, hval2']
      · push_neg at hk2p
        have h1 : FindObject m k2 = none :=
          (FindObject_chars m hInv k2).1.mpr hk2p
        have h2 : FindObject (erase m k) k2 = none :=
          (FindObject_chars (erase m k) hInv' k2).1.mpr (by
            intro e2 he2
            refine hk2p e2 ?_
            rw [hobj] at he2
            exact List.mem_of_mem_eraseP he2)
        simp only [findVal, h1, h2]

/-- Witness for `erase_semantics`: erase the present key `0` of `cw1`. -/
theorem erase_semantics_witness :
    find (erase cw1 0) 0 = none ∧
      (find cw1 0 = none → erase cw1 0 = cw1) ∧
      (find cw1 0 = none → size (erase cw1 0) = size cw1) ∧
      (∀ k2, k2 ≠ 0 → findVal (erase cw1 0) k2 = findVal cw1 k2) :=
  erase_semantics cw1 Reachable_cw1 0

end Hopscotch
